import Mathlib

/-!
The kernel-authoring vocabulary of shader-utils: `dsl.h`, `dsl_cuda.h`, `dsl_metal.h`.

A shallow embedding of the two backend adapters.

* `Binary32` models the C type `float`: IEEE 754 binary32 with round-to-nearest-even, every
  operation being the exact rational result rounded once.
* The scalar helpers (`min_t`, `max_t`, `clamp_t`, `mix`, `smoothstep`, `fract`, `dot`,
  `length`) are written over an arbitrary scalar type `F` carrying the operations the C++
  source uses, so that the same definition can be read with IEEE semantics (`F = Binary32`) or
  with exact arithmetic. The properties of the float helpers are stated for both readings.
* The C library functions `sqrtf` and `floorf` are parameters of `length` and `fract`;
  `Binary32.floor` is the IEEE floor on the binary32 model.
* `unsigned int` is modelled by `Nat` with explicit reduction modulo `2 ^ 32`.
* Function-like preprocessor definitions are modelled as functions on token lists; each
  argument is macro replaced with the object-like definitions of the adapter before it is
  substituted, as the preprocessor does.
* Parameter declarations are read off their tokens by a small parser of the C++ declaration
  syntax (`parseParam`, `parseType`), which gives the declared type of an expansion.
* The names each header defines are listed in `dsl_cuda.symbols` and `dsl_metal.symbols`, and
  `dsl.included` is the conditional inclusion of `dsl.h`.
-/

/-! ## IEEE 754 binary32 -/

/-- A binary32 datum: NaN, a signed infinity, or the finite value `(-1)^neg * m * 2^e`. -/
inductive Binary32 where
  | nan : Binary32
  | inf (neg : Bool) : Binary32
  | fin (neg : Bool) (m : Nat) (e : Int) : Binary32
deriving DecidableEq, Repr

namespace Binary32

instance : Inhabited Binary32 := ⟨nan⟩

/-- Well-formed finite datum: a 24-bit significand, exponent of the last place between `-149`
and `104`, and either a normal significand or the subnormal exponent. -/
def Finite : Binary32 → Prop
  | fin _ m e => m < 2 ^ 24 ∧ -149 ≤ e ∧ e ≤ 104 ∧ (2 ^ 23 ≤ m ∨ e = -149)
  | _ => False

instance : DecidablePred Finite := fun a => by
  cases a <;> unfold Finite <;> infer_instance

/-- Neither NaN nor an infinity. -/
def isFin : Binary32 → Bool
  | fin _ _ _ => true
  | _ => false

/-- The rational value of a finite datum (`0` for NaN and infinities). -/
def toRat : Binary32 → ℚ
  | fin neg m e => (if neg then -1 else 1) * (m : ℚ) * 2 ^ e
  | _ => 0

/-- Round a rational to the nearest integer, ties to even. -/
def roundHalfEven (x : ℚ) : ℤ :=
  let f := ⌊x⌋
  let r := x - f
  if r < 1 / 2 then f
  else if 1 / 2 < r then f + 1
  else if f % 2 = 0 then f else f + 1

/-- Floor of the binary logarithm of a natural number, by repeated halving. -/
def log2Fuel : Nat → Nat → Nat
  | 0, _ => 0
  | f + 1, n => if n < 2 then 0 else log2Fuel f (n / 2) + 1

/-- Floor of the binary logarithm of a natural number (`0` at `0`). -/
def flog2 (n : Nat) : Nat := log2Fuel n n

/-- Floor of the binary logarithm of a positive rational. -/
def ilog2 (q : ℚ) : ℤ :=
  let g : ℤ := (flog2 q.num.natAbs : ℤ) - (flog2 q.den : ℤ)
  if (2 : ℚ) ^ g ≤ q then g else g - 1

/-- Round a non-zero rational to binary32, nearest-even, with gradual underflow and overflow
to infinity. -/
def round (q : ℚ) : Binary32 :=
  let neg := decide (q < 0)
  let a := |q|
  let e : ℤ := max (ilog2 a - 23) (-149)
  let m : ℕ := (roundHalfEven (a / 2 ^ e)).toNat
  if m = 2 ^ 24 then
    (if 104 < e + 1 then inf neg else fin neg (2 ^ 23) (e + 1))
  else
    (if 104 < e then inf neg else fin neg m e)

/-- Conversion of an exactly written constant such as `3.0f`. -/
def ofRat (q : ℚ) : Binary32 :=
  if q = 0 then fin false 0 (-149) else round q

/-- IEEE addition. -/
def add : Binary32 → Binary32 → Binary32
  | nan, _ => nan
  | _, nan => nan
  | inf s, inf t => if s = t then inf s else nan
  | inf s, fin _ _ _ => inf s
  | fin _ _ _, inf t => inf t
  | fin s m e, fin t n f =>
    let q := toRat (fin s m e) + toRat (fin t n f)
    if q = 0 then fin (s && t) 0 (-149) else round q

/-- IEEE negation. -/
def neg : Binary32 → Binary32
  | nan => nan
  | inf s => inf (!s)
  | fin s m e => fin (!s) m e

/-- IEEE subtraction. -/
def sub (a b : Binary32) : Binary32 := add a (neg b)

/-- IEEE multiplication. -/
def mul : Binary32 → Binary32 → Binary32
  | nan, _ => nan
  | _, nan => nan
  | inf s, inf t => inf (xor s t)
  | inf s, fin t n _ => if n = 0 then nan else inf (xor s t)
  | fin s m _, inf t => if m = 0 then nan else inf (xor s t)
  | fin s m e, fin t n f =>
    if m = 0 ∨ n = 0 then fin (xor s t) 0 (-149)
    else round (toRat (fin s m e) * toRat (fin t n f))

/-- IEEE division. -/
def div : Binary32 → Binary32 → Binary32
  | nan, _ => nan
  | _, nan => nan
  | inf _, inf _ => nan
  | inf s, fin t _ _ => inf (xor s t)
  | fin s _ _, inf t => fin (xor s t) 0 (-149)
  | fin s m e, fin t n f =>
    if n = 0 then (if m = 0 then nan else inf (xor s t))
    else if m = 0 then fin (xor s t) 0 (-149)
    else round (toRat (fin s m e) / toRat (fin t n f))

/-- IEEE `<`: false whenever an operand is NaN. -/
def lt : Binary32 → Binary32 → Bool
  | nan, _ => false
  | _, nan => false
  | inf s, inf t => s && !t
  | inf s, fin _ _ _ => s
  | fin _ _ _, inf t => !t
  | fin s m e, fin t n f => decide (toRat (fin s m e) < toRat (fin t n f))

/-- IEEE `==`: false whenever an operand is NaN, and `+0 == -0`. -/
def eq : Binary32 → Binary32 → Bool
  | nan, _ => false
  | _, nan => false
  | inf s, inf t => decide (s = t)
  | inf _, fin _ _ _ => false
  | fin _ _ _, inf _ => false
  | fin s m e, fin t n f => decide (toRat (fin s m e) = toRat (fin t n f))

instance : Add Binary32 := ⟨add⟩
instance : Sub Binary32 := ⟨sub⟩
instance : Mul Binary32 := ⟨mul⟩
instance : Div Binary32 := ⟨div⟩
instance : LT Binary32 := ⟨fun a b => lt a b = true⟩
instance : DecidableRel (α := Binary32) (· < ·) := fun a b =>
  inferInstanceAs (Decidable (lt a b = true))
instance (n : Nat) : OfNat Binary32 n := ⟨ofRat n⟩

/-- The exponent of the last place that `round` gives a value of magnitude `a`. -/
def qexp (a : ℚ) : ℤ := max (ilog2 a - 23) (-149)

/-- Rounding of a magnitude to 24 significant bits with the exponent unbounded above: the
magnitude of `round` where it does not overflow. -/
def uround (a : ℚ) : ℚ := (roundHalfEven (a / 2 ^ qexp a) : ℚ) * 2 ^ qexp a

/-- The value of a datum on the extended line, `2 ^ 128` and `-2 ^ 128` standing for the
infinities (`0` for NaN). -/
def ext : Binary32 → ℚ
  | nan => 0
  | inf s => if s then -(2 ^ 128) else 2 ^ 128
  | fin s m e => toRat (fin s m e)

/-- The extended value of the rounding of an exact result `q` (`0` at `0`). -/
def rext (q : ℚ) : ℚ :=
  if q = 0 then 0
  else if q < 0 then -(min (uround |q|) (2 ^ 128))
  else min (uround |q|) (2 ^ 128)

/-- Models the C library function `floorf`: the largest integral value not above the argument
(IEEE roundToIntegralTowardNegative); NaN, the infinities and the zeros are returned as they
are. -/
def floor : Binary32 → Binary32
  | nan => nan
  | inf s => inf s
  | fin s m e =>
    if ⌊toRat (fin s m e)⌋ = 0 then fin s 0 (-149)
    else round ((⌊toRat (fin s m e)⌋ : ℤ) : ℚ)

end Binary32

/-! ## Scalar and vector types -/

/-- The C type `unsigned int`: values are taken modulo `2 ^ 32`. -/
abbrev uint := Nat

/-- Wrap-around of 32-bit unsigned arithmetic. -/
def u32 (n : Nat) : uint := n % 2 ^ 32

/-- The 2-wide float vector over the scalar model `F`. -/
structure float2 (F : Type) where
  x : F
  y : F
deriving DecidableEq, Repr, Inhabited

/-- The 3-wide float vector over the scalar model `F`. -/
structure float3 (F : Type) where
  x : F
  y : F
  z : F
deriving DecidableEq, Repr, Inhabited

/-- The 4-wide float vector over the scalar model `F`. -/
structure float4 (F : Type) where
  x : F
  y : F
  z : F
  w : F
deriving DecidableEq, Repr, Inhabited

/-- The 2-wide unsigned vector. -/
structure uint2 where
  x : uint
  y : uint
deriving DecidableEq, Repr, Inhabited

/-- The 3-wide unsigned vector (also the shape of `blockIdx`, `blockDim`, `threadIdx`). -/
structure uint3 where
  x : uint
  y : uint
  z : uint
deriving DecidableEq, Repr, Inhabited

/-- The 4-wide unsigned vector. -/
structure uint4 where
  x : uint
  y : uint
  z : uint
  w : uint
deriving DecidableEq, Repr, Inhabited

/-! ## Preprocessing tokens -/

/-- A preprocessing token: identifier or keyword, integer literal, or punctuator. -/
inductive Tok where
  | ident (s : String) : Tok
  | num (n : Nat) : Tok
  | p (s : String) : Tok
deriving DecidableEq, Repr

/-- Macro replacement of the object-like definitions of a header in a token sequence: every
identifier the table defines is replaced by its replacement list. The preprocessor does this
to each argument of a function-like definition before it substitutes the argument. The
replacement lists of the two adapters contain no name the adapter defines, so one pass is the
complete replacement; an argument is taken not to invoke a function-like definition. -/
def expandObjectMacros (table : List (String × List Tok)) : List Tok → List Tok
  | [] => []
  | Tok.ident n :: rest =>
    (match table.lookup n with
      | some body => body
      | none => [Tok.ident n]) ++ expandObjectMacros table rest
  | Tok.num k :: rest => Tok.num k :: expandObjectMacros table rest
  | Tok.p s :: rest => Tok.p s :: expandObjectMacros table rest

/-! ## `dsl_cuda.h` -/

namespace dsl_cuda

/-- Models `make_float2`: declare `v`, assign `v.x`, `v.y`, return `v`. -/
def make_float2 {F : Type} [Inhabited F] (x y : F) : float2 F :=
  let v : float2 F := default
  let v := { v with x := x }
  let v := { v with y := y }
  v

/-- Models `make_float3`: declare `v`, assign `v.x`, `v.y`, `v.z`, return `v`. -/
def make_float3 {F : Type} [Inhabited F] (x y z : F) : float3 F :=
  let v : float3 F := default
  let v := { v with x := x }
  let v := { v with y := y }
  let v := { v with z := z }
  v

/-- Models `make_float4`: declare `v`, assign `v.x`, `v.y`, `v.z`, `v.w`, return `v`. -/
def make_float4 {F : Type} [Inhabited F] (x y z w : F) : float4 F :=
  let v : float4 F := default
  let v := { v with x := x }
  let v := { v with y := y }
  let v := { v with z := z }
  let v := { v with w := w }
  v

/-- Models `make_uint2`: declare `v`, assign `v.x`, `v.y`, return `v`. -/
def make_uint2 (x y : uint) : uint2 :=
  let v : uint2 := default
  let v := { v with x := x }
  let v := { v with y := y }
  v

/-- Models `make_uint3`: declare `v`, assign `v.x`, `v.y`, `v.z`, return `v`. -/
def make_uint3 (x y z : uint) : uint3 :=
  let v : uint3 := default
  let v := { v with x := x }
  let v := { v with y := y }
  let v := { v with z := z }
  v

/-- Models `make_uint4`: declare `v`, assign `v.x`, `v.y`, `v.z`, `v.w`, return `v`. -/
def make_uint4 (x y z w : uint) : uint4 :=
  let v : uint4 := default
  let v := { v with x := x }
  let v := { v with y := y }
  let v := { v with z := z }
  let v := { v with w := w }
  v

section floatN_ops
variable {F : Type} [Inhabited F] [Add F] [Sub F] [Mul F] [Div F]

/-- Models `operator+(float2, float2)`. -/
instance : HAdd (float2 F) (float2 F) (float2 F) :=
  ⟨fun a b => make_float2 (a.x + b.x) (a.y + b.y)⟩
/-- Models `operator-(float2, float2)`. -/
instance : HSub (float2 F) (float2 F) (float2 F) :=
  ⟨fun a b => make_float2 (a.x - b.x) (a.y - b.y)⟩
/-- Models `operator*(float2, float)`. -/
instance : HMul (float2 F) F (float2 F) :=
  ⟨fun a s => make_float2 (a.x * s) (a.y * s)⟩
/-- Models `operator*(float, float2)`. -/
instance : HMul F (float2 F) (float2 F) :=
  ⟨fun s a => a * s⟩
/-- Models `operator/(float2, float)`. -/
instance : HDiv (float2 F) F (float2 F) :=
  ⟨fun a s => make_float2 (a.x / s) (a.y / s)⟩

/-- Models `operator+(float3, float3)`. -/
instance : HAdd (float3 F) (float3 F) (float3 F) :=
  ⟨fun a b => make_float3 (a.x + b.x) (a.y + b.y) (a.z + b.z)⟩
/-- Models `operator-(float3, float3)`. -/
instance : HSub (float3 F) (float3 F) (float3 F) :=
  ⟨fun a b => make_float3 (a.x - b.x) (a.y - b.y) (a.z - b.z)⟩
/-- Models `operator*(float3, float)`. -/
instance : HMul (float3 F) F (float3 F) :=
  ⟨fun a s => make_float3 (a.x * s) (a.y * s) (a.z * s)⟩
/-- Models `operator*(float, float3)`. -/
instance : HMul F (float3 F) (float3 F) :=
  ⟨fun s a => a * s⟩
/-- Models `operator/(float3, float)`. -/
instance : HDiv (float3 F) F (float3 F) :=
  ⟨fun a s => make_float3 (a.x / s) (a.y / s) (a.z / s)⟩

/-- Models `operator+(float4, float4)`. -/
instance : HAdd (float4 F) (float4 F) (float4 F) :=
  ⟨fun a b => make_float4 (a.x + b.x) (a.y + b.y) (a.z + b.z) (a.w + b.w)⟩
/-- Models `operator-(float4, float4)`. -/
instance : HSub (float4 F) (float4 F) (float4 F) :=
  ⟨fun a b => make_float4 (a.x - b.x) (a.y - b.y) (a.z - b.z) (a.w - b.w)⟩
/-- Models `operator*(float4, float)`. -/
instance : HMul (float4 F) F (float4 F) :=
  ⟨fun a s => make_float4 (a.x * s) (a.y * s) (a.z * s) (a.w * s)⟩
/-- Models `operator*(float, float4)`. -/
instance : HMul F (float4 F) (float4 F) :=
  ⟨fun s a => a * s⟩
/-- Models `operator/(float4, float)`. -/
instance : HDiv (float4 F) F (float4 F) :=
  ⟨fun a s => make_float4 (a.x / s) (a.y / s) (a.z / s) (a.w / s)⟩

end floatN_ops

section helpers
variable {T : Type} [LT T] [DecidableRel (α := T) (· < ·)]

/-- Models `min_t(a, b) = a < b ? a : b`. -/
def min_t (a b : T) : T := if a < b then a else b

/-- Models `max_t(a, b) = a > b ? a : b`. -/
def max_t (a b : T) : T := if a > b then a else b

/-- Models `clamp_t(x, a, b) = min_t(max_t(x, a), b)`. -/
def clamp_t (x a b : T) : T := min_t (max_t x a) b

end helpers

section intrinsics
variable {F : Type} [Inhabited F] [Add F] [Sub F] [Mul F] [Div F]

/-- Models `mix(float, float, float)`. -/
def mix (a b t : F) : F := a + (b - a) * t

/-- Models `mix(float2, float2, float)`. -/
def mix2 (a b : float2 F) (t : F) : float2 F := a + (b - a) * t

/-- Models `mix(float3, float3, float)`. -/
def mix3 (a b : float3 F) (t : F) : float3 F := a + (b - a) * t

/-- Models `mix(float4, float4, float)`. -/
def mix4 (a b : float4 F) (t : F) : float4 F := a + (b - a) * t

/-- Models `dot(float2, float2)`. -/
def dot2 (a b : float2 F) : F := a.x * b.x + a.y * b.y

/-- Models `dot(float3, float3)`. -/
def dot3 (a b : float3 F) : F := a.x * b.x + a.y * b.y + a.z * b.z

/-- Models `length(float2) = sqrtf(dot(v, v))`; the C library function `sqrtf` is a parameter. -/
def length2 (sqrtf : F → F) (v : float2 F) : F := sqrtf (dot2 v v)

/-- Models `length(float3) = sqrtf(dot(v, v))`; the C library function `sqrtf` is a parameter. -/
def length3 (sqrtf : F → F) (v : float3 F) : F := sqrtf (dot3 v v)

/-- Models `fract(x) = x - floorf(x)`; the C library function `floorf` is a parameter. -/
def fract (floorf : F → F) (x : F) : F := x - floorf x

variable [LT F] [DecidableRel (α := F) (· < ·)] [OfNat F 0] [OfNat F 1] [OfNat F 2] [OfNat F 3]

/-- Models `smoothstep(a, b, x)`. -/
def smoothstep (a b x : F) : F :=
  let t : F := clamp_t ((x - a) / (b - a)) 0 1
  t * t * (3 - 2 * t)

end intrinsics

/-- The `uint2` declared by `thread_pos_init(name)`, given the values of the built-in
variables `blockIdx`, `blockDim` and `threadIdx`; the arithmetic is `unsigned int`. -/
def thread_pos_init (blockIdx blockDim threadIdx : uint3) : uint2 :=
  make_uint2 (u32 (u32 (blockIdx.x * blockDim.x) + threadIdx.x))
             (u32 (u32 (blockIdx.y * blockDim.y) + threadIdx.y))

/-- The object-like definitions of `dsl_cuda.h` with their replacement lists: `kernel`,
`device`, `restrict_ptr`, `constant`, `threadgroup_mem` and `thread_local` (whose replacement
list is a comment only). -/
def objectMacros : List (String × List Tok) :=
  [("kernel", [Tok.ident "__global__"]),
   ("device", [Tok.ident "__device__", Tok.ident "__forceinline__"]),
   ("restrict_ptr", [Tok.ident "__restrict__"]),
   ("constant", [Tok.ident "const"]),
   ("threadgroup_mem", [Tok.ident "__shared__"]),
   ("thread_local", [])]

/-- An argument of a function-like definition of `dsl_cuda.h` after its macro replacement. -/
def expandArg (arg : List Tok) : List Tok := expandObjectMacros objectMacros arg

namespace expand
open Tok

/-- Models `#define param_dev_ro(T, name, slot) const T *name`. -/
def param_dev_ro (T name _slot : List Tok) : List Tok :=
  [ident "const"] ++ expandArg T ++ [p "*"] ++ expandArg name

/-- Models `#define param_dev_rw(T, name, slot) T *name`. -/
def param_dev_rw (T name _slot : List Tok) : List Tok :=
  expandArg T ++ [p "*"] ++ expandArg name

/-- Models `#define param_dev_wo(T, name, slot) T *name`. -/
def param_dev_wo (T name _slot : List Tok) : List Tok :=
  expandArg T ++ [p "*"] ++ expandArg name

/-- Models `#define param_dev_cbuf(T, name, slot) const T &name`. -/
def param_dev_cbuf (T name _slot : List Tok) : List Tok :=
  [ident "const"] ++ expandArg T ++ [p "&"] ++ expandArg name

/-- Models `#define thread_pos_init(name) uint2 name = make_uint2(blockIdx.x * blockDim.x +
threadIdx.x, blockIdx.y * blockDim.y + threadIdx.y)`. -/
def thread_pos_init (name : List Tok) : List Tok :=
  [ident "uint2"] ++ expandArg name ++
  [p "=", ident "make_uint2", p "(",
    ident "blockIdx", p ".", ident "x", p "*", ident "blockDim", p ".", ident "x", p "+",
    ident "threadIdx", p ".", ident "x", p ",",
    ident "blockIdx", p ".", ident "y", p "*", ident "blockDim", p ".", ident "y", p "+",
    ident "threadIdx", p ".", ident "y", p ")"]

end expand

end dsl_cuda

/-! ## `dsl_metal.h` -/

namespace dsl_metal

/-- Models `make_float2(x, y) = float2(x, y)`, the built-in vector constructor. -/
def make_float2 {F : Type} (x y : F) : float2 F := float2.mk x y

/-- Models `make_float3(x, y, z) = float3(x, y, z)`. -/
def make_float3 {F : Type} (x y z : F) : float3 F := float3.mk x y z

/-- Models `make_float4(x, y, z, w) = float4(x, y, z, w)`. -/
def make_float4 {F : Type} (x y z w : F) : float4 F := float4.mk x y z w

/-- Models `make_uint2(x, y) = uint2(x, y)`. -/
def make_uint2 (x y : uint) : uint2 := uint2.mk x y

/-- Models `make_uint3(x, y, z) = uint3(x, y, z)`. -/
def make_uint3 (x y z : uint) : uint3 := uint3.mk x y z

/-- Models `make_uint4(x, y, z, w) = uint4(x, y, z, w)`. -/
def make_uint4 (x y z w : uint) : uint4 := uint4.mk x y z w

/-- The object-like definitions of `dsl_metal.h` with their replacement lists: `stdlib`,
`restrict`, `threadgroup_mem` and `thread_local`. -/
def objectMacros : List (String × List Tok) :=
  [("stdlib", [Tok.p "<", Tok.ident "metal_stdlib", Tok.p ">", Tok.p ";", Tok.ident "using",
      Tok.ident "namespace", Tok.ident "metal"]),
   ("restrict", [Tok.ident "__restrict"]),
   ("threadgroup_mem", [Tok.ident "threadgroup"]),
   ("thread_local", [Tok.ident "thread"])]

/-- An argument of a function-like definition of `dsl_metal.h` after its macro replacement. -/
def expandArg (arg : List Tok) : List Tok := expandObjectMacros objectMacros arg

namespace expand
open Tok

/-- Models `#define device_ptr(T) device T*`. -/
def device_ptr (T : List Tok) : List Tok := [ident "device"] ++ expandArg T ++ [p "*"]

/-- Models `#define device_cptr(T) device const T*`. -/
def device_cptr (T : List Tok) : List Tok :=
  [ident "device", ident "const"] ++ expandArg T ++ [p "*"]

/-- Models `#define constant_ref(T) constant T&`. -/
def constant_ref (T : List Tok) : List Tok := [ident "constant"] ++ expandArg T ++ [p "&"]

/-- The attribute `[[buffer(slot)]]`. -/
def buffer_attr (slot : List Tok) : List Tok :=
  [p "[", p "[", ident "buffer", p "("] ++ slot ++ [p ")", p "]", p "]"]

/-- Models `#define param_dev_ro(T, name, slot) device_cptr(T) name [[buffer(slot)]]`. -/
def param_dev_ro (T name slot : List Tok) : List Tok :=
  device_cptr (expandArg T) ++ expandArg name ++ buffer_attr (expandArg slot)

/-- Models `#define param_dev_rw(T, name, slot) device_ptr(T) name [[buffer(slot)]]`. -/
def param_dev_rw (T name slot : List Tok) : List Tok :=
  device_ptr (expandArg T) ++ expandArg name ++ buffer_attr (expandArg slot)

/-- Models `#define param_dev_wo(T, name, slot) device_ptr(T) name [[buffer(slot)]]`. -/
def param_dev_wo (T name slot : List Tok) : List Tok :=
  device_ptr (expandArg T) ++ expandArg name ++ buffer_attr (expandArg slot)

/-- Models `#define param_dev_cbuf(T, name, slot) constant_ref(T) name [[buffer(slot)]]`. -/
def param_dev_cbuf (T name slot : List Tok) : List Tok :=
  constant_ref (expandArg T) ++ expandArg name ++ buffer_attr (expandArg slot)

/-- Models `#define thread_pos_init(name)`, whose replacement list is a comment only. -/
def thread_pos_init (_name : List Tok) : List Tok := []

end expand

end dsl_metal

/-! ## `dsl.h` -/

namespace dsl

/-- Models `dsl.h`: the headers it includes, given the names defined as preprocessor symbols
when it is read. The conditional is `defined(SUPPORT_CUDA)`: the first branch includes
`dsl_cuda.h`, the `else` branch includes `dsl_metal.h`. -/
def included (defined : List String) : List String :=
  if "SUPPORT_CUDA" ∈ defined then ["dsl_cuda.h"] else ["dsl_metal.h"]

end dsl

/-! ## Reading declarations off token sequences -/

/-- The C++ types the parameter declarations of the adapters need: a type named by
type-specifier tokens, a pointer, or a reference, with their `const` qualification. -/
inductive CType where
  | named (spec : List Tok) (isConst : Bool) : CType
  | ptr (pointee : CType) (isConst : Bool) : CType
  | ref (referee : CType) : CType
deriving DecidableEq, Repr

namespace CType

/-- Whether a type is `const`-qualified at top level. -/
def isConst : CType → Bool
  | named _ c => c
  | ptr _ c => c
  | ref _ => false

end CType

/-- A name defined by a header, with its number of parameters (`none` for an object-like
definition or a type name). -/
structure DefinedName where
  name : String
  params : Option Nat
deriving DecidableEq, Repr

namespace dsl_cuda

/-- The names `dsl_cuda.h` defines, in source order, overloads included. -/
def symbols : List DefinedName :=
  [⟨"uint", none⟩, ⟨"uint2", none⟩, ⟨"uint3", none⟩, ⟨"uint4", none⟩,
   ⟨"make_float2", some 2⟩, ⟨"make_float3", some 3⟩, ⟨"make_float4", some 4⟩,
   ⟨"make_uint2", some 2⟩, ⟨"make_uint3", some 3⟩, ⟨"make_uint4", some 4⟩,
   ⟨"float2", some 2⟩, ⟨"float3", some 3⟩, ⟨"float4", some 4⟩,
   ⟨"uint2", some 2⟩, ⟨"uint3", some 3⟩, ⟨"uint4", some 4⟩,
   ⟨"operator+", some 2⟩, ⟨"operator-", some 2⟩, ⟨"operator*", some 2⟩, ⟨"operator*", some 2⟩,
   ⟨"operator/", some 2⟩,
   ⟨"operator+", some 2⟩, ⟨"operator-", some 2⟩, ⟨"operator*", some 2⟩, ⟨"operator*", some 2⟩,
   ⟨"operator/", some 2⟩,
   ⟨"operator+", some 2⟩, ⟨"operator-", some 2⟩, ⟨"operator*", some 2⟩, ⟨"operator*", some 2⟩,
   ⟨"operator/", some 2⟩,
   ⟨"min_t", some 2⟩, ⟨"max_t", some 2⟩, ⟨"clamp_t", some 3⟩,
   ⟨"mix", some 3⟩, ⟨"mix", some 3⟩, ⟨"mix", some 3⟩, ⟨"mix", some 3⟩,
   ⟨"step", some 2⟩, ⟨"smoothstep", some 3⟩, ⟨"fract", some 1⟩,
   ⟨"dot", some 2⟩, ⟨"dot", some 2⟩, ⟨"length", some 1⟩, ⟨"length", some 1⟩,
   ⟨"kernel", none⟩, ⟨"device", none⟩, ⟨"restrict_ptr", none⟩,
   ⟨"constant", none⟩, ⟨"threadgroup_mem", none⟩, ⟨"thread_local", none⟩,
   ⟨"param_dev_ro", some 3⟩, ⟨"param_dev_rw", some 3⟩, ⟨"param_dev_wo", some 3⟩,
   ⟨"param_dev_cbuf", some 3⟩,
   ⟨"thread_pos_param", some 1⟩, ⟨"thread_pos_init", some 1⟩,
   ⟨"threadgroup_barrier_all", some 0⟩]

end dsl_cuda

namespace dsl_metal

/-- The names `dsl_metal.h` defines, in source order. -/
def symbols : List DefinedName :=
  [⟨"stdlib", none⟩, ⟨"restrict", none⟩,
   ⟨"device_ptr", some 1⟩, ⟨"device_cptr", some 1⟩, ⟨"constant_ref", some 1⟩,
   ⟨"threadgroup_mem", none⟩, ⟨"thread_local", none⟩,
   ⟨"param_dev_ro", some 3⟩, ⟨"param_dev_rw", some 3⟩, ⟨"param_dev_wo", some 3⟩,
   ⟨"param_dev_cbuf", some 3⟩,
   ⟨"thread_pos_param", some 1⟩, ⟨"thread_pos_init", some 1⟩,
   ⟨"threadgroup_barrier_all", some 0⟩,
   ⟨"make_float2", some 2⟩, ⟨"make_float3", some 3⟩, ⟨"make_float4", some 4⟩,
   ⟨"make_uint2", some 2⟩, ⟨"make_uint3", some 3⟩, ⟨"make_uint4", some 4⟩]

end dsl_metal

/-! ## Vector factories -/

/-- C1: in the CUDA adapter and in the Metal adapter, each factory `make_floatN` / `make_uintN`
(N = 2, 3, 4) returns a vector whose components `x`, `y`, `z`, `w` are exactly the constructor
arguments, in order, for all argument values. -/
theorem C1_make_vecN_components {F : Type} [Inhabited F] :
    (∀ x y : F, (dsl_cuda.make_float2 x y).x = x ∧ (dsl_cuda.make_float2 x y).y = y) ∧
    (∀ x y z : F, (dsl_cuda.make_float3 x y z).x = x ∧ (dsl_cuda.make_float3 x y z).y = y ∧
      (dsl_cuda.make_float3 x y z).z = z) ∧
    (∀ x y z w : F, (dsl_cuda.make_float4 x y z w).x = x ∧ (dsl_cuda.make_float4 x y z w).y = y ∧
      (dsl_cuda.make_float4 x y z w).z = z ∧ (dsl_cuda.make_float4 x y z w).w = w) ∧
    (∀ x y : uint, (dsl_cuda.make_uint2 x y).x = x ∧ (dsl_cuda.make_uint2 x y).y = y) ∧
    (∀ x y z : uint, (dsl_cuda.make_uint3 x y z).x = x ∧ (dsl_cuda.make_uint3 x y z).y = y ∧
      (dsl_cuda.make_uint3 x y z).z = z) ∧
    (∀ x y z w : uint, (dsl_cuda.make_uint4 x y z w).x = x ∧ (dsl_cuda.make_uint4 x y z w).y = y ∧
      (dsl_cuda.make_uint4 x y z w).z = z ∧ (dsl_cuda.make_uint4 x y z w).w = w) ∧
    (∀ x y : F, (dsl_metal.make_float2 x y).x = x ∧ (dsl_metal.make_float2 x y).y = y) ∧
    (∀ x y z : F, (dsl_metal.make_float3 x y z).x = x ∧ (dsl_metal.make_float3 x y z).y = y ∧
      (dsl_metal.make_float3 x y z).z = z) ∧
    (∀ x y z w : F, (dsl_metal.make_float4 x y z w).x = x ∧
      (dsl_metal.make_float4 x y z w).y = y ∧ (dsl_metal.make_float4 x y z w).z = z ∧
      (dsl_metal.make_float4 x y z w).w = w) ∧
    (∀ x y : uint, (dsl_metal.make_uint2 x y).x = x ∧ (dsl_metal.make_uint2 x y).y = y) ∧
    (∀ x y z : uint, (dsl_metal.make_uint3 x y z).x = x ∧ (dsl_metal.make_uint3 x y z).y = y ∧
      (dsl_metal.make_uint3 x y z).z = z) ∧
    (∀ x y z w : uint, (dsl_metal.make_uint4 x y z w).x = x ∧
      (dsl_metal.make_uint4 x y z w).y = y ∧ (dsl_metal.make_uint4 x y z w).z = z ∧
      (dsl_metal.make_uint4 x y z w).w = w) := by
  refine ⟨?_, ?_, ?_, ?_, ?_, ?_, ?_, ?_, ?_, ?_, ?_, ?_⟩ <;> intros <;>
    first | exact ⟨rfl, rfl⟩ | exact ⟨rfl, rfl, rfl⟩ | exact ⟨rfl, rfl, rfl, rfl⟩

/-! ## Thread position -/

/-- Uniqueness of quotient and remainder: `g * s + l` with `l < s` determines `g` and `l`. -/
theorem index_split_unique {s g l g' l' : Nat} (hl : l < s) (hl' : l' < s)
    (h : g * s + l = g' * s + l') : g = g' ∧ l = l' := by
  have hs : 0 < s := Nat.lt_of_le_of_lt (Nat.zero_le _) hl
  have hg : g = g' := by
    have h1 : (g * s + l) / s = g := by
      rw [Nat.mul_comm, Nat.mul_add_div hs, Nat.div_eq_of_lt hl, Nat.add_zero]
    have h2 : (g' * s + l') / s = g' := by
      rw [Nat.mul_comm, Nat.mul_add_div hs, Nat.div_eq_of_lt hl', Nat.add_zero]
    rw [← h1, ← h2, h]
  subst hg
  exact ⟨rfl, Nat.add_left_cancel h⟩

/-- No wrap-around: when `g * s + l` fits in 32 bits, the `unsigned int` computation of it
gives the exact value. -/
theorem u32_index_exact {g s l : Nat} (h : g * s + l < 2 ^ 32) :
    u32 (u32 (g * s) + l) = g * s + l := by
  have h1 : g * s < 2 ^ 32 := Nat.lt_of_le_of_lt (Nat.le_add_right _ _) h
  unfold u32
  rw [Nat.mod_eq_of_lt h1, Nat.mod_eq_of_lt h]

/-- C2: with `blockIdx = (gx, gy)`, `blockDim = (sx, sy)`, `threadIdx = (lx, ly)` and
`gx*sx+lx < 2^32`, `gy*sy+ly < 2^32`, the `uint2` declared by the CUDA `thread_pos_init` has
`x = gx*sx+lx` and `y = gy*sy+ly`: the 32-bit computation does not wrap. -/
theorem C2_thread_pos_formula (gx gy gz sx sy sz lx ly lz : uint)
    (hx : gx * sx + lx < 2 ^ 32) (hy : gy * sy + ly < 2 ^ 32) :
    (dsl_cuda.thread_pos_init ⟨gx, gy, gz⟩ ⟨sx, sy, sz⟩ ⟨lx, ly, lz⟩).x = gx * sx + lx ∧
    (dsl_cuda.thread_pos_init ⟨gx, gy, gz⟩ ⟨sx, sy, sz⟩ ⟨lx, ly, lz⟩).y = gy * sy + ly :=
  ⟨u32_index_exact hx, u32_index_exact hy⟩

/-- C2 at block (3, 2) of 16 x 8 threads, thread (5, 7): position (53, 23). -/
theorem C2_thread_pos_formula_witness :
    (dsl_cuda.thread_pos_init ⟨3, 2, 0⟩ ⟨16, 8, 1⟩ ⟨5, 7, 0⟩).x = 3 * 16 + 5 ∧
    (dsl_cuda.thread_pos_init ⟨3, 2, 0⟩ ⟨16, 8, 1⟩ ⟨5, 7, 0⟩).y = 2 * 8 + 7 :=
  C2_thread_pos_formula 3 2 0 16 8 1 5 7 0 (by decide) (by decide)

/-- C3 fails as stated: with 1024-wide blocks, thread 0 of block 4194304 and thread 0 of
block 0 are given the same position, because `4194304 * 1024 = 2^32` wraps to `0`. -/
theorem C3_thread_pos_collision :
    (0 : Nat) < 1024 ∧ (0 : Nat) < 1 ∧ (4194304 : Nat) < 2 ^ 32 ∧
    dsl_cuda.thread_pos_init ⟨4194304, 0, 0⟩ ⟨1024, 1, 1⟩ ⟨0, 0, 0⟩ =
      dsl_cuda.thread_pos_init ⟨0, 0, 0⟩ ⟨1024, 1, 1⟩ ⟨0, 0, 0⟩ ∧
    (4194304 : Nat) ≠ 0 := by
  decide

/-- C3, amended: for a fixed group size, two threads whose local indices are below the group
size and whose exact positions `g*s+l` fit in 32 bits on both axes get equal positions from
the CUDA `thread_pos_init` only if their group and local indices coincide. -/
theorem C3_thread_pos_unique_no_wrap (sx sy sz gx gy gz lx ly lz gx' gy' gz' lx' ly' lz' : uint)
    (hlx : lx < sx) (hlx' : lx' < sx) (hly : ly < sy) (hly' : ly' < sy)
    (hx : gx * sx + lx < 2 ^ 32) (hx' : gx' * sx + lx' < 2 ^ 32)
    (hy : gy * sy + ly < 2 ^ 32) (hy' : gy' * sy + ly' < 2 ^ 32)
    (h : dsl_cuda.thread_pos_init ⟨gx, gy, gz⟩ ⟨sx, sy, sz⟩ ⟨lx, ly, lz⟩ =
      dsl_cuda.thread_pos_init ⟨gx', gy', gz'⟩ ⟨sx, sy, sz⟩ ⟨lx', ly', lz'⟩) :
    gx = gx' ∧ gy = gy' ∧ lx = lx' ∧ ly = ly' := by
  have ex : (dsl_cuda.thread_pos_init ⟨gx, gy, gz⟩ ⟨sx, sy, sz⟩ ⟨lx, ly, lz⟩).x =
      (dsl_cuda.thread_pos_init ⟨gx', gy', gz'⟩ ⟨sx, sy, sz⟩ ⟨lx', ly', lz'⟩).x := by rw [h]
  have ey : (dsl_cuda.thread_pos_init ⟨gx, gy, gz⟩ ⟨sx, sy, sz⟩ ⟨lx, ly, lz⟩).y =
      (dsl_cuda.thread_pos_init ⟨gx', gy', gz'⟩ ⟨sx, sy, sz⟩ ⟨lx', ly', lz'⟩).y := by rw [h]
  have px := index_split_unique hlx hlx'
    ((u32_index_exact hx).symm.trans (ex.trans (u32_index_exact hx')))
  have py := index_split_unique hly hly'
    ((u32_index_exact hy).symm.trans (ey.trans (u32_index_exact hy')))
  exact ⟨px.1, py.1, px.2, py.2⟩

/-- C3, amended, at 16 x 8 blocks: a thread sharing the position of thread (5, 7) of block
(3, 2) is that thread. -/
theorem C3_thread_pos_unique_no_wrap_witness :
    (3 : Nat) = 3 ∧ (2 : Nat) = 2 ∧ (5 : Nat) = 5 ∧ (7 : Nat) = 7 :=
  C3_thread_pos_unique_no_wrap 16 8 1 3 2 0 5 7 0 3 2 0 5 7 0
    (by decide) (by decide) (by decide) (by decide) (by decide) (by decide) (by decide)
    (by decide) rfl

/-! ## `clamp_t` -/

/-- C4: over a totally ordered scalar type, `clamp_t(x, lo, hi)` with `lo <= hi` returns a value
between `lo` and `hi`, and `clamp_t(x, lo, lo) == lo` for every `x`. -/
theorem C4_clamp_t_bounds {T : Type} [LinearOrder T] :
    (∀ x lo hi : T, lo ≤ hi →
      lo ≤ dsl_cuda.clamp_t x lo hi ∧ dsl_cuda.clamp_t x lo hi ≤ hi) ∧
    (∀ x lo : T, dsl_cuda.clamp_t x lo lo = lo) := by
  constructor
  · intro x lo hi h
    unfold dsl_cuda.clamp_t dsl_cuda.min_t dsl_cuda.max_t
    by_cases h1 : x > lo
    · rw [if_pos h1]
      by_cases h2 : x < hi
      · rw [if_pos h2]; exact ⟨le_of_lt h1, le_of_lt h2⟩
      · rw [if_neg h2]; exact ⟨h, le_refl hi⟩
    · rw [if_neg h1]
      by_cases h2 : lo < hi
      · rw [if_pos h2]; exact ⟨le_refl lo, h⟩
      · rw [if_neg h2]; exact ⟨h, le_refl hi⟩
  · intro x lo
    unfold dsl_cuda.clamp_t dsl_cuda.min_t dsl_cuda.max_t
    by_cases h1 : x > lo
    · rw [if_pos h1, if_neg (not_lt_of_gt h1)]
    · rw [if_neg h1, if_neg (lt_irrefl lo)]

/-- C4 on the integers: `clamp_t(9, 2, 5)` lies in `[2, 5]`. -/
theorem C4_clamp_t_bounds_witness :
    (2 : Int) ≤ dsl_cuda.clamp_t 9 2 5 ∧ dsl_cuda.clamp_t (9 : Int) 2 5 ≤ 5 :=
  C4_clamp_t_bounds.1 9 2 5 (by decide)

/-! ## Vector operators -/

/-- C8: in the CUDA adapter, for N = 2, 3, 4, the operators on `floatN` act lane by lane with
the scalar broadcast: lane `i` of `a + b` is `a_i + b_i`, of `a - b` is `a_i - b_i`, of `a * s`
is `a_i * s` and of `a / s` is `a_i / s`; the result is again a `floatN`. -/
theorem C8_floatN_ops_lanewise {F : Type} [Inhabited F] [Add F] [Sub F] [Mul F] [Div F] :
    (∀ (a b : float2 F) (s : F),
      (a + b : float2 F) = ⟨a.x + b.x, a.y + b.y⟩ ∧
      (a - b : float2 F) = ⟨a.x - b.x, a.y - b.y⟩ ∧
      (a * s : float2 F) = ⟨a.x * s, a.y * s⟩ ∧
      (a / s : float2 F) = ⟨a.x / s, a.y / s⟩) ∧
    (∀ (a b : float3 F) (s : F),
      (a + b : float3 F) = ⟨a.x + b.x, a.y + b.y, a.z + b.z⟩ ∧
      (a - b : float3 F) = ⟨a.x - b.x, a.y - b.y, a.z - b.z⟩ ∧
      (a * s : float3 F) = ⟨a.x * s, a.y * s, a.z * s⟩ ∧
      (a / s : float3 F) = ⟨a.x / s, a.y / s, a.z / s⟩) ∧
    (∀ (a b : float4 F) (s : F),
      (a + b : float4 F) = ⟨a.x + b.x, a.y + b.y, a.z + b.z, a.w + b.w⟩ ∧
      (a - b : float4 F) = ⟨a.x - b.x, a.y - b.y, a.z - b.z, a.w - b.w⟩ ∧
      (a * s : float4 F) = ⟨a.x * s, a.y * s, a.z * s, a.w * s⟩ ∧
      (a / s : float4 F) = ⟨a.x / s, a.y / s, a.z / s, a.w / s⟩) :=
  ⟨fun _ _ _ => ⟨rfl, rfl, rfl, rfl⟩, fun _ _ _ => ⟨rfl, rfl, rfl, rfl⟩,
    fun _ _ _ => ⟨rfl, rfl, rfl, rfl⟩⟩

/-- C9: in the CUDA adapter scalar multiplication exists in both operand orders and the two
agree: for N = 2, 3, 4, every `floatN` vector `a` and scalar `s`, `s * a` and `a * s` have the
same lanes, each being `a_i * s`. -/
theorem C9_scalar_mul_orders_agree {F : Type} [Inhabited F] [Add F] [Sub F] [Mul F] [Div F] :
    (∀ (a : float2 F) (s : F), (s * a : float2 F) = a * s ∧
      (s * a : float2 F).x = a.x * s ∧ (s * a : float2 F).y = a.y * s) ∧
    (∀ (a : float3 F) (s : F), (s * a : float3 F) = a * s ∧
      (s * a : float3 F).x = a.x * s ∧ (s * a : float3 F).y = a.y * s ∧
      (s * a : float3 F).z = a.z * s) ∧
    (∀ (a : float4 F) (s : F), (s * a : float4 F) = a * s ∧
      (s * a : float4 F).x = a.x * s ∧ (s * a : float4 F).y = a.y * s ∧
      (s * a : float4 F).z = a.z * s ∧ (s * a : float4 F).w = a.w * s) :=
  ⟨fun _ _ => ⟨rfl, rfl, rfl⟩, fun _ _ => ⟨rfl, rfl, rfl, rfl⟩,
    fun _ _ => ⟨rfl, rfl, rfl, rfl, rfl⟩⟩

/-! ## Parameter-binding forms -/

/-- The attribute `[[buffer(slot)]]` determines its slot. -/
theorem buffer_attr_injective {s1 s2 : List Tok}
    (h : dsl_metal.expand.buffer_attr s1 = dsl_metal.expand.buffer_attr s2) : s1 = s2 := by
  unfold dsl_metal.expand.buffer_attr at h
  exact List.append_cancel_left (List.append_cancel_right h)

/-- C10 fails as stated: in the CUDA adapter `param_dev_ro(float, src, 0)` and
`param_dev_ro(float, src, 1)` have the same expansion, `const float *src`. -/
theorem C10_cuda_slot_dropped :
    dsl_cuda.expand.param_dev_ro [Tok.ident "float"] [Tok.ident "src"] [Tok.num 0] =
      dsl_cuda.expand.param_dev_ro [Tok.ident "float"] [Tok.ident "src"] [Tok.num 1] ∧
    dsl_cuda.expand.param_dev_ro [Tok.ident "float"] [Tok.ident "src"] [Tok.num 0] =
      [Tok.ident "const", Tok.ident "float", Tok.p "*", Tok.ident "src"] ∧
    Tok.num 0 ≠ Tok.num 1 := by
  decide

/-- C10, amended: in the Metal adapter each of the four parameter forms carries its slot into
the expansion (different slot numbers give different expansions), while in the CUDA adapter
each of the four forms discards the slot (the expansion is the same for every slot). -/
theorem C10_slot_in_expansion (T name : List Tok) (s1 s2 : Nat) :
    (s1 ≠ s2 →
      dsl_metal.expand.param_dev_ro T name [Tok.num s1] ≠
        dsl_metal.expand.param_dev_ro T name [Tok.num s2] ∧
      dsl_metal.expand.param_dev_rw T name [Tok.num s1] ≠
        dsl_metal.expand.param_dev_rw T name [Tok.num s2] ∧
      dsl_metal.expand.param_dev_wo T name [Tok.num s1] ≠
        dsl_metal.expand.param_dev_wo T name [Tok.num s2] ∧
      dsl_metal.expand.param_dev_cbuf T name [Tok.num s1] ≠
        dsl_metal.expand.param_dev_cbuf T name [Tok.num s2]) ∧
    dsl_cuda.expand.param_dev_ro T name [Tok.num s1] =
      dsl_cuda.expand.param_dev_ro T name [Tok.num s2] ∧
    dsl_cuda.expand.param_dev_rw T name [Tok.num s1] =
      dsl_cuda.expand.param_dev_rw T name [Tok.num s2] ∧
    dsl_cuda.expand.param_dev_wo T name [Tok.num s1] =
      dsl_cuda.expand.param_dev_wo T name [Tok.num s2] ∧
    dsl_cuda.expand.param_dev_cbuf T name [Tok.num s1] =
      dsl_cuda.expand.param_dev_cbuf T name [Tok.num s2] := by
  refine ⟨fun hne => ?_, rfl, rfl, rfl, rfl⟩
  have key : ∀ pre : List Tok,
      pre ++ dsl_metal.expand.buffer_attr [Tok.num s1] ≠
        pre ++ dsl_metal.expand.buffer_attr [Tok.num s2] := by
    intro pre h
    have h2 := buffer_attr_injective (List.append_cancel_left h)
    exact hne (Tok.num.inj (List.cons.inj h2).1)
  exact ⟨key (dsl_metal.expand.device_cptr (dsl_metal.expandArg T) ++ dsl_metal.expandArg name),
    key (dsl_metal.expand.device_ptr (dsl_metal.expandArg T) ++ dsl_metal.expandArg name),
    key (dsl_metal.expand.device_ptr (dsl_metal.expandArg T) ++ dsl_metal.expandArg name),
    key (dsl_metal.expand.constant_ref (dsl_metal.expandArg T) ++ dsl_metal.expandArg name)⟩

/-- C10, amended, at `float`, `src`, slots 0 and 1. -/
theorem C10_slot_in_expansion_witness :
    dsl_metal.expand.param_dev_ro [Tok.ident "float"] [Tok.ident "src"] [Tok.num 0] ≠
      dsl_metal.expand.param_dev_ro [Tok.ident "float"] [Tok.ident "src"] [Tok.num 1] :=
  ((C10_slot_in_expansion [Tok.ident "float"] [Tok.ident "src"] 0 1).1 (by decide)).1

/-! ## Properties of the binary32 model -/

namespace Binary32

theorem log2Fuel_spec : ∀ (f n : Nat), n ≤ f → 0 < n →
    2 ^ log2Fuel f n ≤ n ∧ n < 2 ^ (log2Fuel f n + 1) := by
  intro f
  induction f with
  | zero => intro n h1 h2; omega
  | succ f ih =>
    intro n h1 h2
    unfold log2Fuel
    by_cases h : n < 2
    · rw [if_pos h]
      have : n = 1 := by omega
      subst this
      decide
    · rw [if_neg h]
      have h3 := ih (n / 2) (by omega) (by omega)
      rw [pow_succ, pow_succ]
      rw [pow_succ] at h3
      omega

theorem flog2_spec {n : Nat} (h : 0 < n) : 2 ^ flog2 n ≤ n ∧ n < 2 ^ (flog2 n + 1) :=
  log2Fuel_spec n n (le_refl n) h

theorem two_zpow_pos (k : ℤ) : (0 : ℚ) < 2 ^ k := zpow_pos (by norm_num) k

theorem ratio_bounds {n d a b : ℕ} (hd : 0 < d) (a1 : 2 ^ a ≤ n) (a2 : n < 2 ^ (a + 1))
    (b1 : 2 ^ b ≤ d) (b2 : d < 2 ^ (b + 1)) :
    (2 : ℚ) ^ ((a : ℤ) - (b : ℤ) - 1) ≤ (n : ℚ) / (d : ℚ) ∧
    (n : ℚ) / (d : ℚ) < 2 ^ ((a : ℤ) - (b : ℤ) + 1) := by
  have hdq : (0 : ℚ) < (d : ℚ) := by exact_mod_cast hd
  have two_ne : (2 : ℚ) ≠ 0 := by norm_num
  have A1 : (2 : ℚ) ^ (a : ℤ) ≤ (n : ℚ) := by
    rw [zpow_natCast]; exact_mod_cast a1
  have A2 : (n : ℚ) < (2 : ℚ) ^ ((a : ℤ) + 1) := by
    have : ((a : ℤ) + 1) = ((a + 1 : ℕ) : ℤ) := by norm_cast
    rw [this, zpow_natCast]; exact_mod_cast a2
  have B1 : (2 : ℚ) ^ (b : ℤ) ≤ (d : ℚ) := by
    rw [zpow_natCast]; exact_mod_cast b1
  have B2 : (d : ℚ) < (2 : ℚ) ^ ((b : ℤ) + 1) := by
    have : ((b : ℤ) + 1) = ((b + 1 : ℕ) : ℤ) := by norm_cast
    rw [this, zpow_natCast]; exact_mod_cast b2
  have hn0 : (0 : ℚ) ≤ (n : ℚ) := Nat.cast_nonneg n
  constructor
  · have e : (2 : ℚ) ^ ((a : ℤ) - (b : ℤ) - 1) = 2 ^ (a : ℤ) / 2 ^ ((b : ℤ) + 1) := by
      rw [← zpow_sub₀ two_ne]; congr 1; ring
    rw [e, div_le_div_iff₀ (two_zpow_pos _) hdq]
    calc (2 : ℚ) ^ (a : ℤ) * (d : ℚ)
        ≤ (n : ℚ) * (d : ℚ) := mul_le_mul_of_nonneg_right A1 (le_of_lt hdq)
      _ ≤ (n : ℚ) * 2 ^ ((b : ℤ) + 1) := mul_le_mul_of_nonneg_left (le_of_lt B2) hn0
  · have e : (2 : ℚ) ^ ((a : ℤ) - (b : ℤ) + 1) = 2 ^ ((a : ℤ) + 1) / 2 ^ (b : ℤ) := by
      rw [← zpow_sub₀ two_ne]; congr 1; ring
    rw [e, div_lt_div_iff₀ hdq (two_zpow_pos _)]
    calc (n : ℚ) * 2 ^ (b : ℤ)
        ≤ (n : ℚ) * (d : ℚ) := mul_le_mul_of_nonneg_left B1 hn0
      _ < 2 ^ ((a : ℤ) + 1) * (d : ℚ) := mul_lt_mul_of_pos_right A2 hdq

theorem ilog2_spec {q : ℚ} (hq : 0 < q) : (2 : ℚ) ^ ilog2 q ≤ q ∧ q < 2 ^ (ilog2 q + 1) := by
  have hnum : 0 < q.num := Rat.num_pos.mpr hq
  have hn : 0 < q.num.natAbs := Int.natAbs_pos.mpr (ne_of_gt hnum)
  have hd : 0 < q.den := q.den_pos
  obtain ⟨a1, a2⟩ := flog2_spec hn
  obtain ⟨b1, b2⟩ := flog2_spec hd
  have hqe : (q.num.natAbs : ℚ) / (q.den : ℚ) = q := by
    rw [Nat.cast_natAbs, abs_of_pos hnum]
    exact Rat.num_div_den q
  obtain ⟨Lw, U⟩ := ratio_bounds hd a1 a2 b1 b2
  rw [hqe] at Lw U
  unfold ilog2
  simp only
  by_cases h : (2 : ℚ) ^ ((flog2 q.num.natAbs : ℤ) - (flog2 q.den : ℤ)) ≤ q
  · rw [if_pos h]; exact ⟨h, U⟩
  · rw [if_neg h]
    refine ⟨Lw, ?_⟩
    rw [sub_add_cancel]
    exact lt_of_not_le h

theorem two_zpow_unique {q : ℚ} {j k : ℤ} (hj1 : (2 : ℚ) ^ j ≤ q) (hj2 : q < 2 ^ (j + 1))
    (hk1 : (2 : ℚ) ^ k ≤ q) (hk2 : q < 2 ^ (k + 1)) : j = k := by
  have one_lt : (1 : ℚ) < 2 := by norm_num
  have h1 : j < k + 1 := (zpow_lt_zpow_iff_right₀ one_lt).mp (lt_of_le_of_lt hj1 hk2)
  have h2 : k < j + 1 := (zpow_lt_zpow_iff_right₀ one_lt).mp (lt_of_le_of_lt hk1 hj2)
  omega

theorem roundHalfEven_intCast (n : ℤ) : roundHalfEven (n : ℚ) = n := by
  unfold roundHalfEven
  simp only [Int.floor_intCast, sub_self]
  rw [if_pos (by norm_num)]

theorem le_roundHalfEven {n : ℤ} {x : ℚ} (h : (n : ℚ) ≤ x) : n ≤ roundHalfEven x := by
  have hf : n ≤ ⌊x⌋ := Int.le_floor.mpr h
  unfold roundHalfEven
  simp only
  split_ifs <;> omega

theorem roundHalfEven_le {n : ℤ} {x : ℚ} (h : x ≤ (n : ℚ)) : roundHalfEven x ≤ n := by
  have hf : ⌊x⌋ ≤ n := Int.floor_le_iff.mpr (lt_of_le_of_lt h (by linarith))
  have hf1 : x - (⌊x⌋ : ℚ) ≠ 0 → ⌊x⌋ + 1 ≤ n := by
    intro hne
    have h1 : (⌊x⌋ : ℚ) ≤ x := Int.floor_le x
    have h2 : (⌊x⌋ : ℚ) < x := lt_of_le_of_ne h1 (fun e => hne (by rw [e]; ring))
    have h3 : (⌊x⌋ : ℚ) < (n : ℚ) := lt_of_lt_of_le h2 h
    have h4 : ⌊x⌋ < n := by exact_mod_cast h3
    omega
  unfold roundHalfEven
  simp only
  split_ifs with c1 c2 c3
  · exact hf
  · exact hf1 (by intro e; rw [e] at c2; norm_num at c2)
  · exact hf
  · exact hf1 (by intro e; rw [e] at c1; norm_num at c1)

theorem ilog2_natCast_mul {m k : ℕ} (e : ℤ) (h1 : 2 ^ k ≤ m) (h2 : m < 2 ^ (k + 1)) :
    ilog2 ((m : ℚ) * 2 ^ e) = (k : ℤ) + e := by
  have two_ne : (2 : ℚ) ≠ 0 := by norm_num
  have hm : (0 : ℚ) < (m : ℚ) := by
    have : 0 < m := Nat.lt_of_lt_of_le (Nat.two_pow_pos k) h1
    exact_mod_cast this
  have hq : (0 : ℚ) < (m : ℚ) * 2 ^ e := mul_pos hm (two_zpow_pos e)
  obtain ⟨s1, s2⟩ := ilog2_spec hq
  refine two_zpow_unique s1 s2 ?_ ?_
  · rw [zpow_add₀ two_ne, zpow_natCast]
    exact mul_le_mul_of_nonneg_right (by exact_mod_cast h1) (le_of_lt (two_zpow_pos e))
  · have e1 : (k : ℤ) + e + 1 = ((k + 1 : ℕ) : ℤ) + e := by push_cast; ring
    rw [e1, zpow_add₀ two_ne, zpow_natCast]
    exact mul_lt_mul_of_pos_right (by exact_mod_cast h2) (two_zpow_pos e)

/-- The quantum exponent and the rounded significand chosen by `round` for a value of
magnitude `a`. -/
theorem round_aux {a : ℚ} (ha : 0 < a) :
    (roundHalfEven (a / 2 ^ max (ilog2 a - 23) (-149))).toNat ≤ 2 ^ 24 ∧
    (2 ^ 23 ≤ (roundHalfEven (a / 2 ^ max (ilog2 a - 23) (-149))).toNat ∨
      max (ilog2 a - 23) (-149) = -149) ∧
    ((2 : ℚ) ^ (-149 : ℤ) ≤ a →
      1 ≤ (roundHalfEven (a / 2 ^ max (ilog2 a - 23) (-149))).toNat) := by
  have two_ne : (2 : ℚ) ≠ 0 := by norm_num
  have one_le : (1 : ℚ) ≤ 2 := by norm_num
  obtain ⟨s1, s2⟩ := ilog2_spec ha
  generalize ilog2 a = L at s1 s2 ⊢
  generalize he : max (L - 23) (-149) = e
  have he1 : L - 23 ≤ e := by rw [← he]; exact le_max_left _ _
  have he2 : -149 ≤ e := by rw [← he]; exact le_max_right _ _
  have hpe : (0 : ℚ) < 2 ^ e := two_zpow_pos e
  -- upper bound
  have up : a / 2 ^ e ≤ ((2 ^ 24 : ℤ) : ℚ) := by
    rw [div_le_iff₀ hpe]
    have e1 : (((2 ^ 24 : ℤ) : ℚ)) * 2 ^ e = 2 ^ (24 + e) := by
      rw [zpow_add₀ two_ne]; norm_num
    rw [e1]
    exact le_trans (le_of_lt s2) (zpow_le_zpow_right₀ one_le (by omega))
  have hup : roundHalfEven (a / 2 ^ e) ≤ 2 ^ 24 := roundHalfEven_le up
  -- lower bound in the normal range
  have lowN : e = L - 23 → (2 ^ 23 : ℤ) ≤ roundHalfEven (a / 2 ^ e) := by
    intro h
    apply le_roundHalfEven
    rw [le_div_iff₀ hpe]
    have e1 : (((2 ^ 23 : ℤ) : ℚ)) * 2 ^ e = 2 ^ L := by
      have : L = 23 + e := by omega
      rw [this, zpow_add₀ two_ne]; norm_num
    rw [e1]; exact s1
  have lowS : (2 : ℚ) ^ (-149 : ℤ) ≤ a → e = -149 → (1 : ℤ) ≤ roundHalfEven (a / 2 ^ e) := by
    intro h1 h2
    apply le_roundHalfEven
    rw [le_div_iff₀ hpe, h2]
    simpa using h1
  have hcase : e = L - 23 ∨ e = -149 := by
    rw [← he]
    rcases le_total (L - 23) (-149) with h | h
    · right; exact max_eq_right h
    · left; exact max_eq_left h
  refine ⟨by omega, ?_, ?_⟩
  · rcases hcase with h | h
    · left; have := lowN h; omega
    · right; exact h
  · intro h1
    rcases hcase with h | h
    · have := lowN h; omega
    · have := lowS h1 h; omega

/-- A finite result of `round` is a well-formed datum. -/
theorem round_finite {q : ℚ} (hq : q ≠ 0) (h : (round q).isFin = true) : Finite (round q) := by
  have ha : 0 < |q| := abs_pos.mpr hq
  obtain ⟨b1, b2, -⟩ := round_aux ha
  have he2 : -149 ≤ max (ilog2 |q| - 23) (-149) := le_max_right _ _
  unfold round at h ⊢
  simp only at h ⊢
  generalize max (ilog2 |q| - 23) (-149) = e at b1 b2 he2 h ⊢
  generalize (roundHalfEven (|q| / 2 ^ e)).toNat = m at b1 b2 h ⊢
  split_ifs at h ⊢ with c1 c2 c3
  · exact absurd h (by simp [isFin])
  · exact ⟨by norm_num, by omega, by omega, Or.inl (le_refl _)⟩
  · exact absurd h (by simp [isFin])
  · refine ⟨by omega, he2, by omega, ?_⟩
    rcases b2 with b | b
    · exact Or.inl b
    · exact Or.inr b

/-- Values of magnitude at least `2 ^ (-149)` do not round to zero. -/
theorem round_ne_zero {q : ℚ} (hq : q ≠ 0) (h : (2 : ℚ) ^ (-149 : ℤ) ≤ |q|) (s : Bool) (e : ℤ) :
    round q ≠ fin s 0 e := by
  have ha : 0 < |q| := abs_pos.mpr hq
  obtain ⟨-, -, b3⟩ := round_aux ha
  have b := b3 h
  unfold round
  simp only
  generalize max (ilog2 |q| - 23) (-149) = e' at b ⊢
  generalize (roundHalfEven (|q| / 2 ^ e')).toNat = m at b ⊢
  split_ifs <;> intro hc
  · exact Binary32.noConfusion hc
  · have := (fin.inj hc).2.1; norm_num at this
  · exact Binary32.noConfusion hc
  · have := (fin.inj hc).2.1; omega

theorem toRat_fin (s : Bool) (m : ℕ) (e : ℤ) :
    toRat (fin s m e) = (if s then -1 else 1) * (m : ℚ) * 2 ^ e := rfl

theorem toRat_pos_sign (m : ℕ) (e : ℤ) : toRat (fin false m e) = (m : ℚ) * 2 ^ e := by
  simp [toRat]

theorem toRat_neg_sign (m : ℕ) (e : ℤ) : toRat (fin true m e) = -((m : ℚ) * 2 ^ e) := by
  simp [toRat]

theorem abs_toRat_fin (s : Bool) (m : ℕ) (e : ℤ) : |toRat (fin s m e)| = (m : ℚ) * 2 ^ e := by
  have h1 : (0 : ℚ) ≤ (m : ℚ) * 2 ^ e := mul_nonneg (Nat.cast_nonneg m) (le_of_lt (two_zpow_pos e))
  cases s
  · rw [toRat_pos_sign]; exact abs_of_nonneg h1
  · rw [toRat_neg_sign, abs_neg]; exact abs_of_nonneg h1

theorem toRat_fin_neg_iff (s : Bool) {m : ℕ} (hm : m ≠ 0) (e : ℤ) :
    toRat (fin s m e) < 0 ↔ s = true := by
  have hm' : (0 : ℚ) < (m : ℚ) := by exact_mod_cast Nat.pos_of_ne_zero hm
  have h1 : (0 : ℚ) < (m : ℚ) * 2 ^ e := mul_pos hm' (two_zpow_pos e)
  cases s
  · rw [toRat_pos_sign]
    exact ⟨fun h => absurd h (not_lt.mpr (le_of_lt h1)), fun h => Bool.noConfusion h⟩
  · rw [toRat_neg_sign]
    exact ⟨fun _ => rfl, fun _ => by linarith⟩

theorem toRat_eq_zero_iff (s : Bool) (m : ℕ) (e : ℤ) : toRat (fin s m e) = 0 ↔ m = 0 := by
  rw [← abs_eq_zero, abs_toRat_fin]
  constructor
  · intro h
    rcases mul_eq_zero.mp h with h | h
    · exact_mod_cast h
    · exact absurd h (ne_of_gt (two_zpow_pos e))
  · intro h; rw [h]; simp

/-- Rounding is the identity on the value of a well-formed non-zero datum. -/
theorem round_toRat {s : Bool} {m : ℕ} {e : ℤ} (h : Finite (fin s m e)) (hm : m ≠ 0) :
    round (toRat (fin s m e)) = fin s m e := by
  obtain ⟨h1, h2, h3, h4⟩ := h
  have hmpos : 0 < m := Nat.pos_of_ne_zero hm
  obtain ⟨f1, f2⟩ := flog2_spec hmpos
  have hlog : ilog2 ((m : ℚ) * 2 ^ e) = (flog2 m : ℤ) + e := ilog2_natCast_mul e f1 f2
  have hexp : max ((flog2 m : ℤ) + e - 23) (-149) = e := by
    rcases h4 with h4 | h4
    · have : flog2 m = 23 := by
        have u1 : flog2 m < 24 := (Nat.pow_lt_pow_iff_right (by decide)).mp
          (Nat.lt_of_le_of_lt f1 h1)
        have u2 : 23 < flog2 m + 1 := (Nat.pow_lt_pow_iff_right (by decide)).mp
          (Nat.lt_of_le_of_lt h4 f2)
        omega
      rw [this]; simp only [Nat.cast_ofNat]
      rw [max_eq_left (by omega)]; ring
    · have u1 : flog2 m < 24 := (Nat.pow_lt_pow_iff_right (by decide)).mp
          (Nat.lt_of_le_of_lt f1 h1)
      rw [h4]; exact max_eq_right (by omega)
  have hx : (m : ℚ) * 2 ^ e / 2 ^ e = ((m : ℤ) : ℚ) := by
    rw [mul_div_assoc, div_self (ne_of_gt (two_zpow_pos e)), mul_one]; norm_cast
  have hneg : decide (toRat (fin s m e) < 0) = s := by
    cases s
    · exact decide_eq_false (fun hc => by
        have := (toRat_fin_neg_iff false hm e).mp hc; exact Bool.noConfusion this)
    · exact decide_eq_true ((toRat_fin_neg_iff true hm e).mpr rfl)
  unfold round
  simp only
  rw [abs_toRat_fin, hlog, hexp, hx, roundHalfEven_intCast, Int.toNat_natCast, hneg]
  rw [if_neg (by omega), if_neg (by omega)]


theorem add_def (a b : Binary32) : a + b = add a b := rfl
theorem sub_def (a b : Binary32) : a - b = add a (neg b) := rfl
theorem mul_def (a b : Binary32) : a * b = mul a b := rfl
theorem div_def (a b : Binary32) : a / b = div a b := rfl

theorem zero_def : (0 : Binary32) = fin false 0 (-149) := by decide!
theorem one_def : (1 : Binary32) = fin false 8388608 (-23) := by decide!

theorem toRat_zero (s : Bool) (e : ℤ) : toRat (fin s 0 e) = 0 := by simp [toRat]

theorem toRat_one : toRat (fin false 8388608 (-23)) = 1 := by
  rw [toRat_pos_sign]; norm_num

theorem toRat_neg (a : Binary32) : toRat (neg a) = -toRat a := by
  cases a with
  | nan => simp [neg, toRat]
  | inf s => simp [neg, toRat]
  | fin s m e => cases s <;> simp [neg, toRat]

theorem eq_self_of_fin (s : Bool) (m : ℕ) (e : ℤ) : eq (fin s m e) (fin s m e) = true := by
  simp [eq]

/-- A finite datum with zero significand is a signed zero with the subnormal exponent. -/
theorem finite_zero_exp {s : Bool} {e : ℤ} (h : Finite (fin s 0 e)) : e = -149 := by
  obtain ⟨-, -, -, h4⟩ := h
  rcases h4 with h4 | h4
  · norm_num at h4
  · exact h4

/-- A sum of finite data whose exact value is the value of the well-formed datum `c`
compares equal to `c`. -/
theorem add_eq_of_toRat {s t u : Bool} {m n k : ℕ} {e f g : ℤ} (hc : Finite (fin u k g))
    (h : toRat (fin s m e) + toRat (fin t n f) = toRat (fin u k g)) :
    eq (add (fin s m e) (fin t n f)) (fin u k g) = true := by
  unfold add
  simp only
  by_cases hq : toRat (fin s m e) + toRat (fin t n f) = 0
  · rw [if_pos hq]
    unfold eq
    simp only
    rw [toRat_zero, ← h, hq]
    exact decide_eq_true rfl
  · rw [if_neg hq, h]
    have hk : k ≠ 0 := fun hk => hq (by rw [h]; exact (toRat_eq_zero_iff u k g).mpr hk)
    rw [round_toRat hc hk]
    exact eq_self_of_fin u k g

/-- A finite sum of finite data is a well-formed datum. -/
theorem add_finite {s t : Bool} {m n : ℕ} {e f : ℤ}
    (h : (add (fin s m e) (fin t n f)).isFin = true) : Finite (add (fin s m e) (fin t n f)) := by
  unfold add at h ⊢
  simp only at h ⊢
  by_cases hq : toRat (fin s m e) + toRat (fin t n f) = 0
  · rw [if_pos hq]
    exact ⟨by norm_num, le_refl _, by norm_num, Or.inr rfl⟩
  · rw [if_neg hq] at h ⊢
    exact round_finite hq h

/-- Multiplication by the constant `1` is exact. -/
theorem mul_one_of_finite {s : Bool} {m : ℕ} {e : ℤ} (h : Finite (fin s m e)) :
    mul (fin s m e) (fin false 8388608 (-23)) = fin s m e := by
  unfold mul
  simp only
  by_cases hm : m = 0
  · subst hm
    rw [if_pos (Or.inl rfl), finite_zero_exp h, Bool.xor_false]
  · rw [if_neg (by rintro (h1 | h1); exact hm h1; norm_num at h1), toRat_one, mul_one]
    exact round_toRat h hm

/-- The value of a well-formed datum is an integer multiple of `2 ^ (-149)`. -/
theorem toRat_grid {s : Bool} {m : ℕ} {e : ℤ} (h : Finite (fin s m e)) :
    ∃ k : ℤ, toRat (fin s m e) = (k : ℚ) * 2 ^ (-149 : ℤ) := by
  obtain ⟨-, h2, -, -⟩ := h
  have two_ne : (2 : ℚ) ≠ 0 := by norm_num
  have he : (2 : ℚ) ^ e = 2 ^ (e + 149).toNat * 2 ^ (-149 : ℤ) := by
    rw [← zpow_natCast, ← zpow_add₀ two_ne]
    congr 1
    rw [Int.toNat_of_nonneg (by omega)]; ring
  refine ⟨(if s then -1 else 1) * (m : ℤ) * 2 ^ (e + 149).toNat, ?_⟩
  rw [toRat_fin, he]
  cases s <;> push_cast <;> simp <;> ring

/-- Two well-formed data with different values differ by at least `2 ^ (-149)`. -/
theorem grid_gap {s t : Bool} {m n : ℕ} {e f : ℤ} (ha : Finite (fin s m e))
    (hb : Finite (fin t n f)) (hne : toRat (fin s m e) + toRat (fin t n f) ≠ 0) :
    (2 : ℚ) ^ (-149 : ℤ) ≤ |toRat (fin s m e) + toRat (fin t n f)| := by
  obtain ⟨ka, ea⟩ := toRat_grid ha
  obtain ⟨kb, eb⟩ := toRat_grid hb
  have hsum : toRat (fin s m e) + toRat (fin t n f) = ((ka + kb : ℤ) : ℚ) * 2 ^ (-149 : ℤ) := by
    rw [ea, eb]; push_cast; ring
  rw [hsum] at hne ⊢
  have hk : ka + kb ≠ 0 := by
    intro h0; apply hne; rw [h0]; simp
  have h1 : (1 : ℚ) ≤ |((ka + kb : ℤ) : ℚ)| := by
    have : (1 : ℤ) ≤ |ka + kb| := Int.one_le_abs hk
    exact_mod_cast this
  rw [abs_mul, abs_of_pos (two_zpow_pos (-149))]
  calc (2 : ℚ) ^ (-149 : ℤ) = 1 * 2 ^ (-149 : ℤ) := (one_mul _).symm
    _ ≤ |((ka + kb : ℤ) : ℚ)| * 2 ^ (-149 : ℤ) :=
        mul_le_mul_of_nonneg_right h1 (le_of_lt (two_zpow_pos (-149)))

/-- The difference of two well-formed data with different values, when it does not overflow,
is a well-formed datum with non-zero significand. -/
theorem sub_finite_ne_zero {a b : Binary32} (ha : Finite a) (hb : Finite b) (hab : eq a b = false)
    (hd : (b - a).isFin = true) :
    ∃ s m e, b - a = fin s m e ∧ m ≠ 0 ∧ Finite (fin s m e) := by
  cases a with
  | nan => exact absurd ha (by simp [Finite])
  | inf s => exact absurd ha (by simp [Finite])
  | fin s m e =>
    cases b with
    | nan => exact absurd hb (by simp [Finite])
    | inf s => exact absurd hb (by simp [Finite])
    | fin t n f =>
      have hne : toRat (fin t n f) + toRat (fin (!s) m e) ≠ 0 := by
        have h1 : toRat (fin s m e) ≠ toRat (fin t n f) := by
          unfold eq at hab; simp only at hab
          exact of_decide_eq_false hab
        have h2 : toRat (fin (!s) m e) = -toRat (fin s m e) := toRat_neg (fin s m e)
        rw [h2]; intro h3; apply h1; linarith
      have hfin : Finite (fin (!s) m e) := ha
      have hgap := grid_gap hb hfin hne
      have hval : fin t n f - fin s m e = round (toRat (fin t n f) + toRat (fin (!s) m e)) := by
        rw [sub_def]
        show add (fin t n f) (fin (!s) m e) = _
        unfold add; simp only
        rw [if_neg hne]
      rw [hval] at hd ⊢
      have hF := round_finite hne hd
      have hnz := round_ne_zero hne hgap
      generalize round (toRat (fin t n f) + toRat (fin (!s) m e)) = r at hd hF hnz ⊢
      cases r with
      | nan => exact absurd hd (by simp [isFin])
      | inf _ => exact absurd hd (by simp [isFin])
      | fin ds dm de =>
        refine ⟨ds, dm, de, rfl, ?_, hF⟩
        intro h0
        subst h0
        exact hnz ds de rfl

end Binary32

/-! ## `mix` -/

/-- C5 fails as stated, in IEEE binary32 arithmetic. `mix(1e8, 1, 1)` is `0`, not `1`: the
difference `1 - 1e8` rounds to `-1e8`. And `mix(-2^127, 2^127, 0)` is NaN, not `-2^127`: the
difference overflows to infinity and `inf * 0` is NaN. -/
theorem C5_mix_endpoints_not_exact :
    Binary32.Finite (100000000 : Binary32) ∧ Binary32.Finite (1 : Binary32) ∧
    dsl_cuda.mix (100000000 : Binary32) 1 1 = 0 ∧
    Binary32.eq (dsl_cuda.mix (100000000 : Binary32) 1 1) 1 = false ∧
    Binary32.Finite (Binary32.fin true (2 ^ 23) 104) ∧
    Binary32.Finite (Binary32.fin false (2 ^ 23) 104) ∧
    dsl_cuda.mix (Binary32.fin true (2 ^ 23) 104) (Binary32.fin false (2 ^ 23) 104) 0 =
      Binary32.nan ∧
    Binary32.eq
      (dsl_cuda.mix (Binary32.fin true (2 ^ 23) 104) (Binary32.fin false (2 ^ 23) 104) 0)
      (Binary32.fin true (2 ^ 23) 104) = false := by
  decide!

/-- C5, amended: in exact arithmetic (any field) `mix(a, b, 0) = a` and `mix(a, b, 1) = b` for
all `a`, `b`. In IEEE binary32 arithmetic, for finite `a`, `b` whose difference `b - a` does not
overflow, `mix(a, b, 0) == a`; if moreover `b - a` is computed without rounding error,
`mix(a, b, 1) == b`. And `mix` on `float2`/`float3`/`float4` is the scalar `mix` on every
lane. -/
theorem C5_mix_endpoints :
    (∀ (K : Type) [Field K] (a b : K), dsl_cuda.mix a b 0 = a ∧ dsl_cuda.mix a b 1 = b) ∧
    (∀ a b : Binary32, a.Finite → b.Finite → (b - a).isFin = true →
      Binary32.eq (dsl_cuda.mix a b 0) a = true ∧
      ((b - a).toRat = b.toRat - a.toRat → Binary32.eq (dsl_cuda.mix a b 1) b = true)) ∧
    (∀ (F : Type) [Inhabited F] [Add F] [Sub F] [Mul F] [Div F] (u v : float2 F) (t : F),
      dsl_cuda.mix2 u v t = ⟨dsl_cuda.mix u.x v.x t, dsl_cuda.mix u.y v.y t⟩) ∧
    (∀ (F : Type) [Inhabited F] [Add F] [Sub F] [Mul F] [Div F] (u v : float3 F) (t : F),
      dsl_cuda.mix3 u v t =
        ⟨dsl_cuda.mix u.x v.x t, dsl_cuda.mix u.y v.y t, dsl_cuda.mix u.z v.z t⟩) ∧
    (∀ (F : Type) [Inhabited F] [Add F] [Sub F] [Mul F] [Div F] (u v : float4 F) (t : F),
      dsl_cuda.mix4 u v t =
        ⟨dsl_cuda.mix u.x v.x t, dsl_cuda.mix u.y v.y t, dsl_cuda.mix u.z v.z t,
          dsl_cuda.mix u.w v.w t⟩) := by
  refine ⟨?_, ?_, fun _ _ _ _ _ _ _ _ _ => rfl, fun _ _ _ _ _ _ _ _ _ => rfl,
    fun _ _ _ _ _ _ _ _ _ => rfl⟩
  · intro K _ a b
    unfold dsl_cuda.mix
    exact ⟨by ring, by ring⟩
  · intro a b ha hb hd
    cases a with
    | nan => exact absurd ha (by simp [Binary32.Finite])
    | inf s => exact absurd ha (by simp [Binary32.Finite])
    | fin s m e =>
      cases b with
      | nan => exact absurd hb (by simp [Binary32.Finite])
      | inf s => exact absurd hb (by simp [Binary32.Finite])
      | fin t n f =>
        have hF : Binary32.Finite (Binary32.fin t n f - Binary32.fin s m e) :=
          Binary32.add_finite hd
        unfold dsl_cuda.mix
        cases hdv : (Binary32.fin t n f - Binary32.fin s m e) with
        | nan => rw [hdv] at hd; exact absurd hd (by simp [Binary32.isFin])
        | inf _ => rw [hdv] at hd; exact absurd hd (by simp [Binary32.isFin])
        | fin ds dm de =>
          rw [hdv] at hF
          constructor
          · have hmul : Binary32.fin ds dm de * (0 : Binary32) = Binary32.fin ds 0 (-149) := by
              rw [Binary32.zero_def, Binary32.mul_def]
              unfold Binary32.mul
              simp
            rw [hmul, Binary32.add_def]
            exact Binary32.add_eq_of_toRat ha (by rw [Binary32.toRat_zero, add_zero])
          · intro hex
            rw [Binary32.one_def, Binary32.mul_def, Binary32.mul_one_of_finite hF,
              Binary32.add_def]
            exact Binary32.add_eq_of_toRat hb (by rw [hex]; ring)

/-- C5, amended, at `a = 3`, `b = 1` in binary32. -/
theorem C5_mix_endpoints_witness :
    Binary32.eq (dsl_cuda.mix (3 : Binary32) 1 0) 3 = true ∧
    Binary32.eq (dsl_cuda.mix (3 : Binary32) 1 1) 1 = true :=
  ⟨(C5_mix_endpoints.2.1 3 1 (by decide!) (by decide!) (by decide!)).1,
    (C5_mix_endpoints.2.1 3 1 (by decide!) (by decide!) (by decide!)).2 (by decide!)⟩

/-! ## `smoothstep` -/

namespace Binary32

/-- The difference `x - x` is `+0` for finite `x`. -/
theorem sub_self_fin (s : Bool) (m : ℕ) (e : ℤ) :
    fin s m e - fin s m e = fin false 0 (-149) := by
  rw [sub_def]
  show add (fin s m e) (fin (!s) m e) = _
  have h : toRat (fin s m e) + toRat (fin (!s) m e) = 0 := by
    have := toRat_neg (fin s m e)
    unfold neg at this; simp only at this
    rw [this]; ring
  unfold add; simp only
  rw [if_pos h, Bool.and_not_self]

/-- A zero divided by a non-zero finite datum is a zero. -/
theorem zero_div_fin (ds : Bool) {dm : ℕ} (de : ℤ) (hm : dm ≠ 0) :
    fin false 0 (-149) / fin ds dm de = fin ds 0 (-149) := by
  rw [div_def]
  unfold div; simp only
  rw [if_neg hm, if_pos trivial, Bool.false_xor]

/-- A non-zero finite datum divided by itself is `1`. -/
theorem div_self_fin (ds : Bool) {dm : ℕ} (de : ℤ) (hm : dm ≠ 0) :
    fin ds dm de / fin ds dm de = fin false 8388608 (-23) := by
  rw [div_def]
  unfold div; simp only
  have hne : toRat (fin ds dm de) ≠ 0 := fun h => hm ((toRat_eq_zero_iff ds dm de).mp h)
  rw [if_neg hm, if_neg hm, div_self hne]
  decide!

/-- The difference `x - x` is `+0` or, for NaN and infinities, NaN. -/
theorem sub_self_cases (a : Binary32) : a - a = nan ∨ a - a = fin false 0 (-149) := by
  cases a with
  | nan => exact Or.inl rfl
  | inf s =>
    left
    rw [sub_def]
    show add (inf s) (inf (!s)) = nan
    unfold add; simp only
    cases s <;> rfl
  | fin s m e => exact Or.inr (sub_self_fin s m e)

theorem nan_div (x : Binary32) : nan / x = nan := by
  rw [div_def]; cases x <;> rfl

/-- The quotient `+0 / x` is a zero or NaN. -/
theorem zero_div_cases (x : Binary32) :
    fin false 0 (-149) / x = nan ∨ ∃ s, fin false 0 (-149) / x = fin s 0 (-149) := by
  cases x with
  | nan => exact Or.inl rfl
  | inf t => exact Or.inr ⟨xor false t, rfl⟩
  | fin t n f =>
    by_cases hn : n = 0
    · left
      rw [div_def]; unfold div; simp only
      rw [if_pos hn, if_pos trivial]
    · exact Or.inr ⟨t, zero_div_fin t f hn⟩

/-- The polynomial tail of `smoothstep` at a clamped parameter that is NaN. -/
theorem smoothstep_tail_nan :
    eq (dsl_cuda.clamp_t nan 0 1 * dsl_cuda.clamp_t nan 0 1 *
      (3 - 2 * dsl_cuda.clamp_t nan 0 1)) 0 = true := by
  decide!

/-- The polynomial tail of `smoothstep` at a clamped parameter that is a zero. -/
theorem smoothstep_tail_zero (ds : Bool) :
    eq (dsl_cuda.clamp_t (fin ds 0 (-149)) 0 1 * dsl_cuda.clamp_t (fin ds 0 (-149)) 0 1 *
      (3 - 2 * dsl_cuda.clamp_t (fin ds 0 (-149)) 0 1)) 0 = true := by
  cases ds <;> decide!

/-- The polynomial tail of `smoothstep` at the clamped parameter `1`. -/
theorem smoothstep_tail_one :
    eq (dsl_cuda.clamp_t (fin false 8388608 (-23)) 0 1 *
      dsl_cuda.clamp_t (fin false 8388608 (-23)) 0 1 *
      (3 - 2 * dsl_cuda.clamp_t (fin false 8388608 (-23)) 0 1)) 1 = true := by
  decide!

/-- The value of `smoothstep` in terms of its unclamped parameter. -/
theorem smoothstep_of_param {a b x z : Binary32} (h : (x - a) / (b - a) = z) :
    dsl_cuda.smoothstep a b x = dsl_cuda.clamp_t z 0 1 * dsl_cuda.clamp_t z 0 1 *
      (3 - 2 * dsl_cuda.clamp_t z 0 1) := by
  subst h; rfl

end Binary32

/-- C6 fails as stated, in IEEE binary32 arithmetic: for `a = -2^127`, `b = 2^127` (finite,
`a != b`) the difference `b - a` overflows, `inf / inf` is NaN, `clamp_t` maps NaN to `0`, and
`smoothstep(a, b, b)` is `0`, not `1`. -/
theorem C6_smoothstep_upper_edge_overflow :
    Binary32.Finite (Binary32.fin true (2 ^ 23) 104) ∧
    Binary32.Finite (Binary32.fin false (2 ^ 23) 104) ∧
    Binary32.eq (Binary32.fin true (2 ^ 23) 104) (Binary32.fin false (2 ^ 23) 104) = false ∧
    dsl_cuda.smoothstep (Binary32.fin true (2 ^ 23) 104) (Binary32.fin false (2 ^ 23) 104)
      (Binary32.fin false (2 ^ 23) 104) = 0 ∧
    Binary32.eq
      (dsl_cuda.smoothstep (Binary32.fin true (2 ^ 23) 104) (Binary32.fin false (2 ^ 23) 104)
        (Binary32.fin false (2 ^ 23) 104)) 1 = false := by
  decide!

/-- C6, amended: in exact arithmetic (any ordered field) `smoothstep(a, b, a) = 0` and
`smoothstep(a, b, b) = 1` for all `a != b`. In IEEE binary32 arithmetic
`smoothstep(a, b, a) == 0` for all `a`, `b`, and `smoothstep(a, b, b) == 1` for all finite `a`,
`b` with `a != b` whose difference `b - a` does not overflow. -/
theorem C6_smoothstep_endpoints :
    (∀ (K : Type) [LinearOrderedField K] (a b : K), a ≠ b →
      dsl_cuda.smoothstep a b a = 0 ∧ dsl_cuda.smoothstep a b b = 1) ∧
    (∀ a b : Binary32, Binary32.eq (dsl_cuda.smoothstep a b a) 0 = true) ∧
    (∀ a b : Binary32, a.Finite → b.Finite → Binary32.eq a b = false →
      (b - a).isFin = true → Binary32.eq (dsl_cuda.smoothstep a b b) 1 = true) := by
  refine ⟨?_, ?_, ?_⟩
  · intro K _ a b hab
    have hne : b - a ≠ 0 := sub_ne_zero.mpr (Ne.symm hab)
    constructor
    · unfold dsl_cuda.smoothstep dsl_cuda.clamp_t dsl_cuda.min_t dsl_cuda.max_t
      simp only [sub_self, zero_div, gt_iff_lt, lt_irrefl, if_false, zero_lt_one, if_true]
      ring
    · unfold dsl_cuda.smoothstep dsl_cuda.clamp_t dsl_cuda.min_t dsl_cuda.max_t
      simp only [div_self hne, gt_iff_lt, zero_lt_one, if_true, lt_irrefl, if_false]
      ring
  · intro a b
    have hz : (a - a) / (b - a) = Binary32.nan ∨
        ∃ s, (a - a) / (b - a) = Binary32.fin s 0 (-149) := by
      rcases Binary32.sub_self_cases a with h | h
      · left; rw [h]; exact Binary32.nan_div _
      · rw [h]; exact Binary32.zero_div_cases _
    rcases hz with h | ⟨s, h⟩
    · rw [Binary32.smoothstep_of_param h]; exact Binary32.smoothstep_tail_nan
    · rw [Binary32.smoothstep_of_param h]; exact Binary32.smoothstep_tail_zero s
  · intro a b ha hb hab hd
    obtain ⟨ds, dm, de, hval, hm, -⟩ := Binary32.sub_finite_ne_zero ha hb hab hd
    have h : (b - a) / (b - a) = Binary32.fin false 8388608 (-23) := by
      rw [hval]; exact Binary32.div_self_fin ds de hm
    rw [Binary32.smoothstep_of_param h]
    exact Binary32.smoothstep_tail_one

/-- C6, amended, at `a = 1`, `b = 3`, over the rationals and in binary32. -/
theorem C6_smoothstep_endpoints_witness :
    (dsl_cuda.smoothstep (1 : ℚ) 3 1 = 0 ∧ dsl_cuda.smoothstep (1 : ℚ) 3 3 = 1) ∧
    Binary32.eq (dsl_cuda.smoothstep (1 : Binary32) 3 1) 0 = true ∧
    Binary32.eq (dsl_cuda.smoothstep (1 : Binary32) 3 3) 1 = true :=
  ⟨C6_smoothstep_endpoints.1 ℚ 1 3 (by norm_num), C6_smoothstep_endpoints.2.1 1 3,
    C6_smoothstep_endpoints.2.2 1 3 (by decide!) (by decide!) (by decide!) (by decide!)⟩

/-! ## Rounding: monotonicity, error and exactness -/

namespace Binary32

theorem roundHalfEven_nonneg {x : ℚ} (h : 0 ≤ x) : 0 ≤ roundHalfEven x :=
  le_roundHalfEven (by simpa using h)

/-- Rounding to the nearest integer moves a value by at most one half. -/
theorem roundHalfEven_error (x : ℚ) : |(roundHalfEven x : ℚ) - x| ≤ 1 / 2 := by
  have h1 : (⌊x⌋ : ℚ) ≤ x := Int.floor_le x
  have h2 : x < (⌊x⌋ : ℚ) + 1 := Int.lt_floor_add_one x
  unfold roundHalfEven
  simp only
  rw [abs_le]
  split_ifs with c1 c2 c3
  · constructor <;> linarith
  · push_cast; constructor <;> linarith
  · constructor <;> linarith
  · have c1' : 1 / 2 ≤ x - (⌊x⌋ : ℚ) := not_lt.mp c1
    push_cast; constructor <;> linarith

/-- Rounding to the nearest integer is monotone. -/
theorem roundHalfEven_mono {x y : ℚ} (h : x ≤ y) : roundHalfEven x ≤ roundHalfEven y := by
  by_cases hf : ⌊x⌋ = ⌊y⌋
  · have hx1 : (⌊x⌋ : ℚ) ≤ x := Int.floor_le x
    unfold roundHalfEven
    simp only
    rw [hf]
    have hxy : x - (⌊y⌋ : ℚ) ≤ y - (⌊y⌋ : ℚ) := by linarith
    split_ifs with c1 c2 c3 c4 c5 c6 c7 c8 c9 <;> first | omega | (exfalso; linarith)
  · have hlt : ⌊x⌋ < ⌊y⌋ := lt_of_le_of_ne (Int.floor_mono h) hf
    have h1 : roundHalfEven x ≤ ⌊x⌋ + 1 := by
      apply roundHalfEven_le
      push_cast
      exact le_of_lt (Int.lt_floor_add_one x)
    have h2 : ⌊y⌋ ≤ roundHalfEven y := le_roundHalfEven (Int.floor_le y)
    omega

/-- A value below `n + 1/2` does not round above `n`. -/
theorem roundHalfEven_le_of_lt_half {x : ℚ} {n : ℤ} (h : x < (n : ℚ) + 1 / 2) :
    roundHalfEven x ≤ n := by
  by_cases hx : x ≤ (n : ℚ)
  · exact roundHalfEven_le hx
  · have hx' : (n : ℚ) < x := not_le.mp hx
    have hfl : ⌊x⌋ = n := by
      rw [Int.floor_eq_iff]
      exact ⟨le_of_lt hx', by linarith⟩
    unfold roundHalfEven
    simp only
    rw [hfl, if_pos (by linarith)]

theorem ilog2_lt_of_lt {a : ℚ} {k : ℤ} (ha : 0 < a) (h : a < 2 ^ k) : ilog2 a < k := by
  have one_lt : (1 : ℚ) < 2 := by norm_num
  exact (zpow_lt_zpow_iff_right₀ one_lt).mp (lt_of_le_of_lt (ilog2_spec ha).1 h)

theorem le_ilog2_of_le {a : ℚ} {k : ℤ} (ha : 0 < a) (h : (2 : ℚ) ^ k ≤ a) : k ≤ ilog2 a := by
  have one_lt : (1 : ℚ) < 2 := by norm_num
  have := (zpow_lt_zpow_iff_right₀ one_lt).mp (lt_of_le_of_lt h (ilog2_spec ha).2)
  omega

theorem ilog2_mono {a b : ℚ} (ha : 0 < a) (h : a ≤ b) : ilog2 a ≤ ilog2 b :=
  le_ilog2_of_le (lt_of_lt_of_le ha h) (le_trans (ilog2_spec ha).1 h)

theorem qexp_mono {a b : ℚ} (ha : 0 < a) (h : a ≤ b) : qexp a ≤ qexp b := by
  unfold qexp
  exact max_le_max (by have := ilog2_mono ha h; omega) (le_refl _)

theorem qexp_ge (a : ℚ) : -149 ≤ qexp a := le_max_right _ _

theorem qexp_le_of_lt {a : ℚ} {k : ℤ} (ha : 0 < a) (h : a < 2 ^ k) (hk : -125 ≤ k) :
    qexp a ≤ k - 24 := by
  have := ilog2_lt_of_lt ha h
  unfold qexp
  exact max_le (by omega) (by omega)

/-- The magnitude of a rounded value in terms of the bounds `round_aux` gives. -/
theorem uround_bounds {a : ℚ} (ha : 0 < a) :
    0 ≤ uround a ∧ uround a ≤ 2 ^ (24 + qexp a) ∧
    (qexp a ≠ -149 → (2 : ℚ) ^ (23 + qexp a) ≤ uround a) := by
  have two_ne : (2 : ℚ) ≠ 0 := by norm_num
  obtain ⟨b1, b2, -⟩ := round_aux ha
  have hx : 0 ≤ a / 2 ^ qexp a := div_nonneg (le_of_lt ha) (le_of_lt (two_zpow_pos _))
  have hn : 0 ≤ roundHalfEven (a / 2 ^ qexp a) := roundHalfEven_nonneg hx
  have hpe : (0 : ℚ) < 2 ^ qexp a := two_zpow_pos _
  have b1' : roundHalfEven (a / 2 ^ qexp a) ≤ 2 ^ 24 := by
    have : ((roundHalfEven (a / 2 ^ qexp a)).toNat : ℤ) ≤ ((2 ^ 24 : ℕ) : ℤ) := by
      exact_mod_cast b1
    rw [Int.toNat_of_nonneg hn] at this
    exact_mod_cast this
  unfold uround
  refine ⟨mul_nonneg (by exact_mod_cast hn) (le_of_lt hpe), ?_, ?_⟩
  · rw [zpow_add₀ two_ne]
    apply mul_le_mul_of_nonneg_right _ (le_of_lt hpe)
    have : ((roundHalfEven (a / 2 ^ qexp a) : ℤ) : ℚ) ≤ ((2 ^ 24 : ℤ) : ℚ) := by
      exact_mod_cast b1'
    exact_mod_cast this
  · intro hq
    rcases b2 with b | b
    · rw [zpow_add₀ two_ne]
      apply mul_le_mul_of_nonneg_right _ (le_of_lt hpe)
      have b' : ((2 ^ 23 : ℕ) : ℤ) ≤ roundHalfEven (a / 2 ^ qexp a) := by
        have : ((2 ^ 23 : ℕ) : ℤ) ≤ ((roundHalfEven (a / 2 ^ qexp a)).toNat : ℤ) := by
          exact_mod_cast b
        rwa [Int.toNat_of_nonneg hn] at this
      have : ((2 ^ 23 : ℤ) : ℚ) ≤ ((roundHalfEven (a / 2 ^ qexp a) : ℤ) : ℚ) := by
        exact_mod_cast b'
      exact_mod_cast this
    · exact absurd b hq

/-- Rounding with unbounded exponent is monotone on positive magnitudes. -/
theorem uround_mono {a b : ℚ} (ha : 0 < a) (h : a ≤ b) : uround a ≤ uround b := by
  have hb : 0 < b := lt_of_lt_of_le ha h
  have one_le : (1 : ℚ) ≤ 2 := by norm_num
  have he := qexp_mono ha h
  rcases eq_or_lt_of_le he with heq | hlt
  · unfold uround
    rw [heq]
    apply mul_le_mul_of_nonneg_right _ (le_of_lt (two_zpow_pos _))
    have hxy : a / 2 ^ qexp b ≤ b / 2 ^ qexp b :=
      div_le_div_of_nonneg_right h (le_of_lt (two_zpow_pos _))
    exact_mod_cast roundHalfEven_mono hxy
  · obtain ⟨-, ua, -⟩ := uround_bounds ha
    obtain ⟨-, -, ub⟩ := uround_bounds hb
    have hb149 : qexp b ≠ -149 := by have := qexp_ge a; omega
    calc uround a ≤ 2 ^ (24 + qexp a) := ua
      _ ≤ 2 ^ (23 + qexp b) := zpow_le_zpow_right₀ one_le (by omega)
      _ ≤ uround b := ub hb149

/-- Rounding with unbounded exponent moves a magnitude by at most half a unit in the last
place. -/
theorem uround_error (a : ℚ) : |uround a - a| ≤ 2 ^ (qexp a - 1) := by
  have two_ne : (2 : ℚ) ≠ 0 := by norm_num
  have hpe : (0 : ℚ) < 2 ^ qexp a := two_zpow_pos _
  have h := roundHalfEven_error (a / 2 ^ qexp a)
  have e1 : uround a - a = ((roundHalfEven (a / 2 ^ qexp a) : ℚ) - a / 2 ^ qexp a) * 2 ^ qexp a := by
    unfold uround
    field_simp
  have e2 : (2 : ℚ) ^ (qexp a - 1) = 1 / 2 * 2 ^ qexp a := by
    rw [zpow_sub₀ two_ne]; simp; ring
  rw [e1, abs_mul, abs_of_pos hpe, e2]
  exact mul_le_mul_of_nonneg_right h (le_of_lt hpe)

end Binary32

namespace Binary32

theorem c24_mul (e : ℤ) : (((2 ^ 24 : ℕ) : ℚ)) * 2 ^ e = 2 ^ (24 + e) := by
  rw [zpow_add₀ (by norm_num : (2 : ℚ) ≠ 0)]; norm_num

theorem c23_mul (e : ℤ) : (((2 ^ 23 : ℕ) : ℚ)) * 2 ^ e = 2 ^ (23 + e) := by
  rw [zpow_add₀ (by norm_num : (2 : ℚ) ≠ 0)]; norm_num

theorem p128 : (2 : ℚ) ^ (128 : ℕ) = 2 ^ (128 : ℤ) := by norm_num

theorem zpow_le_of_le {j k : ℤ} (h : j ≤ k) : (2 : ℚ) ^ j ≤ 2 ^ k :=
  zpow_le_zpow_right₀ (by norm_num) h

theorem zpow_lt_of_lt {j k : ℤ} (h : j < k) : (2 : ℚ) ^ j < 2 ^ k :=
  zpow_lt_zpow_right₀ (by norm_num) h

/-- The result of `round`: an infinity when the rounded magnitude reaches `2 ^ 128`, otherwise
the well-formed datum with the sign of `q` and the rounded magnitude. -/
theorem round_spec {q : ℚ} (hq : q ≠ 0) :
    ((2 : ℚ) ^ 128 ≤ uround |q| ∧ round q = inf (decide (q < 0))) ∨
    (uround |q| < 2 ^ 128 ∧ ∃ m e, round q = fin (decide (q < 0)) m e ∧
      Finite (fin (decide (q < 0)) m e) ∧ (m : ℚ) * 2 ^ e = uround |q|) := by
  have ha : 0 < |q| := abs_pos.mpr hq
  obtain ⟨b1, b2, -⟩ := round_aux ha
  have hx : 0 ≤ |q| / 2 ^ qexp |q| := div_nonneg (le_of_lt ha) (le_of_lt (two_zpow_pos _))
  have hn : 0 ≤ roundHalfEven (|q| / 2 ^ qexp |q|) := roundHalfEven_nonneg hx
  have hu : uround |q| = ((roundHalfEven (|q| / 2 ^ qexp |q|)).toNat : ℚ) * 2 ^ qexp |q| := by
    unfold uround
    congr 1
    have h1 : ((roundHalfEven (|q| / 2 ^ qexp |q|)).toNat : ℤ) =
        roundHalfEven (|q| / 2 ^ qexp |q|) := Int.toNat_of_nonneg hn
    have h2 : (((roundHalfEven (|q| / 2 ^ qexp |q|)).toNat : ℤ) : ℚ) =
        (roundHalfEven (|q| / 2 ^ qexp |q|) : ℚ) := by rw [h1]
    rw [← h2]; norm_cast
  have he2 : -149 ≤ qexp |q| := qexp_ge _
  rw [hu, p128]
  unfold qexp at he2 ⊢
  unfold round
  simp only
  generalize max (ilog2 |q| - 23) (-149) = e at b1 b2 he2 ⊢
  generalize (roundHalfEven (|q| / 2 ^ e)).toNat = m at b1 b2 ⊢
  have hpe : (0 : ℚ) < 2 ^ e := two_zpow_pos e
  split_ifs with c1 c2 c3
  · left
    refine ⟨?_, rfl⟩
    rw [c1, c24_mul]
    exact zpow_le_of_le (by omega)
  · right
    refine ⟨?_, 2 ^ 23, e + 1, rfl, ⟨by norm_num, by omega, by omega, Or.inl (le_refl _)⟩, ?_⟩
    · rw [c1, c24_mul]
      exact zpow_lt_of_lt (by omega)
    · rw [c1, c24_mul, c23_mul]
      congr 1; ring
  · left
    refine ⟨?_, rfl⟩
    have hm : 2 ^ 23 ≤ m := by
      rcases b2 with b | b
      · exact b
      · omega
    have h1 : (((2 ^ 23 : ℕ) : ℚ)) ≤ (m : ℚ) := by exact_mod_cast hm
    calc (2 : ℚ) ^ (128 : ℤ) ≤ 2 ^ (23 + e) := zpow_le_of_le (by omega)
      _ = ((2 ^ 23 : ℕ) : ℚ) * 2 ^ e := (c23_mul e).symm
      _ ≤ (m : ℚ) * 2 ^ e := mul_le_mul_of_nonneg_right h1 (le_of_lt hpe)
  · right
    have hm : m < 2 ^ 24 := by omega
    refine ⟨?_, m, e, rfl, ⟨hm, he2, by omega, b2⟩, rfl⟩
    have h1 : (m : ℚ) < ((2 ^ 24 : ℕ) : ℚ) := by exact_mod_cast hm
    calc (m : ℚ) * 2 ^ e < ((2 ^ 24 : ℕ) : ℚ) * 2 ^ e := mul_lt_mul_of_pos_right h1 hpe
      _ = 2 ^ (24 + e) := c24_mul e
      _ ≤ 2 ^ (128 : ℤ) := zpow_le_of_le (by omega)

theorem uround_nonneg (a : ℚ) (ha : 0 ≤ a) : 0 ≤ uround a := by
  unfold uround
  refine mul_nonneg ?_ (le_of_lt (two_zpow_pos _))
  have hx : 0 ≤ a / 2 ^ qexp a := div_nonneg ha (le_of_lt (two_zpow_pos _))
  exact_mod_cast roundHalfEven_nonneg hx

/-- The extended value of a rounded non-zero exact result. -/
theorem ext_round {q : ℚ} (hq : q ≠ 0) : ext (round q) = rext q := by
  unfold rext
  rw [if_neg hq]
  rcases round_spec hq with ⟨h1, h2⟩ | ⟨h1, m, e, h2, -, h3⟩
  · rw [h2, min_eq_right h1]
    by_cases hneg : q < 0
    · rw [if_pos hneg]; simp [ext, hneg]
    · rw [if_neg hneg]; simp [ext, hneg]
  · rw [h2, min_eq_left (le_of_lt h1), ← h3]
    by_cases hneg : q < 0
    · rw [if_pos hneg]; simp [ext, hneg, toRat]
    · rw [if_neg hneg]; simp [ext, hneg, toRat]

theorem rext_zero : rext 0 = 0 := by simp [rext]

theorem rext_nonneg {q : ℚ} (h : 0 ≤ q) : 0 ≤ rext q := by
  unfold rext
  split_ifs with c1 c2
  · exact le_refl _
  · exact absurd c2 (not_lt.mpr h)
  · exact le_min (uround_nonneg _ (abs_nonneg q)) (by positivity)

theorem rext_neg (q : ℚ) : rext (-q) = -rext q := by
  unfold rext
  by_cases h0 : q = 0
  · simp [h0]
  · have h0' : -q ≠ 0 := neg_ne_zero.mpr h0
    rw [if_neg h0, if_neg h0', abs_neg]
    rcases lt_or_gt_of_ne h0 with h | h
    · rw [if_pos h, if_neg (by linarith)]; ring
    · rw [if_pos (by linarith), if_neg (by linarith)]

theorem rext_of_pos {q : ℚ} (h : 0 < q) : rext q = min (uround q) (2 ^ 128) := by
  unfold rext
  rw [if_neg (ne_of_gt h), if_neg (by linarith), abs_of_pos h]

/-- Rounding is monotone on the extended line. -/
theorem rext_mono {p q : ℚ} (h : p ≤ q) : rext p ≤ rext q := by
  rcases lt_trichotomy p 0 with hp | hp | hp
  · rcases lt_or_le q 0 with hq | hq
    · have h1 : rext p = -rext (-p) := by rw [rext_neg]; ring
      have h2 : rext q = -rext (-q) := by rw [rext_neg]; ring
      rw [h1, h2, rext_of_pos (by linarith : 0 < -p), rext_of_pos (by linarith : 0 < -q)]
      have := uround_mono (by linarith : 0 < -q) (by linarith : -q ≤ -p)
      exact neg_le_neg (min_le_min this (le_refl _))
    · have h1 : rext p = -rext (-p) := by rw [rext_neg]; ring
      have h3 : 0 ≤ rext (-p) := rext_nonneg (by linarith)
      have h4 := rext_nonneg hq
      linarith
  · rw [hp, rext_zero]; exact rext_nonneg (by linarith)
  · have hq : 0 < q := lt_of_lt_of_le hp h
    rw [rext_of_pos hp, rext_of_pos hq]
    exact min_le_min (uround_mono hp h) (le_refl _)

/-- Rounding is exact on `k * 2 ^ e` with a 24-bit `k` and `e` not below `-149`. -/
theorem uround_exact {k : ℕ} {e : ℤ} (hk : k < 2 ^ 24) (he : -149 ≤ e) :
    uround ((k : ℚ) * 2 ^ e) = (k : ℚ) * 2 ^ e := by
  have two_ne : (2 : ℚ) ≠ 0 := by norm_num
  rcases Nat.eq_zero_or_pos k with h0 | hpos
  · subst h0
    simp [uround, roundHalfEven]
  have hkq : (0 : ℚ) < (k : ℚ) := by exact_mod_cast hpos
  have ha : 0 < (k : ℚ) * 2 ^ e := mul_pos hkq (two_zpow_pos e)
  have hlt : (k : ℚ) * 2 ^ e < 2 ^ ((24 : ℤ) + e) := by
    have h1 : (k : ℚ) < ((2 ^ 24 : ℕ) : ℚ) := by exact_mod_cast hk
    calc (k : ℚ) * 2 ^ e < ((2 ^ 24 : ℕ) : ℚ) * 2 ^ e :=
          mul_lt_mul_of_pos_right h1 (two_zpow_pos e)
      _ = 2 ^ ((24 : ℤ) + e) := c24_mul e
  have hq : qexp ((k : ℚ) * 2 ^ e) ≤ e := by
    have := ilog2_lt_of_lt ha hlt
    unfold qexp
    exact max_le (by omega) he
  unfold uround
  generalize qexp ((k : ℚ) * 2 ^ e) = g at hq
  obtain ⟨j, hj⟩ : ∃ j : ℕ, e = g + (j : ℤ) := ⟨(e - g).toNat, by
    rw [Int.toNat_of_nonneg (by omega)]; ring⟩
  have hx : (k : ℚ) * 2 ^ e / 2 ^ g = (((k * 2 ^ j : ℕ) : ℤ) : ℚ) := by
    rw [hj, zpow_add₀ two_ne, zpow_natCast]
    field_simp
    ring
  rw [hx, roundHalfEven_intCast, hj, zpow_add₀ two_ne, zpow_natCast]
  push_cast
  ring

theorem rext_exact {k : ℕ} {e : ℤ} (hk : k < 2 ^ 24) (he : -149 ≤ e) (he2 : e ≤ 104) :
    rext ((k : ℚ) * 2 ^ e) = (k : ℚ) * 2 ^ e := by
  rcases Nat.eq_zero_or_pos k with h0 | hpos
  · subst h0; simp [rext]
  have hkq : (0 : ℚ) < (k : ℚ) := by exact_mod_cast hpos
  have ha : 0 < (k : ℚ) * 2 ^ e := mul_pos hkq (two_zpow_pos e)
  rw [rext_of_pos ha, uround_exact hk he]
  apply min_eq_left
  have h1 : (k : ℚ) ≤ ((2 ^ 24 : ℕ) : ℚ) := by exact_mod_cast le_of_lt hk
  rw [p128]
  calc (k : ℚ) * 2 ^ e ≤ ((2 ^ 24 : ℕ) : ℚ) * 2 ^ e :=
        mul_le_mul_of_nonneg_right h1 (le_of_lt (two_zpow_pos e))
    _ = 2 ^ ((24 : ℤ) + e) := c24_mul e
    _ ≤ 2 ^ (128 : ℤ) := zpow_le_of_le (by omega)

end Binary32

namespace Binary32

theorem round_ne_nan {q : ℚ} (hq : q ≠ 0) : round q ≠ nan := by
  rcases round_spec hq with ⟨-, h⟩ | ⟨-, m, e, h, -, -⟩ <;> rw [h] <;> intro hc <;>
    exact Binary32.noConfusion hc

/-- A positive exact result whose rounded magnitude is below `2 ^ 128` rounds to a well-formed
positive datum. -/
theorem round_pos {q : ℚ} (hq : 0 < q) (hb : uround q < 2 ^ 128) :
    ∃ m e, round q = fin false m e ∧ Finite (fin false m e) ∧
      toRat (fin false m e) = uround q := by
  have hne : q ≠ 0 := ne_of_gt hq
  have hd : decide (q < 0) = false := decide_eq_false (not_lt.mpr (le_of_lt hq))
  rcases round_spec hne with ⟨h1, -⟩ | ⟨-, m, e, h2, h3, h4⟩
  · rw [abs_of_pos hq] at h1
    exact absurd hb (not_lt.mpr h1)
  · rw [abs_of_pos hq] at h4
    rw [hd] at h2 h3
    exact ⟨m, e, h2, h3, by rw [toRat_pos_sign]; exact h4⟩

theorem uround_le_exact {q : ℚ} (hq : 0 < q) {k : ℕ} {e : ℤ} (hk : k < 2 ^ 24) (he : -149 ≤ e)
    (h : q ≤ (k : ℚ) * 2 ^ e) : uround q ≤ (k : ℚ) * 2 ^ e :=
  le_of_le_of_eq (uround_mono hq h) (uround_exact hk he)

theorem exact_le_uround {q : ℚ} {k : ℕ} {e : ℤ} (hk : k < 2 ^ 24) (he : -149 ≤ e)
    (hpos : 0 < k) (h : (k : ℚ) * 2 ^ e ≤ q) : (k : ℚ) * 2 ^ e ≤ uround q := by
  have hkq : (0 : ℚ) < (k : ℚ) := by exact_mod_cast hpos
  have ha : 0 < (k : ℚ) * 2 ^ e := mul_pos hkq (two_zpow_pos e)
  exact le_of_eq_of_le (uround_exact hk he).symm (uround_mono ha h)

theorem uround_le_one {q : ℚ} (hq : 0 < q) (h : q ≤ 1) : uround q ≤ 1 := by
  have := uround_le_exact (k := 1) (e := 0) hq (by norm_num) (by norm_num) (by simpa using h)
  simpa using this

theorem one_le_uround {q : ℚ} (h : 1 ≤ q) : 1 ≤ uround q := by
  have := exact_le_uround (q := q) (k := 1) (e := 0) (by norm_num) (by norm_num) (by norm_num)
    (by simpa using h)
  simpa using this

/-- The magnitude of a well-formed datum is below `2 ^ 128`. -/
theorem finite_abs_lt {s : Bool} {m : ℕ} {e : ℤ} (h : Finite (fin s m e)) :
    |toRat (fin s m e)| < 2 ^ 128 := by
  obtain ⟨h1, -, h3, -⟩ := h
  rw [abs_toRat_fin, p128]
  have h1' : (m : ℚ) < ((2 ^ 24 : ℕ) : ℚ) := by exact_mod_cast h1
  calc (m : ℚ) * 2 ^ e < ((2 ^ 24 : ℕ) : ℚ) * 2 ^ e :=
        mul_lt_mul_of_pos_right h1' (two_zpow_pos e)
    _ = 2 ^ ((24 : ℤ) + e) := c24_mul e
    _ ≤ 2 ^ (128 : ℤ) := zpow_le_of_le (by omega)

/-- The sum of two finite data: never NaN, its extended value is the rounded exact sum, and
it is well-formed when finite. -/
theorem add_fin_spec (s t : Bool) (m n : ℕ) (e f : ℤ) :
    add (fin s m e) (fin t n f) ≠ nan ∧
    ext (add (fin s m e) (fin t n f)) = rext (toRat (fin s m e) + toRat (fin t n f)) ∧
    ((add (fin s m e) (fin t n f)).isFin = true → Finite (add (fin s m e) (fin t n f))) := by
  refine ⟨?_, ?_, add_finite⟩
  · unfold add; simp only
    split_ifs with hq
    · intro hc; exact Binary32.noConfusion hc
    · exact round_ne_nan hq
  · unfold add; simp only
    split_ifs with hq
    · rw [hq, rext_zero]; simp [ext, toRat]
    · exact ext_round hq

/-- The difference of two finite data. -/
theorem sub_fin_spec (s t : Bool) (m n : ℕ) (e f : ℤ) :
    fin s m e - fin t n f ≠ nan ∧
    ext (fin s m e - fin t n f) = rext (toRat (fin s m e) - toRat (fin t n f)) ∧
    ((fin s m e - fin t n f).isFin = true → Finite (fin s m e - fin t n f)) := by
  have h := add_fin_spec s (!t) m n e f
  have hv : toRat (fin (!t) n f) = -toRat (fin t n f) := toRat_neg (fin t n f)
  rw [hv, ← sub_eq_add_neg] at h
  exact h

/-- The product of two finite data. -/
theorem mul_fin_spec (s t : Bool) (m n : ℕ) (e f : ℤ) :
    mul (fin s m e) (fin t n f) ≠ nan ∧
    ext (mul (fin s m e) (fin t n f)) = rext (toRat (fin s m e) * toRat (fin t n f)) ∧
    ((mul (fin s m e) (fin t n f)).isFin = true → Finite (mul (fin s m e) (fin t n f))) := by
  unfold mul; simp only
  by_cases h0 : m = 0 ∨ n = 0
  · rw [if_pos h0]
    have hq : toRat (fin s m e) * toRat (fin t n f) = 0 := by
      rcases h0 with h | h
      · rw [(toRat_eq_zero_iff s m e).mpr h, zero_mul]
      · rw [(toRat_eq_zero_iff t n f).mpr h, mul_zero]
    refine ⟨fun hc => Binary32.noConfusion hc, ?_, fun _ => ?_⟩
    · rw [hq, rext_zero]; simp [ext, toRat]
    · exact ⟨by norm_num, le_refl _, by norm_num, Or.inr rfl⟩
  · rw [if_neg h0]
    push_neg at h0
    have hq : toRat (fin s m e) * toRat (fin t n f) ≠ 0 :=
      mul_ne_zero (fun h => h0.1 ((toRat_eq_zero_iff s m e).mp h))
        (fun h => h0.2 ((toRat_eq_zero_iff t n f).mp h))
    exact ⟨round_ne_nan hq, ext_round hq, round_finite hq⟩

/-- The quotient of a finite datum by a non-zero finite datum. -/
theorem div_fin_spec (s t : Bool) (m : ℕ) {n : ℕ} (e f : ℤ) (hn : n ≠ 0) :
    div (fin s m e) (fin t n f) ≠ nan ∧
    ext (div (fin s m e) (fin t n f)) = rext (toRat (fin s m e) / toRat (fin t n f)) ∧
    ((div (fin s m e) (fin t n f)).isFin = true → Finite (div (fin s m e) (fin t n f))) := by
  unfold div; simp only
  rw [if_neg hn]
  by_cases h0 : m = 0
  · rw [if_pos h0]
    have hq : toRat (fin s m e) / toRat (fin t n f) = 0 := by
      rw [(toRat_eq_zero_iff s m e).mpr h0, zero_div]
    refine ⟨fun hc => Binary32.noConfusion hc, ?_, fun _ => ?_⟩
    · rw [hq, rext_zero]; simp [ext, toRat]
    · exact ⟨by norm_num, le_refl _, by norm_num, Or.inr rfl⟩
  · rw [if_neg h0]
    have hq : toRat (fin s m e) / toRat (fin t n f) ≠ 0 :=
      div_ne_zero (fun h => h0 ((toRat_eq_zero_iff s m e).mp h))
        (fun h => hn ((toRat_eq_zero_iff t n f).mp h))
    exact ⟨round_ne_nan hq, ext_round hq, round_finite hq⟩

/-- Every quotient is NaN, an infinity or a well-formed finite datum. -/
theorem div_wf (x y : Binary32) : (x / y).isFin = true → Finite (x / y) := by
  rw [div_def]
  cases x with
  | nan => intro h; cases y <;> simp [div, isFin] at h
  | inf s => intro h; cases y <;> simp [div, isFin] at h
  | fin s m e =>
    cases y with
    | nan => intro h; simp [div, isFin] at h
    | inf t => intro _; exact ⟨by norm_num, le_refl _, by norm_num, Or.inr rfl⟩
    | fin t n f =>
      by_cases hn : n = 0
      · intro h
        unfold div at h; simp only at h
        rw [if_pos hn] at h
        split_ifs at h <;> simp [isFin] at h
      · exact (div_fin_spec s t m e f hn).2.2

/-- The comparison `0 < u`. -/
theorem zero_lt_iff (u : Binary32) (hu : u ≠ nan) : lt 0 u = true ↔ 0 < ext u := by
  rw [zero_def]
  cases u with
  | nan => exact absurd rfl hu
  | inf s => cases s <;> simp [lt, ext]
  | fin s m e => simp [lt, ext, toRat_zero]

/-- The comparison `u < 1`. -/
theorem lt_one_iff (u : Binary32) (hu : u ≠ nan) : lt u 1 = true ↔ ext u < 1 := by
  rw [one_def]
  cases u with
  | nan => exact absurd rfl hu
  | inf s =>
    cases s
    · simp [lt, ext]; norm_num
    · simp [lt, ext]; norm_num
  | fin s m e => simp only [lt, ext, toRat_one, decide_eq_true_eq]

theorem clamp_eq_zero {u : Binary32} (h : lt 0 u = false) : dsl_cuda.clamp_t u 0 1 = 0 := by
  have h1 : ¬ ((0 : Binary32) < u) := by
    show ¬ (lt 0 u = true)
    rw [h]; exact Bool.false_ne_true
  have h2 : (0 : Binary32) < 1 := by decide!
  unfold dsl_cuda.clamp_t dsl_cuda.max_t dsl_cuda.min_t
  rw [if_neg h1, if_pos h2]

theorem clamp_eq_one {u : Binary32} (h0 : lt 0 u = true) (h1 : lt u 1 = false) :
    dsl_cuda.clamp_t u 0 1 = 1 := by
  have h0' : (0 : Binary32) < u := h0
  have h1' : ¬ (u < (1 : Binary32)) := by
    show ¬ (lt u 1 = true)
    rw [h1]; exact Bool.false_ne_true
  unfold dsl_cuda.clamp_t dsl_cuda.max_t dsl_cuda.min_t
  rw [if_pos h0', if_neg h1']

theorem clamp_eq_self {u : Binary32} (h0 : lt 0 u = true) (h1 : lt u 1 = true) :
    dsl_cuda.clamp_t u 0 1 = u := by
  have h0' : (0 : Binary32) < u := h0
  have h1' : u < (1 : Binary32) := h1
  unfold dsl_cuda.clamp_t dsl_cuda.max_t dsl_cuda.min_t
  rw [if_pos h0', if_pos h1']

/-- The clamped parameter is `0`, `1`, or the argument itself when that lies strictly between
them. -/
theorem clamp_cases (u : Binary32) :
    dsl_cuda.clamp_t u 0 1 = 0 ∨ dsl_cuda.clamp_t u 0 1 = 1 ∨
    (dsl_cuda.clamp_t u 0 1 = u ∧ ∃ m e, u = fin false m e ∧ 0 < toRat u ∧ toRat u < 1) := by
  cases h0 : lt 0 u with
  | false => exact Or.inl (clamp_eq_zero h0)
  | true =>
    cases h1 : lt u 1 with
    | false => exact Or.inr (Or.inl (clamp_eq_one h0 h1))
    | true =>
      refine Or.inr (Or.inr ⟨clamp_eq_self h0 h1, ?_⟩)
      have hu : u ≠ nan := by
        intro hc; rw [hc, zero_def] at h0; simp [lt] at h0
      have a0 := (zero_lt_iff u hu).mp h0
      have a1 := (lt_one_iff u hu).mp h1
      cases u with
      | nan => exact absurd rfl hu
      | inf s =>
        cases s
        · simp only [ext] at a1; norm_num at a1
        · simp only [ext] at a0; norm_num at a0
      | fin s m e =>
        have hs : s = false := by
          cases s
          · rfl
          · simp only [ext, toRat_neg_sign] at a0
            have : (0 : ℚ) ≤ (m : ℚ) * 2 ^ e :=
              mul_nonneg (Nat.cast_nonneg m) (le_of_lt (two_zpow_pos e))
            linarith
        subst hs
        exact ⟨m, e, rfl, a0, a1⟩

/-- The value of the clamped parameter of a non-NaN argument. -/
theorem clamp_val (u : Binary32) (hu : u ≠ nan) :
    toRat (dsl_cuda.clamp_t u 0 1) = min (max (ext u) 0) 1 := by
  have t0 : toRat (0 : Binary32) = 0 := by rw [zero_def]; exact toRat_zero _ _
  have t1 : toRat (1 : Binary32) = 1 := by rw [one_def]; exact toRat_one
  cases h0 : lt 0 u with
  | false =>
    have a0 : ¬ (0 < ext u) := fun h => by
      have := (zero_lt_iff u hu).mpr h; rw [h0] at this; exact Bool.false_ne_true this
    rw [clamp_eq_zero h0, t0, max_eq_right (not_lt.mp a0)]
    exact (min_eq_left (by norm_num)).symm
  | true =>
    have a0 := (zero_lt_iff u hu).mp h0
    cases h1 : lt u 1 with
    | false =>
      have a1 : ¬ (ext u < 1) := fun h => by
        have := (lt_one_iff u hu).mpr h; rw [h1] at this; exact Bool.false_ne_true this
      rw [clamp_eq_one h0 h1, t1, max_eq_left (le_of_lt a0), min_eq_right (not_lt.mp a1)]
    | true =>
      have a1 := (lt_one_iff u hu).mp h1
      rw [clamp_eq_self h0 h1, max_eq_left (le_of_lt a0), min_eq_left (le_of_lt a1)]
      cases u with
      | nan => exact absurd rfl hu
      | inf s =>
        cases s
        · simp only [ext] at a1; norm_num at a1
        · simp only [ext] at a0; norm_num at a0
      | fin s m e => rfl

end Binary32

namespace Binary32

/-- The rounding error of a magnitude not above `2 ^ k`. -/
theorem uround_error_le {a : ℚ} {k : ℤ} (j : ℤ) (ha : 0 < a) (h : a ≤ 2 ^ k) (hk : -125 ≤ k)
    (hj : j = k - 25) : |uround a - a| ≤ 2 ^ j := by
  subst hj
  rcases eq_or_lt_of_le h with heq | hlt
  · have h1 : uround a = a := by
      have := uround_exact (k := 1) (e := k) (by norm_num) (by omega)
      simp only [Nat.cast_one, one_mul] at this
      rw [heq]; exact this
    rw [h1, sub_self, abs_zero]
    exact le_of_lt (two_zpow_pos _)
  · have hq := qexp_le_of_lt ha hlt hk
    exact le_trans (uround_error a) (zpow_le_of_le (by omega))

theorem ilog2_eq {a : ℚ} {k : ℤ} (h1 : (2 : ℚ) ^ k ≤ a) (h2 : a < 2 ^ (k + 1)) : ilog2 a = k := by
  have ha : 0 < a := lt_of_lt_of_le (two_zpow_pos k) h1
  have u1 := le_ilog2_of_le ha h1
  have u2 := ilog2_lt_of_lt ha h2
  omega

/-- The two rounded factors `t * t` and `3 - 2 * t` of the smoothstep polynomial at a
well-formed `0 < t < 1`: their exact product is at most `1` and within `2 ^ (-24)` of the
polynomial. -/
theorem poly_grid {m : ℕ} {e : ℤ} (hF : Finite (fin false m e)) {v : ℚ}
    (hv : v = (m : ℚ) * 2 ^ e) (h0 : 0 < v) (h1 : v < 1) :
    0 ≤ uround (v * v) ∧ 1 ≤ uround (3 - 2 * v) ∧ uround (3 - 2 * v) ≤ 3 ∧
    uround (v * v) * uround (3 - 2 * v) ≤ 1 ∧
    |uround (v * v) * uround (3 - 2 * v) - v * v * (3 - 2 * v)| ≤ 2 ^ (-24 : ℤ) := by
  obtain ⟨f1, f2, f3, f4⟩ := hF
  have hvv : 0 < v * v := mul_pos h0 h0
  have hc : 1 < 3 - 2 * v := by linarith
  have hP0 : 0 ≤ uround (v * v) := uround_nonneg _ (le_of_lt hvv)
  have hC1 : 1 ≤ uround (3 - 2 * v) := one_le_uround (le_of_lt hc)
  have hC3 : uround (3 - 2 * v) ≤ 3 := by
    have := uround_le_exact (q := 3 - 2 * v) (k := 3) (e := 0) (by linarith) (by norm_num)
      (by norm_num) (by norm_num; linarith)
    simpa using this
  have key : ∀ P C c w : ℚ, P * C - w * c = (P - w) * C + w * (C - c) := by
    intro P C c w; ring
  refine ⟨hP0, hC1, hC3, ?_⟩
  rcases le_or_lt v (1 / 2) with hs | hl
  · -- the lower half
    have hvv4 : v * v ≤ 1 / 4 := by nlinarith
    have hP : uround (v * v) ≤ 1 / 4 := by
      have := uround_le_exact (q := v * v) (k := 1) (e := -2) hvv (by norm_num) (by norm_num)
        (by norm_num; linarith)
      norm_num at this
      linarith
    have e1 : |uround (v * v) - v * v| ≤ 2 ^ (-27 : ℤ) :=
      uround_error_le (k := -2) (-27) hvv (by norm_num; linarith) (by norm_num) (by norm_num)
    have e2 : |uround (3 - 2 * v) - (3 - 2 * v)| ≤ 2 ^ (-23 : ℤ) :=
      uround_error_le (k := 2) (-23) (by linarith) (by norm_num; linarith) (by norm_num)
        (by norm_num)
    constructor
    · nlinarith
    · rw [key]
      have a1 : |(uround (v * v) - v * v) * uround (3 - 2 * v)| ≤ 2 ^ (-27 : ℤ) * 3 := by
        rw [abs_mul, abs_of_nonneg (by linarith : (0 : ℚ) ≤ uround (3 - 2 * v))]
        exact mul_le_mul e1 hC3 (by linarith) (le_of_lt (two_zpow_pos _))
      have a2 : |v * v * (uround (3 - 2 * v) - (3 - 2 * v))| ≤ 1 / 4 * 2 ^ (-23 : ℤ) := by
        rw [abs_mul, abs_of_nonneg (le_of_lt hvv)]
        exact mul_le_mul hvv4 e2 (abs_nonneg _) (by norm_num)
      refine le_trans (abs_add _ _) (le_trans (add_le_add a1 a2) ?_)
      norm_num
  · -- the upper half: the exponent is `-24` and `3 - 2 * v` is exact
    have hm24 : (m : ℚ) < ((2 ^ 24 : ℕ) : ℚ) := by exact_mod_cast f1
    have he1 : -24 ≤ e := by
      have : (2 : ℚ) ^ (-1 : ℤ) < 2 ^ ((24 : ℤ) + e) := by
        calc (2 : ℚ) ^ (-1 : ℤ) = 1 / 2 := by norm_num
          _ < v := hl
          _ = (m : ℚ) * 2 ^ e := hv
          _ ≤ ((2 ^ 24 : ℕ) : ℚ) * 2 ^ e :=
              mul_le_mul_of_nonneg_right (le_of_lt hm24) (le_of_lt (two_zpow_pos e))
          _ = 2 ^ ((24 : ℤ) + e) := c24_mul e
      have := (zpow_lt_zpow_iff_right₀ (by norm_num : (1 : ℚ) < 2)).mp this
      omega
    have hm23 : 2 ^ 23 ≤ m := by
      rcases f4 with h | h
      · exact h
      · omega
    have he2 : e ≤ -24 := by
      have hm23' : (((2 ^ 23 : ℕ) : ℚ)) ≤ (m : ℚ) := by exact_mod_cast hm23
      have : (2 : ℚ) ^ ((23 : ℤ) + e) < 2 ^ (0 : ℤ) := by
        calc (2 : ℚ) ^ ((23 : ℤ) + e) = ((2 ^ 23 : ℕ) : ℚ) * 2 ^ e := (c23_mul e).symm
          _ ≤ (m : ℚ) * 2 ^ e :=
              mul_le_mul_of_nonneg_right hm23' (le_of_lt (two_zpow_pos e))
          _ = v := hv.symm
          _ < 1 := h1
          _ = 2 ^ (0 : ℤ) := by norm_num
      have := (zpow_lt_zpow_iff_right₀ (by norm_num : (1 : ℚ) < 2)).mp this
      omega
    have he : e = -24 := by omega
    subst he
    have hv2 : v = (m : ℚ) / 16777216 := by rw [hv]; norm_num; ring
    obtain ⟨k, hk⟩ : ∃ k : ℕ, m + k = 2 ^ 24 := ⟨2 ^ 24 - m, by omega⟩
    have hmq : (m : ℚ) = 16777216 - (k : ℚ) := by
      have : ((m + k : ℕ) : ℚ) = ((2 ^ 24 : ℕ) : ℚ) := by rw [hk]
      push_cast at this
      linarith
    have hvk : v = 1 - (k : ℚ) / 16777216 := by rw [hv2, hmq]; ring
    have hkpos : 0 < k := by omega
    have hk23 : k < 2 ^ 23 := by
      have : (8388608 : ℚ) < (m : ℚ) := by rw [hv2] at hl; linarith
      have : 2 ^ 23 < m := by exact_mod_cast this
      omega
    have hkq0 : (1 : ℚ) ≤ (k : ℚ) := by exact_mod_cast hkpos
    have hkq1 : (k : ℚ) < 8388608 := by exact_mod_cast hk23
    have hC : uround (3 - 2 * v) = 3 - 2 * v := by
      have hx : 3 - 2 * v = ((2 ^ 23 + k : ℕ) : ℚ) * 2 ^ (-23 : ℤ) := by
        rw [hvk]; push_cast; norm_num; ring
      rw [hx]
      exact uround_exact (by omega) (by norm_num)
    have e1 : |uround (v * v) - v * v| ≤ 2 ^ (-25 : ℤ) :=
      uround_error_le (k := 0) (-25) hvv (by norm_num; nlinarith) (by norm_num) (by norm_num)
    have e1' := abs_le.mp e1
    have h24 : (2 : ℚ) ^ (-24 : ℤ) = 1 / 16777216 := by norm_num
    have h25 : (2 : ℚ) ^ (-25 : ℤ) = 1 / 33554432 := by norm_num
    -- in terms of `x = 1 - v`
    obtain ⟨x, hx⟩ : ∃ x : ℚ, x = (k : ℚ) / 16777216 := ⟨_, rfl⟩
    have hkx : (k : ℚ) = 16777216 * x := by rw [hx]; ring
    have hvx : v = 1 - x := by rw [hvk, hx]
    have hx0 : 1 / 16777216 ≤ x := by rw [hx]; exact div_le_div_of_nonneg_right hkq0 (by norm_num)
    have hx1 : x < 1 / 2 := by linarith
    have hxx : 0 ≤ x * x := mul_self_nonneg x
    have hcx : 3 - 2 * v = 1 + 2 * x := by rw [hvx]; ring
    rw [hC]
    constructor
    · by_cases hsq : k * k < 2 ^ 23
      · have hk12 : k < 4096 := by
          by_contra hcon
          have : 4096 * 4096 ≤ k * k := Nat.mul_le_mul (by omega) (by omega)
          omega
        have hkq2 : (k : ℚ) < 4096 := by exact_mod_cast hk12
        have hsqq : (k : ℚ) * (k : ℚ) < 8388608 := by exact_mod_cast hsq
        have hx12 : x < 1 / 4096 := by rw [hkx] at hkq2; linarith
        have hv34 : 3 / 4 ≤ v := by linarith
        have hvhalf : (2 : ℚ) ^ (-1 : ℤ) ≤ v * v := by
          have : (2 : ℚ) ^ (-1 : ℤ) = 1 / 2 := by norm_num
          rw [this]
          have : 3 / 4 * (3 / 4) ≤ v * v := mul_le_mul hv34 hv34 (by norm_num) (by linarith)
          linarith
        have hvone : v * v < 2 ^ ((-1 : ℤ) + 1) := by
          have : (2 : ℚ) ^ ((-1 : ℤ) + 1) = 1 := by norm_num
          rw [this]
          have : v * v < 1 * 1 := mul_lt_mul h1 (le_of_lt h1) h0 (by norm_num)
          linarith
        have hil : ilog2 (v * v) = -1 := ilog2_eq hvhalf hvone
        have hqe : qexp (v * v) = -24 := by
          unfold qexp; rw [hil]; decide
        have hquot : v * v / 2 ^ (-24 : ℤ) =
            ((16777216 - 2 * (k : ℤ) : ℤ) : ℚ) + (k : ℚ) * (k : ℚ) / 16777216 := by
          rw [h24, hvk]; push_cast; field_simp; ring
        have hfr : (k : ℚ) * (k : ℚ) / 16777216 < 1 / 2 := by
          rw [div_lt_iff₀ (by norm_num)]; linarith
        have hr : roundHalfEven (v * v / 2 ^ (-24 : ℤ)) ≤ 16777216 - 2 * (k : ℤ) := by
          apply roundHalfEven_le_of_lt_half
          rw [hquot]
          linarith
        have hr' : ((roundHalfEven (v * v / 2 ^ (-24 : ℤ)) : ℤ) : ℚ) ≤ 16777216 - 2 * (k : ℚ) := by
          have : ((roundHalfEven (v * v / 2 ^ (-24 : ℤ)) : ℤ) : ℚ) ≤
              ((16777216 - 2 * (k : ℤ) : ℤ) : ℚ) := by exact_mod_cast hr
          push_cast at this
          exact this
        have hP : uround (v * v) ≤ 1 - 2 * x := by
          unfold uround
          rw [hqe]
          have h2 : (0 : ℚ) ≤ 2 ^ (-24 : ℤ) := le_of_lt (two_zpow_pos _)
          have := mul_le_mul_of_nonneg_right hr' h2
          rw [h24] at this ⊢
          rw [hkx] at this
          linarith
        have hcpos : 0 ≤ 3 - 2 * v := by linarith
        have step : uround (v * v) * (3 - 2 * v) ≤ (1 - 2 * x) * (3 - 2 * v) :=
          mul_le_mul_of_nonneg_right hP hcpos
        rw [hcx] at step ⊢
        have : (1 - 2 * x) * (1 + 2 * x) = 1 - 4 * (x * x) := by ring
        linarith
      · have hsq' : 2 ^ 23 ≤ k * k := not_lt.mp hsq
        have hsqq : (8388608 : ℚ) ≤ (k : ℚ) * (k : ℚ) := by exact_mod_cast hsq'
        have A : 1 / 33554432 ≤ x * x := by
          rw [hkx] at hsqq
          have : 16777216 * x * (16777216 * x) = 281474976710656 * (x * x) := by ring
          rw [this] at hsqq
          linarith
        have B : 1 / 16777216 * x ≤ x * x :=
          mul_le_mul_of_nonneg_right hx0 (by linarith)
        have C : 0 ≤ x * x * (1 - 2 * x) := mul_nonneg hxx (by linarith)
        have hP : uround (v * v) ≤ v * v + 1 / 33554432 := by
          have := e1'.2; rw [h25] at this; linarith
        have hcpos : 0 ≤ 3 - 2 * v := by linarith
        have step : uround (v * v) * (3 - 2 * v) ≤ (v * v + 1 / 33554432) * (3 - 2 * v) :=
          mul_le_mul_of_nonneg_right hP hcpos
        refine le_trans step ?_
        rw [hvx]
        have : ((1 - x) * (1 - x) + 1 / 33554432) * (3 - 2 * (1 - x)) =
            1 - (x * x - 1 / 33554432) - (x * x - 1 / 16777216 * x) - x * x * (1 - 2 * x) := by
          ring
        rw [this]
        linarith
    · have hC2 : 3 - 2 * v ≤ 2 := by linarith
      have hcpos : 0 ≤ 3 - 2 * v := by linarith
      have : uround (v * v) * (3 - 2 * v) - v * v * (3 - 2 * v) =
          (uround (v * v) - v * v) * (3 - 2 * v) := by ring
      rw [this, abs_mul, abs_of_nonneg hcpos]
      have := mul_le_mul e1 hC2 hcpos (le_of_lt (two_zpow_pos (-25)))
      rw [h24]
      rw [h25] at this
      linarith

end Binary32

/-! ## The `smoothstep` polynomial in binary32 -/

namespace Binary32

theorem two_def : (2 : Binary32) = fin false 8388608 (-22) := by decide!
theorem three_def : (3 : Binary32) = fin false 12582912 (-22) := by decide!

theorem toRat_two : toRat (fin false 8388608 (-22)) = 2 := by
  rw [toRat_pos_sign]; norm_num

theorem toRat_three : toRat (fin false 12582912 (-22)) = 3 := by
  rw [toRat_pos_sign]; norm_num

theorem lt_p128_of_le {x c : ℚ} (h : x ≤ c) (hc : c ≤ 3) : x < 2 ^ 128 := by
  have : (3 : ℚ) < 2 ^ 128 := by norm_num
  linarith

/-- The smoothstep polynomial `t * t * (3 - 2 * t)` at a well-formed `0 < t < 1`: the result is
a well-formed datum in `[0, 1]` within `3 * 2 ^ (-25)` of the exact polynomial. -/
theorem poly_spec {m : ℕ} {e : ℤ} (hF : Finite (fin false m e))
    (h0 : 0 < toRat (fin false m e)) (h1 : toRat (fin false m e) < 1) :
    ∃ m' e', fin false m e * fin false m e * (3 - 2 * fin false m e) = fin false m' e' ∧
      Finite (fin false m' e') ∧ 0 ≤ toRat (fin false m' e') ∧ toRat (fin false m' e') ≤ 1 ∧
      |toRat (fin false m' e') - toRat (fin false m e) * toRat (fin false m e) *
        (3 - 2 * toRat (fin false m e))| ≤ 3 * 2 ^ (-25 : ℤ) := by
  have two_ne : (2 : ℚ) ≠ 0 := by norm_num
  have hm : m ≠ 0 := fun h => by
    rw [(toRat_eq_zero_iff false m e).mpr h] at h0; exact lt_irrefl _ h0
  obtain ⟨hP0, hC1, hC3, hle, herr⟩ := poly_grid hF (toRat_pos_sign m e) h0 h1
  generalize hv : toRat (fin false m e) = v at h0 h1 hP0 hC1 hC3 hle herr ⊢
  have hvv : 0 < v * v := mul_pos h0 h0
  -- t * t
  have s1 : fin false m e * fin false m e = round (v * v) := by
    rw [mul_def]; unfold mul; simp only
    rw [if_neg (by simp [hm]), hv]
  obtain ⟨m1, e1, r1, F1, v1⟩ := round_pos hvv
    (lt_p128_of_le (uround_le_one hvv (by nlinarith)) (by norm_num))
  -- 2 * t
  have s2 : 2 * fin false m e = round (2 * v) := by
    rw [two_def, mul_def]; unfold mul; simp only
    rw [if_neg (by simp [hm]), hv, toRat_two]
  have hv2 : 2 * v = (m : ℚ) * 2 ^ (e + 1) := by
    rw [← hv, toRat_pos_sign, zpow_add₀ two_ne]; ring
  have hu2 : uround (2 * v) = 2 * v := by
    rw [hv2]; exact uround_exact hF.1 (by have := hF.2.1; omega)
  obtain ⟨m2, e2, r2, F2, v2⟩ := round_pos (by linarith : 0 < 2 * v)
    (by rw [hu2]; exact lt_p128_of_le (le_of_lt (by linarith : 2 * v < 3)) (le_refl _))
  rw [hu2] at v2
  -- 3 - 2 * t
  have s3 : 3 - fin false m2 e2 = round (3 - 2 * v) := by
    rw [three_def, sub_def]
    show add (fin false 12582912 (-22)) (fin true m2 e2) = _
    have hq : toRat (fin false 12582912 (-22)) + toRat (fin true m2 e2) = 3 - 2 * v := by
      have := toRat_neg (fin false m2 e2)
      unfold neg at this; simp only [Bool.not_false] at this
      rw [this, toRat_three, v2]; ring
    unfold add; simp only
    rw [hq, if_neg (by linarith)]
  obtain ⟨m3, e3, r3, F3, v3⟩ := round_pos (by linarith : 0 < 3 - 2 * v)
    (lt_p128_of_le hC3 (le_refl _))
  rw [s1, r1, s2, r2, s3, r3, mul_def]
  have hm3 : m3 ≠ 0 := fun h => by
    rw [(toRat_eq_zero_iff false m3 e3).mpr h] at v3; linarith
  have h25 : (2 : ℚ) ^ (-25 : ℤ) = 1 / 33554432 := by norm_num
  have h24 : (2 : ℚ) ^ (-24 : ℤ) = 1 / 16777216 := by norm_num
  rw [h24] at herr
  rw [h25]
  have herr' := abs_le.mp herr
  by_cases hm1 : m1 = 0
  · refine ⟨0, -149, ?_, ⟨by norm_num, le_refl _, by norm_num, Or.inr rfl⟩, ?_, ?_, ?_⟩
    · unfold mul; simp only
      rw [if_pos (Or.inl hm1)]; rfl
    · rw [toRat_zero]
    · rw [toRat_zero]; norm_num
    · have hz : uround (v * v) = 0 := by
        rw [← v1]; exact (toRat_eq_zero_iff false m1 e1).mpr hm1
      rw [hz, zero_mul] at herr'
      rw [toRat_zero, abs_le]
      constructor <;> linarith [herr'.1, herr'.2]
  · have hq : toRat (fin false m1 e1) * toRat (fin false m3 e3) =
        uround (v * v) * uround (3 - 2 * v) := by rw [v1, v3]
    have hP1 : 0 < uround (v * v) := by
      rcases eq_or_lt_of_le hP0 with h | h
      · exact absurd ((toRat_eq_zero_iff false m1 e1).mp (by rw [v1, ← h])) hm1
      · exact h
    have hpos : 0 < uround (v * v) * uround (3 - 2 * v) := mul_pos hP1 (by linarith)
    obtain ⟨m4, e4, r4, F4, v4⟩ := round_pos hpos
      (lt_p128_of_le (uround_le_one hpos hle) (by norm_num))
    have e4' : |uround (uround (v * v) * uround (3 - 2 * v)) -
        uround (v * v) * uround (3 - 2 * v)| ≤ 2 ^ (-25 : ℤ) :=
      uround_error_le (k := 0) (-25) hpos (by norm_num; exact hle) (by norm_num) (by norm_num)
    rw [h25] at e4'
    have e4b := abs_le.mp e4'
    refine ⟨m4, e4, ?_, F4, ?_, ?_, ?_⟩
    · unfold mul; simp only
      rw [if_neg (by simp [hm1, hm3]), hq, r4]
    · rw [v4]; exact uround_nonneg _ (le_of_lt hpos)
    · rw [v4]; exact uround_le_one hpos hle
    · rw [v4, abs_le]
      constructor <;> linarith [herr'.1, herr'.2, e4b.1, e4b.2]

theorem poly_zero : (0 : Binary32) * 0 * (3 - 2 * 0) = fin false 0 (-149) := by decide!

theorem poly_one : (1 : Binary32) * 1 * (3 - 2 * 1) = fin false 8388608 (-23) := by decide!

/-- The value of `smoothstep`: for all arguments the result is a well-formed datum in `[0, 1]`,
within `3 * 2 ^ (-25)` of the exact polynomial at the clamped parameter. -/
theorem smoothstep_spec (a b x : Binary32) :
    ∃ m e, dsl_cuda.smoothstep a b x = fin false m e ∧ Finite (fin false m e) ∧
      0 ≤ toRat (fin false m e) ∧ toRat (fin false m e) ≤ 1 ∧
      |toRat (fin false m e) -
        toRat (dsl_cuda.clamp_t ((x - a) / (b - a)) 0 1) *
        toRat (dsl_cuda.clamp_t ((x - a) / (b - a)) 0 1) *
        (3 - 2 * toRat (dsl_cuda.clamp_t ((x - a) / (b - a)) 0 1))| ≤ 3 * 2 ^ (-25 : ℤ) := by
  have hs : dsl_cuda.smoothstep a b x =
      dsl_cuda.clamp_t ((x - a) / (b - a)) 0 1 * dsl_cuda.clamp_t ((x - a) / (b - a)) 0 1 *
        (3 - 2 * dsl_cuda.clamp_t ((x - a) / (b - a)) 0 1) := rfl
  rw [hs]
  have hwf := div_wf (x - a) (b - a)
  generalize (x - a) / (b - a) = u at hwf ⊢
  rcases clamp_cases u with h | h | ⟨h, m, e, hu, h0, h1⟩
  · rw [h, poly_zero]
    refine ⟨0, -149, rfl, ⟨by norm_num, le_refl _, by norm_num, Or.inr rfl⟩, ?_, ?_, ?_⟩
    · rw [toRat_zero]
    · rw [toRat_zero]; norm_num
    · rw [zero_def, toRat_zero]; norm_num
  · rw [h, poly_one]
    refine ⟨8388608, -23, rfl, ⟨by norm_num, by norm_num, by norm_num, Or.inl (by norm_num)⟩,
      ?_, ?_, ?_⟩
    · rw [toRat_one]; norm_num
    · rw [toRat_one]
    · rw [one_def, toRat_one]; norm_num
  · rw [h]
    subst hu
    exact poly_spec (hwf rfl) h0 h1

end Binary32

namespace Binary32

theorem rext_one : rext 1 = 1 := by
  have := rext_exact (k := 1) (e := 0) (by norm_num) (by norm_num) (by norm_num)
  simpa using this

theorem rext_nonpos {q : ℚ} (h : q ≤ 0) : rext q ≤ 0 := by
  have := rext_mono h; rwa [rext_zero] at this

theorem one_le_rext {q : ℚ} (h : 1 ≤ q) : 1 ≤ rext q := by
  have := rext_mono h; rwa [rext_one] at this

theorem unit_clamp_of_nonpos {y : ℚ} (h : y ≤ 0) : min (max y 0) 1 = 0 := by
  rw [max_eq_right h]; exact min_eq_left (by norm_num)

theorem unit_clamp_of_one_le {y : ℚ} (h : 1 ≤ y) : min (max y 0) 1 = 1 := by
  rw [max_eq_left (by linarith)]; exact min_eq_right h

theorem unit_clamp_mono {y z : ℚ} (h : y ≤ z) : min (max y 0) 1 ≤ min (max z 0) 1 :=
  min_le_min (max_le_max h (le_refl _)) (le_refl _)

/-- The value of the clamped quotient `n / d` for a non-zero finite divisor `d` and a
dividend `n` that is an infinity or finite. -/
theorem clamp_quot {n : Binary32} (hn : n ≠ nan) {ds : Bool} {dm : ℕ} {de : ℤ}
    (hd : Finite (fin ds dm de)) (hm : dm ≠ 0) :
    toRat (dsl_cuda.clamp_t (n / fin ds dm de) 0 1) =
      min (max (rext (ext n / toRat (fin ds dm de))) 0) 1 := by
  have hdlt := finite_abs_lt hd
  rw [abs_toRat_fin] at hdlt
  have hdpos : (0 : ℚ) < (dm : ℚ) * 2 ^ de :=
    mul_pos (by exact_mod_cast Nat.pos_of_ne_zero hm) (two_zpow_pos de)
  have big : 1 ≤ (2 : ℚ) ^ 128 / ((dm : ℚ) * 2 ^ de) := by
    rw [le_div_iff₀ hdpos]; linarith
  cases n with
  | nan => exact absurd rfl hn
  | inf sn =>
    have hu : inf sn / fin ds dm de = inf (xor sn ds) := rfl
    rw [hu, clamp_val _ (fun hc => Binary32.noConfusion hc)]
    cases sn <;> cases ds
    · simp only [Bool.xor_false, ext, toRat_pos_sign, Bool.false_eq_true, if_false]
      rw [unit_clamp_of_one_le (by norm_num), unit_clamp_of_one_le (one_le_rext big)]
    · simp only [Bool.false_xor, ext, toRat_neg_sign, Bool.false_eq_true, if_false, if_true]
      have : rext (2 ^ 128 / -((dm : ℚ) * 2 ^ de)) ≤ 0 := by
        apply rext_nonpos
        rw [div_neg]; linarith
      rw [unit_clamp_of_nonpos (by norm_num), unit_clamp_of_nonpos this]
    · simp only [Bool.xor_false, ext, toRat_pos_sign, if_true]
      have : rext (-(2 ^ 128) / ((dm : ℚ) * 2 ^ de)) ≤ 0 := by
        apply rext_nonpos
        rw [neg_div]; linarith
      rw [unit_clamp_of_nonpos (by norm_num), unit_clamp_of_nonpos this]
    · simp only [Bool.xor_self, ext, toRat_neg_sign, Bool.false_eq_true, if_false, if_true]
      have : 1 ≤ rext (-(2 ^ 128) / -((dm : ℚ) * 2 ^ de)) := by
        apply one_le_rext
        rw [neg_div_neg_eq]; exact big
      rw [unit_clamp_of_one_le (by norm_num), unit_clamp_of_one_le this]
  | fin sn nm ne =>
    obtain ⟨h1, h2, -⟩ := div_fin_spec sn ds nm ne de hm
    rw [div_def, clamp_val _ h1, h2]
    rfl

/-- A quotient by an infinity has the clamped parameter `0`. -/
theorem clamp_div_inf (n : Binary32) (ds : Bool) :
    dsl_cuda.clamp_t (n / inf ds) 0 1 = 0 := by
  apply clamp_eq_zero
  rw [div_def, zero_def]
  cases n with
  | nan => rfl
  | inf sn => rfl
  | fin sn nm ne => simp [div, lt, toRat]

/-- The difference of two finite data with different values is not a zero. -/
theorem sub_parts {a b : Binary32} (ha : Finite a) (hb : Finite b)
    (hab : toRat a ≠ toRat b) :
    (∃ s, b - a = inf s) ∨
    (∃ s m e, b - a = fin s m e ∧ m ≠ 0 ∧ Finite (fin s m e) ∧
      toRat (fin s m e) = rext (toRat b - toRat a)) := by
  cases a with
  | nan => exact absurd ha (by simp [Finite])
  | inf s => exact absurd ha (by simp [Finite])
  | fin s m e =>
    cases b with
    | nan => exact absurd hb (by simp [Finite])
    | inf s => exact absurd hb (by simp [Finite])
    | fin t n f =>
      obtain ⟨h1, h2, -⟩ := sub_fin_spec t s n m f e
      have heq : eq (fin s m e) (fin t n f) = false := by
        unfold eq; simp only; exact decide_eq_false hab
      cases hd : fin t n f - fin s m e with
      | nan => exact absurd hd h1
      | inf ds => exact Or.inl ⟨ds, rfl⟩
      | fin ds dm de =>
        right
        obtain ⟨ds', dm', de', e1, e2, e3⟩ :=
          sub_finite_ne_zero ha hb heq (by rw [hd]; rfl)
        rw [hd] at e1 h2
        obtain ⟨rfl, rfl, rfl⟩ := fin.inj e1
        exact ⟨ds, dm, de, rfl, e2, e3, h2⟩

/-- The value of the clamped parameter of `smoothstep` for finite arguments whose difference
`b - a` is finite and not zero. -/
theorem param_val {a b x : Binary32} (ha : Finite a) (hx : Finite x)
    {ds : Bool} {dm : ℕ} {de : ℤ} (hd : b - a = fin ds dm de) (hF : Finite (fin ds dm de))
    (hm : dm ≠ 0) :
    toRat (dsl_cuda.clamp_t ((x - a) / (b - a)) 0 1) =
      min (max (rext (rext (toRat x - toRat a) / toRat (fin ds dm de))) 0) 1 := by
  cases a with
  | nan => exact absurd ha (by simp [Finite])
  | inf s => exact absurd ha (by simp [Finite])
  | fin s m e =>
    cases x with
    | nan => exact absurd hx (by simp [Finite])
    | inf s => exact absurd hx (by simp [Finite])
    | fin t n f =>
      obtain ⟨h1, h2, -⟩ := sub_fin_spec t s n m f e
      rw [hd, clamp_quot h1 hF hm, h2]

end Binary32

/-! ## The IEEE floor and `fract` in binary32 -/

namespace Binary32

/-- A non-NaN datum whose extended value is inside `(-2 ^ 128, 2 ^ 128)` is finite. -/
theorem fin_of_ext {r : Binary32} (hr : r ≠ nan) (h1 : -(2 ^ 128) < ext r)
    (h2 : ext r < 2 ^ 128) : ∃ s m e, r = fin s m e := by
  cases r with
  | nan => exact absurd rfl hr
  | inf s =>
    cases s
    · simp only [ext, Bool.false_eq_true, if_false] at h2; exact absurd h2 (lt_irrefl _)
    · simp only [ext, if_true] at h1; exact absurd h1 (lt_irrefl _)
  | fin s m e => exact ⟨s, m, e, rfl⟩

/-- A non-zero exact result of the form `± k * 2 ^ g` with a 24-bit `k` is not rounded. -/
theorem round_exact {q : ℚ} (hq : q ≠ 0) {k : ℕ} {g : ℤ} (hk : k < 2 ^ 24) (hg : -149 ≤ g)
    (hg2 : g ≤ 104) (h : |q| = (k : ℚ) * 2 ^ g) :
    ∃ s m e, round q = fin s m e ∧ Finite (fin s m e) ∧ toRat (fin s m e) = q := by
  have hr : rext q = q := by
    rcases lt_or_gt_of_ne hq with hneg | hpos
    · have h1 : rext q = -rext (-q) := by rw [rext_neg]; ring
      rw [abs_of_neg hneg] at h
      rw [h1, h, rext_exact hk hg hg2, ← h]; ring
    · rw [abs_of_pos hpos] at h
      rw [h, rext_exact hk hg hg2]
  have he := ext_round hq
  rw [hr] at he
  have hlt : |q| < 2 ^ 128 := by
    rw [h, p128]
    have h1 : (k : ℚ) < ((2 ^ 24 : ℕ) : ℚ) := by exact_mod_cast hk
    calc (k : ℚ) * 2 ^ g < ((2 ^ 24 : ℕ) : ℚ) * 2 ^ g :=
          mul_lt_mul_of_pos_right h1 (two_zpow_pos g)
      _ = 2 ^ ((24 : ℤ) + g) := c24_mul g
      _ ≤ 2 ^ (128 : ℤ) := zpow_le_of_le (by omega)
  obtain ⟨a1, a2⟩ := abs_lt.mp hlt
  obtain ⟨s, m, e, hfin⟩ := fin_of_ext (round_ne_nan hq) (by rw [he]; exact a1)
    (by rw [he]; exact a2)
  refine ⟨s, m, e, hfin, ?_, ?_⟩
  · rw [← hfin]; exact round_finite hq (by rw [hfin]; rfl)
  · rw [hfin] at he; exact he

/-- The model of `floorf` returns, on a well-formed finite datum, a well-formed finite datum
whose value is the floor of the argument. -/
theorem floor_spec {s : Bool} {m : ℕ} {e : ℤ} (hF : Finite (fin s m e)) :
    ∃ s' m' e', floor (fin s m e) = fin s' m' e' ∧ Finite (fin s' m' e') ∧
      toRat (fin s' m' e') = ((⌊toRat (fin s m e)⌋ : ℤ) : ℚ) := by
  have two_ne : (2 : ℚ) ≠ 0 := by norm_num
  obtain ⟨f1, f2, f3, f4⟩ := hF
  unfold floor
  simp only
  by_cases h0 : ⌊toRat (fin s m e)⌋ = 0
  · rw [if_pos h0]
    exact ⟨s, 0, -149, rfl, ⟨by norm_num, le_refl _, by norm_num, Or.inr rfl⟩, by
      rw [toRat_zero, h0]; simp⟩
  · rw [if_neg h0]
    have hq : ((⌊toRat (fin s m e)⌋ : ℤ) : ℚ) ≠ 0 := by exact_mod_cast h0
    rcases le_or_lt 0 e with he | he
    · -- the argument is an integer
      obtain ⟨j, hj⟩ : ∃ j : ℕ, e = (j : ℤ) := ⟨e.toNat, (Int.toNat_of_nonneg he).symm⟩
      have hint : toRat (fin s m e) =
          (((if s then -1 else 1) * (m : ℤ) * 2 ^ j : ℤ) : ℚ) := by
        rw [toRat_fin, hj, zpow_natCast]
        cases s <;> push_cast <;> simp
      have hfl : ((⌊toRat (fin s m e)⌋ : ℤ) : ℚ) = toRat (fin s m e) := by
        rw [hint, Int.floor_intCast]
      rw [hfl] at hq ⊢
      exact round_exact hq f1 f2 f3 (abs_toRat_fin s m e)
    · -- the magnitude is below `2 ^ 23`
      have hlt : |toRat (fin s m e)| < 8388608 := by
        rw [abs_toRat_fin]
        have h1 : (m : ℚ) < ((2 ^ 24 : ℕ) : ℚ) := by exact_mod_cast f1
        calc (m : ℚ) * 2 ^ e < ((2 ^ 24 : ℕ) : ℚ) * 2 ^ e :=
              mul_lt_mul_of_pos_right h1 (two_zpow_pos e)
          _ = 2 ^ ((24 : ℤ) + e) := c24_mul e
          _ ≤ 2 ^ (23 : ℤ) := zpow_le_of_le (by omega)
          _ = 8388608 := by norm_num
      obtain ⟨a1, a2⟩ := abs_lt.mp hlt
      have b1 : (-8388608 : ℤ) ≤ ⌊toRat (fin s m e)⌋ := by
        apply Int.le_floor.mpr
        push_cast; linarith
      have b2 : ⌊toRat (fin s m e)⌋ < (8388608 : ℤ) := by
        apply Int.floor_lt.mpr
        push_cast; linarith
      have habs : |((⌊toRat (fin s m e)⌋ : ℤ) : ℚ)| =
          ((⌊toRat (fin s m e)⌋.natAbs : ℕ) : ℚ) * 2 ^ (0 : ℤ) := by
        rw [zpow_zero, mul_one, Nat.cast_natAbs, Int.cast_abs]
      exact round_exact hq (by omega) (by norm_num) (by norm_num) habs

/-- The value of `fract` with the IEEE floor at a well-formed finite datum: the rounded exact
fractional part. -/
theorem fract_val {x : Binary32} (hx : Finite x) :
    ∃ s m e, dsl_cuda.fract floor x = fin s m e ∧ Finite (fin s m e) ∧
      toRat (fin s m e) = rext (toRat x - ((⌊toRat x⌋ : ℤ) : ℚ)) ∧
      0 ≤ rext (toRat x - ((⌊toRat x⌋ : ℤ) : ℚ)) ∧
      rext (toRat x - ((⌊toRat x⌋ : ℤ) : ℚ)) ≤ 1 := by
  cases x with
  | nan => exact absurd hx (by simp [Finite])
  | inf s => exact absurd hx (by simp [Finite])
  | fin s m e =>
    obtain ⟨s', m', e', hfl, -, hv⟩ := floor_spec hx
    have hfr : dsl_cuda.fract floor (fin s m e) = fin s m e - fin s' m' e' := by
      unfold dsl_cuda.fract; rw [hfl]
    obtain ⟨h1, h2, h3⟩ := sub_fin_spec s s' m m' e e'
    rw [hv] at h2
    have q0 : 0 ≤ toRat (fin s m e) - ((⌊toRat (fin s m e)⌋ : ℤ) : ℚ) :=
      sub_nonneg.mpr (Int.floor_le _)
    have q1 : toRat (fin s m e) - ((⌊toRat (fin s m e)⌋ : ℤ) : ℚ) ≤ 1 := by
      have := Int.lt_floor_add_one (toRat (fin s m e)); linarith
    have r0 := rext_nonneg q0
    have r1 : rext (toRat (fin s m e) - ((⌊toRat (fin s m e)⌋ : ℤ) : ℚ)) ≤ 1 := by
      have := rext_mono q1; rwa [rext_one] at this
    rw [hfr]
    obtain ⟨s2, m2, e2, hfin⟩ := fin_of_ext h1
      (by rw [h2]; have : (0 : ℚ) < 2 ^ 128 := by positivity
          linarith)
      (by rw [h2]; have : (1 : ℚ) < 2 ^ 128 := by norm_num
          linarith)
    refine ⟨s2, m2, e2, hfin, ?_, ?_, r0, r1⟩
    · rw [← hfin]; exact h3 (by rw [hfin]; rfl)
    · rw [hfin] at h2; exact h2

/-- A positive magnitude below `1 - 2 ^ (-25)` does not round up to `1`. -/
theorem uround_lt_one {q : ℚ} (hq : 0 < q) (h : q < 1 - 2 ^ (-25 : ℤ)) :
    uround q ≤ 1 - 2 ^ (-24 : ℤ) := by
  have h24 : (2 : ℚ) ^ (-24 : ℤ) = 1 / 16777216 := by norm_num
  have h25 : (2 : ℚ) ^ (-25 : ℤ) = 1 / 33554432 := by norm_num
  rw [h25] at h
  rcases lt_or_le q (1 / 2) with hs | hl
  · have := uround_le_exact (q := q) (k := 1) (e := -1) hq (by norm_num) (by norm_num)
      (by norm_num; linarith)
    norm_num at this
    rw [h24]; linarith
  · have hil : ilog2 q = -1 :=
      ilog2_eq (by norm_num; linarith) (by norm_num; linarith)
    have hqe : qexp q = -24 := by unfold qexp; rw [hil]; decide
    have hr : roundHalfEven (q / 2 ^ (-24 : ℤ)) ≤ 16777215 := by
      apply roundHalfEven_le_of_lt_half
      rw [h24, div_lt_iff₀ (by norm_num)]
      push_cast
      linarith
    have hr' : ((roundHalfEven (q / 2 ^ (-24 : ℤ)) : ℤ) : ℚ) ≤ 16777215 := by
      exact_mod_cast hr
    unfold uround
    rw [hqe]
    have := mul_le_mul_of_nonneg_right hr' (le_of_lt (two_zpow_pos (-24)))
    rw [h24] at this ⊢
    linarith

/-- The exact fractional part of a well-formed finite datum is below `1 - 2 ^ (-25)` unless
the datum lies in `[-2 ^ (-25), 0)`. -/
theorem frac_grid {s : Bool} {m : ℕ} {e : ℤ} (hF : Finite (fin s m e))
    (h : 0 ≤ toRat (fin s m e) ∨ toRat (fin s m e) < -2 ^ (-25 : ℤ)) :
    toRat (fin s m e) - ((⌊toRat (fin s m e)⌋ : ℤ) : ℚ) < 1 - 2 ^ (-25 : ℤ) := by
  have two_ne : (2 : ℚ) ≠ 0 := by norm_num
  have h24 : (2 : ℚ) ^ (-24 : ℤ) = 1 / 16777216 := by norm_num
  have h25 : (2 : ℚ) ^ (-25 : ℤ) = 1 / 33554432 := by norm_num
  obtain ⟨f1, f2, f3, f4⟩ := hF
  rw [h25] at h ⊢
  rcases le_or_lt (-24) e with he | he
  · -- the value is a multiple of `2 ^ (-24)`
    obtain ⟨j, hj⟩ : ∃ j : ℕ, e = -24 + (j : ℤ) := ⟨(e + 24).toNat, by
      rw [Int.toNat_of_nonneg (by omega)]; ring⟩
    obtain ⟨K, hK⟩ : ∃ K : ℤ, toRat (fin s m e) = (K : ℚ) / 16777216 := by
      refine ⟨(if s then -1 else 1) * (m : ℤ) * 2 ^ j, ?_⟩
      rw [toRat_fin, hj, zpow_add₀ two_ne, zpow_natCast, h24]
      cases s <;> push_cast <;> simp <;> ring
    generalize toRat (fin s m e) = v at hK h ⊢
    have hlt : v - ((⌊v⌋ : ℤ) : ℚ) < 1 := by
      have := Int.lt_floor_add_one v; linarith
    have hKv : (K : ℚ) = v * 16777216 := by rw [hK]; field_simp
    have hi : K - ⌊v⌋ * 16777216 < 16777216 := by
      have : ((K - ⌊v⌋ * 16777216 : ℤ) : ℚ) < ((16777216 : ℤ) : ℚ) := by
        push_cast
        rw [hKv]
        linarith
      exact_mod_cast this
    have hi' : K - ⌊v⌋ * 16777216 ≤ 16777215 := by omega
    have hq : ((K - ⌊v⌋ * 16777216 : ℤ) : ℚ) ≤ 16777215 := by exact_mod_cast hi'
    push_cast at hq
    rw [hKv] at hq
    linarith
  · -- the magnitude is below `1 / 2`
    have hlt : |toRat (fin s m e)| < 1 / 2 := by
      rw [abs_toRat_fin]
      have h1 : (m : ℚ) < ((2 ^ 24 : ℕ) : ℚ) := by exact_mod_cast f1
      calc (m : ℚ) * 2 ^ e < ((2 ^ 24 : ℕ) : ℚ) * 2 ^ e :=
            mul_lt_mul_of_pos_right h1 (two_zpow_pos e)
        _ = 2 ^ ((24 : ℤ) + e) := c24_mul e
        _ ≤ 2 ^ (-1 : ℤ) := zpow_le_of_le (by omega)
        _ = 1 / 2 := by norm_num
    obtain ⟨a1, a2⟩ := abs_lt.mp hlt
    generalize toRat (fin s m e) = v at h a1 a2 ⊢
    rcases h with h | h
    · have hfl : ⌊v⌋ = 0 := by
        rw [Int.floor_eq_iff]; push_cast; constructor <;> linarith
      rw [hfl]; push_cast; linarith
    · have hfl : ⌊v⌋ = -1 := by
        rw [Int.floor_eq_iff]; push_cast; constructor <;> linarith
      rw [hfl]; push_cast; linarith

end Binary32


/-! ## `dot` and `length` -/

namespace Binary32

/-- A positive exact result rounds to `+inf` or to a datum with the sign bit clear. -/
theorem round_sign_pos {q : ℚ} (hq : 0 < q) :
    round q = inf false ∨ ∃ m e, round q = fin false m e := by
  have hd : decide (q < 0) = false := decide_eq_false (not_lt.mpr (le_of_lt hq))
  rcases round_spec (ne_of_gt hq) with ⟨-, h⟩ | ⟨-, m, e, h, -, -⟩
  · left; rw [h, hd]
  · right; exact ⟨m, e, by rw [h, hd]⟩

/-- A square is NaN, `+inf`, or finite with the sign bit clear. -/
theorem mul_self_sign (x : Binary32) :
    x * x = nan ∨ x * x = inf false ∨ ∃ m e, x * x = fin false m e := by
  rw [mul_def]
  cases x with
  | nan => exact Or.inl rfl
  | inf s => right; left; cases s <;> rfl
  | fin s m e =>
    unfold mul; simp only
    by_cases hm : m = 0
    · rw [if_pos (Or.inl hm)]
      right; right
      exact ⟨0, -149, by cases s <;> rfl⟩
    · rw [if_neg (by simp [hm])]
      have hne : toRat (fin s m e) ≠ 0 := fun h => hm ((toRat_eq_zero_iff s m e).mp h)
      have hpos : 0 < toRat (fin s m e) * toRat (fin s m e) := mul_self_pos.mpr hne
      rcases round_sign_pos hpos with h | h
      · exact Or.inr (Or.inl h)
      · exact Or.inr (Or.inr h)

/-- A sum of two data that are NaN, `+inf`, or finite with the sign bit clear is again such a
datum. -/
theorem add_sign {y z : Binary32}
    (hy : y = nan ∨ y = inf false ∨ ∃ m e, y = fin false m e)
    (hz : z = nan ∨ z = inf false ∨ ∃ m e, z = fin false m e) :
    y + z = nan ∨ y + z = inf false ∨ ∃ m e, y + z = fin false m e := by
  rw [add_def]
  rcases hy with rfl | rfl | ⟨m, e, rfl⟩
  · exact Or.inl (by cases z <;> rfl)
  · rcases hz with rfl | rfl | ⟨n, f, rfl⟩
    · exact Or.inl rfl
    · exact Or.inr (Or.inl rfl)
    · exact Or.inr (Or.inl rfl)
  · rcases hz with rfl | rfl | ⟨n, f, rfl⟩
    · exact Or.inl rfl
    · exact Or.inr (Or.inl rfl)
    · unfold add; simp only
      have h0 : 0 ≤ toRat (fin false m e) + toRat (fin false n f) := by
        rw [toRat_pos_sign, toRat_pos_sign]
        exact add_nonneg (mul_nonneg (Nat.cast_nonneg m) (le_of_lt (two_zpow_pos e)))
          (mul_nonneg (Nat.cast_nonneg n) (le_of_lt (two_zpow_pos f)))
      rcases eq_or_lt_of_le h0 with hz | hpos
      · rw [if_pos hz.symm]
        exact Or.inr (Or.inr ⟨0, -149, rfl⟩)
      · rw [if_neg (ne_of_gt hpos)]
        rcases round_sign_pos hpos with h | h
        · exact Or.inr (Or.inl h)
        · exact Or.inr (Or.inr h)

/-- A datum that is NaN, `+inf`, or finite with the sign bit clear does not compare below
zero. -/
theorem not_lt_zero_of_sign {y : Binary32}
    (hy : y = nan ∨ y = inf false ∨ ∃ m e, y = fin false m e) : lt y 0 = false := by
  rw [zero_def]
  rcases hy with rfl | rfl | ⟨m, e, rfl⟩
  · rfl
  · rfl
  · unfold lt; simp only
    apply decide_eq_false
    rw [toRat_zero, toRat_pos_sign]
    exact not_lt.mpr (mul_nonneg (Nat.cast_nonneg m) (le_of_lt (two_zpow_pos e)))

theorem dot2_sign (v : float2 Binary32) :
    dsl_cuda.dot2 v v = nan ∨ dsl_cuda.dot2 v v = inf false ∨
      ∃ m e, dsl_cuda.dot2 v v = fin false m e :=
  add_sign (mul_self_sign v.x) (mul_self_sign v.y)

theorem dot3_sign (v : float3 Binary32) :
    dsl_cuda.dot3 v v = nan ∨ dsl_cuda.dot3 v v = inf false ∨
      ∃ m e, dsl_cuda.dot3 v v = fin false m e :=
  add_sign (add_sign (mul_self_sign v.x) (mul_self_sign v.y)) (mul_self_sign v.z)

/-- The rounding error of a positive magnitude, relative with an absolute term for the
subnormal range. -/
theorem uround_rel_error {a : ℚ} (ha : 0 < a) :
    |uround a - a| ≤ a * 2 ^ (-24 : ℤ) + 2 ^ (-150 : ℤ) := by
  have two_ne : (2 : ℚ) ≠ 0 := by norm_num
  have h := uround_error a
  have hs := (ilog2_spec ha).1
  have p1 : (0 : ℚ) < 2 ^ (-150 : ℤ) := two_zpow_pos _
  have p2 : (0 : ℚ) ≤ a * 2 ^ (-24 : ℤ) := mul_nonneg (le_of_lt ha) (le_of_lt (two_zpow_pos _))
  rcases le_total (ilog2 a - 23) (-149) with hc | hc
  · have hq : qexp a = -149 := by unfold qexp; exact max_eq_right hc
    rw [hq] at h
    have : ((-149 : ℤ) - 1) = -150 := by norm_num
    rw [this] at h
    linarith
  · have hq : qexp a = ilog2 a - 23 := by unfold qexp; exact max_eq_left hc
    rw [hq] at h
    have : (2 : ℚ) ^ (ilog2 a - 23 - 1) = 2 ^ ilog2 a * 2 ^ (-24 : ℤ) := by
      rw [← zpow_add₀ two_ne]; congr 1; ring
    rw [this] at h
    have := mul_le_mul_of_nonneg_right hs (le_of_lt (two_zpow_pos (-24)))
    linarith

/-- Squaring a finite datum whose exact square is within relative distance `2 ^ (-24)`
(twice) of `D`: the float square is finite and near `D`. -/
theorem sq_near {s : Binary32} (hs : s.isFin = true) {D : ℚ} (hD : 0 ≤ D)
    (hD2 : D < 2 ^ 127)
    (lo : (1 - 2 ^ (-24 : ℤ)) ^ 2 * D ≤ toRat s * toRat s)
    (hi : toRat s * toRat s ≤ (1 + 2 ^ (-24 : ℤ)) ^ 2 * D) :
    (s * s).isFin = true ∧
    |toRat (s * s) - D| ≤ 2 ^ (-22 : ℤ) * D + 2 ^ (-150 : ℤ) := by
  have h24 : (2 : ℚ) ^ (-24 : ℤ) = 1 / 16777216 := by norm_num
  have h22 : (2 : ℚ) ^ (-22 : ℤ) = 1 / 4194304 := by norm_num
  rw [h24] at lo hi
  rw [h22]
  have p1 : (0 : ℚ) < 2 ^ (-150 : ℤ) := two_zpow_pos _
  cases s with
  | nan => exact absurd hs (by simp [isFin])
  | inf t => exact absurd hs (by simp [isFin])
  | fin ss sm se =>
    obtain ⟨h1, h2, -⟩ := mul_fin_spec ss ss sm sm se se
    rw [mul_def]
    generalize toRat (fin ss sm se) * toRat (fin ss sm se) = a at lo hi h2
    have ha0 : 0 ≤ a := by
      have : (0 : ℚ) ≤ (1 - 1 / 16777216) ^ 2 * D := mul_nonneg (by norm_num) hD
      linarith
    have hbig : a ≤ ((8388610 : ℕ) : ℚ) * 2 ^ (104 : ℤ) := by
      have e1 : (((8388610 : ℕ) : ℚ)) * 2 ^ (104 : ℤ) = 8388610 / 8388608 * 2 ^ 127 := by
        norm_num
      rw [e1]
      have : (1 + 1 / 16777216 : ℚ) ^ 2 * D ≤ 8388610 / 8388608 * D :=
        mul_le_mul_of_nonneg_right (by norm_num) hD
      linarith
    have hr : |rext a - a| ≤ a * (1 / 16777216) + 2 ^ (-150 : ℤ) ∧ rext a < 2 ^ 128 ∧
        0 ≤ rext a := by
      rcases eq_or_lt_of_le ha0 with hz | hpos
      · rw [← hz, rext_zero]
        refine ⟨?_, by positivity, le_refl _⟩
        simp only [sub_self, abs_zero, zero_mul, zero_add]
        exact le_of_lt p1
      · have hu := uround_le_exact hpos (by norm_num) (by norm_num) hbig
        have hlt : uround a < 2 ^ 128 := by
          have : (((8388610 : ℕ) : ℚ)) * 2 ^ (104 : ℤ) < 2 ^ 128 := by norm_num
          linarith
        rw [rext_of_pos hpos, min_eq_left (le_of_lt hlt)]
        have := uround_rel_error hpos
        rw [h24] at this
        exact ⟨this, hlt, uround_nonneg _ ha0⟩
    obtain ⟨r1, r2, r3⟩ := hr
    obtain ⟨t, m, e, hfin⟩ := fin_of_ext h1
      (by rw [h2]; have : (0 : ℚ) < 2 ^ 128 := by positivity
          linarith)
      (by rw [h2]; exact r2)
    rw [hfin] at h2 ⊢
    refine ⟨rfl, ?_⟩
    have hv : toRat (fin t m e) = rext a := h2
    rw [hv]
    obtain ⟨r1a, r1b⟩ := abs_le.mp r1
    have c1 : (1 + 1 / 16777216 : ℚ) ^ 2 * D * (1 + 1 / 16777216) ≤ (1 + 1 / 4194304) * D := by
      have : (1 + 1 / 16777216 : ℚ) ^ 2 * D * (1 + 1 / 16777216) =
          ((1 + 1 / 16777216 : ℚ) ^ 2 * (1 + 1 / 16777216)) * D := by ring
      rw [this]
      exact mul_le_mul_of_nonneg_right (by norm_num) hD
    have c2 : (1 - 1 / 4194304) * D ≤ (1 - 1 / 16777216 : ℚ) ^ 2 * D * (1 - 1 / 16777216) := by
      have : (1 - 1 / 16777216 : ℚ) ^ 2 * D * (1 - 1 / 16777216) =
          ((1 - 1 / 16777216 : ℚ) ^ 2 * (1 - 1 / 16777216)) * D := by ring
      rw [this]
      exact mul_le_mul_of_nonneg_right (by norm_num) hD
    have c3 : a * (1 + 1 / 16777216) ≤ (1 + 1 / 16777216 : ℚ) ^ 2 * D * (1 + 1 / 16777216) :=
      mul_le_mul_of_nonneg_right hi (by norm_num)
    have c4 : (1 - 1 / 16777216 : ℚ) ^ 2 * D * (1 - 1 / 16777216) ≤ a * (1 - 1 / 16777216) :=
      mul_le_mul_of_nonneg_right lo (by norm_num)
    rw [abs_le]
    constructor <;> linarith

/-- A non-negative value within relative distance `2 ^ (-24)` of the real square root of `D`
has its square between `(1 - 2 ^ (-24)) ^ 2 * D` and `(1 + 2 ^ (-24)) ^ 2 * D`. -/
theorem sqrt_bounds {σ D : ℚ} (hD : 0 ≤ D)
    (h : |((σ : ℚ) : ℝ) - Real.sqrt ((D : ℚ) : ℝ)| ≤ 2 ^ (-24 : ℤ) * Real.sqrt ((D : ℚ) : ℝ)) :
    (1 - 2 ^ (-24 : ℤ)) ^ 2 * D ≤ σ * σ ∧ σ * σ ≤ (1 + 2 ^ (-24 : ℤ)) ^ 2 * D := by
  have hDr : (0 : ℝ) ≤ ((D : ℚ) : ℝ) := by exact_mod_cast hD
  have hr0 : 0 ≤ Real.sqrt ((D : ℚ) : ℝ) := Real.sqrt_nonneg _
  have hrr : Real.sqrt ((D : ℚ) : ℝ) * Real.sqrt ((D : ℚ) : ℝ) = ((D : ℚ) : ℝ) :=
    Real.mul_self_sqrt hDr
  have h24 : (2 : ℝ) ^ (-24 : ℤ) = 1 / 16777216 := by norm_num
  have h24q : (2 : ℚ) ^ (-24 : ℤ) = 1 / 16777216 := by norm_num
  rw [h24] at h
  rw [h24q]
  obtain ⟨a1, a2⟩ := abs_le.mp h
  generalize Real.sqrt ((D : ℚ) : ℝ) = r at hr0 hrr a1 a2
  have lo : (1 - 1 / 16777216) * r ≤ (σ : ℝ) := by linarith
  have hi : (σ : ℝ) ≤ (1 + 1 / 16777216) * r := by linarith
  have lo0 : 0 ≤ (1 - 1 / 16777216) * r := mul_nonneg (by norm_num) hr0
  have s0 : (0 : ℝ) ≤ (σ : ℝ) := le_trans lo0 lo
  have lo2 : ((1 - 1 / 16777216) * r) * ((1 - 1 / 16777216) * r) ≤ (σ : ℝ) * (σ : ℝ) :=
    mul_le_mul lo lo lo0 s0
  have hi2 : (σ : ℝ) * (σ : ℝ) ≤ ((1 + 1 / 16777216) * r) * ((1 + 1 / 16777216) * r) :=
    mul_le_mul hi hi s0 (le_trans s0 hi)
  have e1 : ((1 - 1 / 16777216) * r) * ((1 - 1 / 16777216) * r) =
      (1 - 1 / 16777216) ^ 2 * ((D : ℚ) : ℝ) := by rw [← hrr]; ring
  have e2 : ((1 + 1 / 16777216) * r) * ((1 + 1 / 16777216) * r) =
      (1 + 1 / 16777216) ^ 2 * ((D : ℚ) : ℝ) := by rw [← hrr]; ring
  rw [e1] at lo2
  rw [e2] at hi2
  constructor
  · have : (((1 - 1 / 16777216) ^ 2 * D : ℚ) : ℝ) ≤ ((σ * σ : ℚ) : ℝ) := by
      push_cast; exact lo2
    exact_mod_cast this
  · have : ((σ * σ : ℚ) : ℝ) ≤ (((1 + 1 / 16777216) ^ 2 * D : ℚ) : ℝ) := by
      push_cast; exact hi2
    exact_mod_cast this

/-- The square of an accurate square root of a finite `d` that does not compare below zero:
finite and near `d`. -/
theorem length_sq_near (sqrtf : Binary32 → Binary32) {d : Binary32}
    (hsign : d = nan ∨ d = inf false ∨ ∃ m e, d = fin false m e)
    (hd : d.isFin = true) (hd2 : toRat d < 2 ^ 127) (hs : (sqrtf d).isFin = true)
    (h : |(((sqrtf d).toRat : ℚ) : ℝ) - Real.sqrt ((d.toRat : ℚ) : ℝ)| ≤
      2 ^ (-24 : ℤ) * Real.sqrt ((d.toRat : ℚ) : ℝ)) :
    (sqrtf d * sqrtf d).isFin = true ∧
    |toRat (sqrtf d * sqrtf d) - toRat d| ≤ 2 ^ (-22 : ℤ) * toRat d + 2 ^ (-150 : ℤ) := by
  have hD : 0 ≤ toRat d := by
    rcases hsign with rfl | rfl | ⟨m, e, rfl⟩
    · exact absurd hd (by simp [isFin])
    · exact absurd hd (by simp [isFin])
    · rw [toRat_pos_sign]
      exact mul_nonneg (Nat.cast_nonneg m) (le_of_lt (two_zpow_pos e))
  obtain ⟨lo, hi⟩ := sqrt_bounds hD h
  exact sq_near hs hD hd2 lo hi

end Binary32

/-- C7 fails as stated, in IEEE binary32 arithmetic. With a NaN lane `dot(v, v)` is NaN and
`length(v) * length(v) == dot(v, v)` is false whatever `sqrtf` returns. And for the finite
vector `(3e19f, 4e19f)` the sum of squares overflows: `dot(v, v)` is `+inf`, while the exact
sum of the squared lanes is a finite number above `2^128`. -/
theorem C7_length_sq_ne_dot :
    dsl_cuda.dot2 (float2.mk Binary32.nan 1) (float2.mk Binary32.nan 1) = Binary32.nan ∧
    (∀ sqrtf : Binary32 → Binary32,
      Binary32.eq (dsl_cuda.length2 sqrtf (float2.mk Binary32.nan 1) *
        dsl_cuda.length2 sqrtf (float2.mk Binary32.nan 1))
        (dsl_cuda.dot2 (float2.mk Binary32.nan 1) (float2.mk Binary32.nan 1)) = false) ∧
    Binary32.Finite (Binary32.fin false 13642421 41) ∧
    Binary32.Finite (Binary32.fin false 9094947 42) ∧
    dsl_cuda.dot2 (float2.mk (Binary32.fin false 13642421 41) (Binary32.fin false 9094947 42))
      (float2.mk (Binary32.fin false 13642421 41) (Binary32.fin false 9094947 42)) =
        Binary32.inf false ∧
    (2 : ℚ) ^ 128 < Binary32.toRat (Binary32.fin false 13642421 41) *
        Binary32.toRat (Binary32.fin false 13642421 41) +
      Binary32.toRat (Binary32.fin false 9094947 42) *
        Binary32.toRat (Binary32.fin false 9094947 42) := by
  have h : dsl_cuda.dot2 (float2.mk Binary32.nan 1) (float2.mk Binary32.nan 1) =
      Binary32.nan := by decide!
  refine ⟨h, ?_, by decide!, by decide!, by decide!, by decide!⟩
  intro sqrtf
  rw [h]
  generalize dsl_cuda.length2 sqrtf (float2.mk Binary32.nan 1) *
    dsl_cuda.length2 sqrtf (float2.mk Binary32.nan 1) = y
  cases y <;> rfl

/-- C7, amended: over the reals, with `sqrtf` the real square root, `length(v)^2 = dot(v, v)`
for every 2-wide and 3-wide vector `v`, where `dot(v, v)` is the sum of the squared lanes and
is never negative. In IEEE binary32 arithmetic `dot(v, v)` is the float sum of the float
squares of the lanes and never compares below zero (it may be NaN or `+inf`); and whenever
`dot(v, v)` is finite and below `2^127` and `sqrtf` returns at `dot(v, v)` a finite value
within relative error `2^(-24)` of the real square root, `length(v) * length(v)` is finite and
differs from `dot(v, v)` by at most `2^(-22) * dot(v, v) + 2^(-150)`. -/
theorem C7_length_sq_near_dot :
    (∀ v : float2 ℝ, dsl_cuda.length2 Real.sqrt v ^ 2 = dsl_cuda.dot2 v v ∧
      dsl_cuda.dot2 v v = v.x ^ 2 + v.y ^ 2 ∧ 0 ≤ dsl_cuda.dot2 v v) ∧
    (∀ v : float3 ℝ, dsl_cuda.length3 Real.sqrt v ^ 2 = dsl_cuda.dot3 v v ∧
      dsl_cuda.dot3 v v = v.x ^ 2 + v.y ^ 2 + v.z ^ 2 ∧ 0 ≤ dsl_cuda.dot3 v v) ∧
    (∀ v : float2 Binary32, dsl_cuda.dot2 v v = v.x * v.x + v.y * v.y ∧
      Binary32.lt (dsl_cuda.dot2 v v) 0 = false) ∧
    (∀ v : float3 Binary32, dsl_cuda.dot3 v v = v.x * v.x + v.y * v.y + v.z * v.z ∧
      Binary32.lt (dsl_cuda.dot3 v v) 0 = false) ∧
    (∀ (sqrtf : Binary32 → Binary32) (v : float2 Binary32),
      (dsl_cuda.dot2 v v).isFin = true → (dsl_cuda.dot2 v v).toRat < 2 ^ 127 →
      (sqrtf (dsl_cuda.dot2 v v)).isFin = true →
      |(((sqrtf (dsl_cuda.dot2 v v)).toRat : ℚ) : ℝ) -
          Real.sqrt (((dsl_cuda.dot2 v v).toRat : ℚ) : ℝ)| ≤
        2 ^ (-24 : ℤ) * Real.sqrt (((dsl_cuda.dot2 v v).toRat : ℚ) : ℝ) →
      (dsl_cuda.length2 sqrtf v * dsl_cuda.length2 sqrtf v).isFin = true ∧
      |(dsl_cuda.length2 sqrtf v * dsl_cuda.length2 sqrtf v).toRat -
          (dsl_cuda.dot2 v v).toRat| ≤
        2 ^ (-22 : ℤ) * (dsl_cuda.dot2 v v).toRat + 2 ^ (-150 : ℤ)) ∧
    (∀ (sqrtf : Binary32 → Binary32) (v : float3 Binary32),
      (dsl_cuda.dot3 v v).isFin = true → (dsl_cuda.dot3 v v).toRat < 2 ^ 127 →
      (sqrtf (dsl_cuda.dot3 v v)).isFin = true →
      |(((sqrtf (dsl_cuda.dot3 v v)).toRat : ℚ) : ℝ) -
          Real.sqrt (((dsl_cuda.dot3 v v).toRat : ℚ) : ℝ)| ≤
        2 ^ (-24 : ℤ) * Real.sqrt (((dsl_cuda.dot3 v v).toRat : ℚ) : ℝ) →
      (dsl_cuda.length3 sqrtf v * dsl_cuda.length3 sqrtf v).isFin = true ∧
      |(dsl_cuda.length3 sqrtf v * dsl_cuda.length3 sqrtf v).toRat -
          (dsl_cuda.dot3 v v).toRat| ≤
        2 ^ (-22 : ℤ) * (dsl_cuda.dot3 v v).toRat + 2 ^ (-150 : ℤ)) := by
  refine ⟨?_, ?_, ?_, ?_, ?_, ?_⟩
  · intro v
    have h0 : 0 ≤ dsl_cuda.dot2 v v := by
      unfold dsl_cuda.dot2
      exact add_nonneg (mul_self_nonneg _) (mul_self_nonneg _)
    refine ⟨?_, ?_, h0⟩
    · unfold dsl_cuda.length2
      exact Real.sq_sqrt h0
    · unfold dsl_cuda.dot2; ring
  · intro v
    have h0 : 0 ≤ dsl_cuda.dot3 v v := by
      unfold dsl_cuda.dot3
      exact add_nonneg (add_nonneg (mul_self_nonneg _) (mul_self_nonneg _)) (mul_self_nonneg _)
    refine ⟨?_, ?_, h0⟩
    · unfold dsl_cuda.length3
      exact Real.sq_sqrt h0
    · unfold dsl_cuda.dot3; ring
  · intro v
    exact ⟨rfl, Binary32.not_lt_zero_of_sign (Binary32.dot2_sign v)⟩
  · intro v
    exact ⟨rfl, Binary32.not_lt_zero_of_sign (Binary32.dot3_sign v)⟩
  · intro sqrtf v hd hd2 hs h
    exact Binary32.length_sq_near sqrtf (Binary32.dot2_sign v) hd hd2 hs h
  · intro sqrtf v hd hd2 hs h
    exact Binary32.length_sq_near sqrtf (Binary32.dot3_sign v) hd hd2 hs h

/-- C7, amended, at `v = (3, 4)` in binary32: `dot(v, v)` is `25`, and with a `sqrtf` that
returns `5` there, `length(v) * length(v)` is finite and within the stated distance of `25`. -/
theorem C7_length_sq_near_dot_witness :
    (dsl_cuda.length2 (fun _ => (5 : Binary32)) (float2.mk 3 4) *
      dsl_cuda.length2 (fun _ => (5 : Binary32)) (float2.mk 3 4)).isFin = true ∧
    |(dsl_cuda.length2 (fun _ => (5 : Binary32)) (float2.mk 3 4) *
        dsl_cuda.length2 (fun _ => (5 : Binary32)) (float2.mk 3 4)).toRat -
        (dsl_cuda.dot2 (float2.mk (3 : Binary32) 4) (float2.mk 3 4)).toRat| ≤
      2 ^ (-22 : ℤ) * (dsl_cuda.dot2 (float2.mk (3 : Binary32) 4) (float2.mk 3 4)).toRat +
        2 ^ (-150 : ℤ) :=
  C7_length_sq_near_dot.2.2.2.2.1 (fun _ => (5 : Binary32)) (float2.mk 3 4) (by decide!)
    (by decide!) (by decide!) (by
      have h5 : Binary32.toRat (5 : Binary32) = 5 := by decide!
      have hd : (dsl_cuda.dot2 (float2.mk (3 : Binary32) 4) (float2.mk 3 4)).toRat = 25 := by
        decide!
      have hs : Real.sqrt 25 = 5 := by
        rw [show (25 : ℝ) = 5 ^ 2 by norm_num]
        exact Real.sqrt_sq (by norm_num)
      simp only [h5, hd]
      push_cast
      rw [hs]
      norm_num)

/-! ## Thread-identity forms -/

/-- C14: for every state of the feature flag `dsl.h` includes exactly one adapter: the CUDA
adapter and not the Metal adapter when `SUPPORT_CUDA` is defined, the Metal adapter and not
the CUDA adapter when it is not. -/
theorem C14_selector_exactly_one (defined : List String) :
    (dsl.included defined).length = 1 ∧
    ("SUPPORT_CUDA" ∈ defined →
      "dsl_cuda.h" ∈ dsl.included defined ∧ "dsl_metal.h" ∉ dsl.included defined) ∧
    ("SUPPORT_CUDA" ∉ defined →
      "dsl_metal.h" ∈ dsl.included defined ∧ "dsl_cuda.h" ∉ dsl.included defined) := by
  unfold dsl.included
  by_cases h : "SUPPORT_CUDA" ∈ defined
  · rw [if_pos h]
    exact ⟨rfl, fun _ => ⟨by decide, by decide⟩, fun h' => absurd h h'⟩
  · rw [if_neg h]
    exact ⟨rfl, fun h' => absurd h' h, fun _ => ⟨by decide, by decide⟩⟩

/-- C14 with `SUPPORT_CUDA` defined among other symbols, and with no symbol defined. -/
theorem C14_selector_exactly_one_witness :
    ("dsl_cuda.h" ∈ dsl.included ["NDEBUG", "SUPPORT_CUDA"] ∧
      "dsl_metal.h" ∉ dsl.included ["NDEBUG", "SUPPORT_CUDA"]) ∧
    ("dsl_metal.h" ∈ dsl.included [] ∧ "dsl_cuda.h" ∉ dsl.included []) :=
  ⟨(C14_selector_exactly_one ["NDEBUG", "SUPPORT_CUDA"]).2.1 (by decide),
    (C14_selector_exactly_one []).2.2 (by decide)⟩

/-! ## Write-only parameters -/

/-- C18: in each adapter `param_dev_wo(T, name, slot)` expands to exactly the token sequence of
`param_dev_rw(T, name, slot)`, for every element type, name and slot. -/
theorem C18_wo_same_as_rw (T name slot : List Tok) :
    dsl_cuda.expand.param_dev_wo T name slot = dsl_cuda.expand.param_dev_rw T name slot ∧
    dsl_metal.expand.param_dev_wo T name slot = dsl_metal.expand.param_dev_rw T name slot :=
  ⟨rfl, rfl⟩

/-! ## `clamp_t` and `smoothstep` over ordered fields -/

/-- Over a linear order `min_t`, `max_t` and `clamp_t` are the lattice operations. -/
theorem clamp_t_eq_min_max {T : Type} [LinearOrder T] (x a b : T) :
    dsl_cuda.clamp_t x a b = min (max x a) b := by
  have hmax : dsl_cuda.max_t x a = max x a := by
    unfold dsl_cuda.max_t
    by_cases h : x > a
    · rw [if_pos h, max_eq_left (le_of_lt h)]
    · rw [if_neg h, max_eq_right (not_lt.mp h)]
  unfold dsl_cuda.clamp_t
  rw [hmax]
  unfold dsl_cuda.min_t
  by_cases h : max x a < b
  · rw [if_pos h, min_eq_left (le_of_lt h)]
  · rw [if_neg h, min_eq_right (not_lt.mp h)]

/-- The clamped parameter of `smoothstep` lies in `[0, 1]`. -/
theorem clamp01_mem {K : Type} [LinearOrderedField K] (u : K) :
    0 ≤ dsl_cuda.clamp_t u 0 1 ∧ dsl_cuda.clamp_t u 0 1 ≤ 1 := by
  rw [clamp_t_eq_min_max]
  exact ⟨le_min (le_max_right _ _) zero_le_one, min_le_right _ _⟩

/-- Clamping to `[0, 1]` is monotone. -/
theorem clamp01_mono {K : Type} [LinearOrderedField K] {u v : K} (h : u ≤ v) :
    dsl_cuda.clamp_t u 0 1 ≤ dsl_cuda.clamp_t v 0 1 := by
  rw [clamp_t_eq_min_max, clamp_t_eq_min_max]
  exact min_le_min (max_le_max h (le_refl _)) (le_refl _)

/-- The value of `smoothstep` is the Hermite polynomial at the clamped parameter. -/
theorem smoothstep_eq_hermite {K : Type} [LinearOrderedField K] (a b x : K) :
    dsl_cuda.smoothstep a b x =
      dsl_cuda.clamp_t ((x - a) / (b - a)) 0 1 * dsl_cuda.clamp_t ((x - a) / (b - a)) 0 1 *
        (3 - 2 * dsl_cuda.clamp_t ((x - a) / (b - a)) 0 1) := rfl

namespace Binary32

/-- The clamped parameter has a value in `[0, 1]`. -/
theorem clamp_unit (u : Binary32) :
    0 ≤ toRat (dsl_cuda.clamp_t u 0 1) ∧ toRat (dsl_cuda.clamp_t u 0 1) ≤ 1 := by
  rcases clamp_cases u with h | h | ⟨h, -, -, -, a0, a1⟩
  · rw [h, zero_def, toRat_zero]; norm_num
  · rw [h, one_def, toRat_one]; norm_num
  · rw [h]; exact ⟨le_of_lt a0, le_of_lt a1⟩

/-- For finite `a < b` the clamped parameter of `smoothstep` is non-decreasing in `x`. -/
theorem param_mono {a b x1 x2 : Binary32} (ha : Finite a) (hb : Finite b) (h1 : Finite x1)
    (h2 : Finite x2) (hab : toRat a < toRat b) (hx : toRat x1 ≤ toRat x2) :
    toRat (dsl_cuda.clamp_t ((x1 - a) / (b - a)) 0 1) ≤
      toRat (dsl_cuda.clamp_t ((x2 - a) / (b - a)) 0 1) := by
  rcases sub_parts ha hb (ne_of_lt hab) with ⟨s, hd⟩ | ⟨ds, dm, de, hd, hm, hF, hv⟩
  · rw [hd, clamp_div_inf, clamp_div_inf]
  · rw [param_val ha h1 hd hF hm, param_val ha h2 hd hF hm]
    have hD0 : 0 ≤ toRat (fin ds dm de) := by
      rw [hv]; exact rext_nonneg (by linarith)
    apply unit_clamp_mono
    apply rext_mono
    exact div_le_div_of_nonneg_right (rext_mono (by linarith)) hD0

end Binary32

/-- The Hermite polynomial `t * t * (3 - 2 * t)` is non-decreasing on `[0, 1]`. -/
theorem hermite_mono {K : Type} [LinearOrderedField K] {s t : K} (s0 : 0 ≤ s) (s1 : s ≤ 1)
    (t0 : 0 ≤ t) (t1 : t ≤ 1) (ht : s ≤ t) : s * s * (3 - 2 * s) ≤ t * t * (3 - 2 * t) := by
  have hd : 0 ≤ t - s := sub_nonneg.mpr ht
  have hq : 0 ≤ 3 * (s + t) - 2 * (s * s + s * t + t * t) := by
    nlinarith [mul_nonneg s0 (sub_nonneg.mpr s1), mul_nonneg t0 (sub_nonneg.mpr t1),
      mul_nonneg s0 (sub_nonneg.mpr t1), mul_nonneg t0 (sub_nonneg.mpr s1)]
  nlinarith [mul_nonneg hd hq]

/-- Over an ordered field, for `a < b`, `smoothstep(a, b, x)` is non-decreasing in `x`. -/
theorem smoothstep_mono_exact {K : Type} [LinearOrderedField K] (a b x1 x2 : K)
    (hab : a < b) (hx : x1 ≤ x2) :
    dsl_cuda.smoothstep a b x1 ≤ dsl_cuda.smoothstep a b x2 := by
  rw [smoothstep_eq_hermite, smoothstep_eq_hermite]
  have hu : (x1 - a) / (b - a) ≤ (x2 - a) / (b - a) :=
    div_le_div_of_nonneg_right (by linarith) (le_of_lt (sub_pos.mpr hab))
  have ht := clamp01_mono hu
  obtain ⟨s0, s1⟩ := clamp01_mem ((x1 - a) / (b - a))
  obtain ⟨t0, t1⟩ := clamp01_mem ((x2 - a) / (b - a))
  exact hermite_mono s0 s1 t0 t1 ht

/-- C16 fails as stated, in IEEE binary32 arithmetic: for `a = 0`, `b = 1` and the adjacent
floats `x1 = 14493919 * 2^(-29) < x2 = 14493920 * 2^(-29)`, `smoothstep(a, b, x1)` is
`9222007 * 2^(-32)` and `smoothstep(a, b, x2)` is `9222006 * 2^(-32)`, which is smaller. -/
theorem C16_smoothstep_not_monotone :
    Binary32.Finite (Binary32.fin false 14493919 (-29)) ∧
    Binary32.Finite (Binary32.fin false 14493920 (-29)) ∧
    Binary32.lt (0 : Binary32) 1 = true ∧
    Binary32.lt (Binary32.fin false 14493919 (-29)) (Binary32.fin false 14493920 (-29)) = true ∧
    dsl_cuda.smoothstep (0 : Binary32) 1 (Binary32.fin false 14493919 (-29)) =
      Binary32.fin false 9222007 (-32) ∧
    dsl_cuda.smoothstep (0 : Binary32) 1 (Binary32.fin false 14493920 (-29)) =
      Binary32.fin false 9222006 (-32) ∧
    Binary32.lt (dsl_cuda.smoothstep (0 : Binary32) 1 (Binary32.fin false 14493920 (-29)))
      (dsl_cuda.smoothstep (0 : Binary32) 1 (Binary32.fin false 14493919 (-29))) = true := by
  decide!

/-- C16, amended: over an ordered field (exact arithmetic), for `a < b`, `smoothstep(a, b, x)`
is non-decreasing in `x`. In IEEE binary32 arithmetic the computed value is, for all `a`, `b`,
`x`, within `3 * 2^(-25)` of the exact polynomial `t * t * (3 - 2 * t)` at the clamped
parameter `t` that the code computes; and for finite `a < b` and finite `x1 <= x2` that
parameter is non-decreasing in `x` and
`smoothstep(a, b, x1) <= smoothstep(a, b, x2) + 3 * 2^(-24)`: the computed values are
non-decreasing up to the rounding error of the polynomial. -/
theorem C16_smoothstep_monotone_up_to_rounding :
    (∀ (K : Type) [LinearOrderedField K] (a b x1 x2 : K), a < b → x1 ≤ x2 →
      dsl_cuda.smoothstep a b x1 ≤ dsl_cuda.smoothstep a b x2) ∧
    (∀ a b x : Binary32,
      |(dsl_cuda.smoothstep a b x).toRat -
        (dsl_cuda.clamp_t ((x - a) / (b - a)) 0 1).toRat *
        (dsl_cuda.clamp_t ((x - a) / (b - a)) 0 1).toRat *
        (3 - 2 * (dsl_cuda.clamp_t ((x - a) / (b - a)) 0 1).toRat)| ≤ 3 * 2 ^ (-25 : ℤ)) ∧
    (∀ a b x1 x2 : Binary32, a.Finite → b.Finite → x1.Finite → x2.Finite →
      a.toRat < b.toRat → x1.toRat ≤ x2.toRat →
      (dsl_cuda.clamp_t ((x1 - a) / (b - a)) 0 1).toRat ≤
        (dsl_cuda.clamp_t ((x2 - a) / (b - a)) 0 1).toRat ∧
      (dsl_cuda.smoothstep a b x1).toRat ≤
        (dsl_cuda.smoothstep a b x2).toRat + 3 * 2 ^ (-24 : ℤ)) := by
  have herr : ∀ a b x : Binary32,
      |(dsl_cuda.smoothstep a b x).toRat -
        (dsl_cuda.clamp_t ((x - a) / (b - a)) 0 1).toRat *
        (dsl_cuda.clamp_t ((x - a) / (b - a)) 0 1).toRat *
        (3 - 2 * (dsl_cuda.clamp_t ((x - a) / (b - a)) 0 1).toRat)| ≤ 3 * 2 ^ (-25 : ℤ) := by
    intro a b x
    obtain ⟨m, e, h, -, -, -, he⟩ := Binary32.smoothstep_spec a b x
    rw [h]; exact he
  refine ⟨fun K _ a b x1 x2 hab hx => smoothstep_mono_exact a b x1 x2 hab hx, herr, ?_⟩
  intro a b x1 x2 ha hb h1 h2 hab hx
  have hp := Binary32.param_mono ha hb h1 h2 hab hx
  refine ⟨hp, ?_⟩
  obtain ⟨s0, s1⟩ := Binary32.clamp_unit ((x1 - a) / (b - a))
  obtain ⟨t0, t1⟩ := Binary32.clamp_unit ((x2 - a) / (b - a))
  have hm := hermite_mono s0 s1 t0 t1 hp
  have e1 := abs_le.mp (herr a b x1)
  have e2 := abs_le.mp (herr a b x2)
  have h25 : (2 : ℚ) ^ (-25 : ℤ) = 1 / 33554432 := by norm_num
  have h24 : (2 : ℚ) ^ (-24 : ℤ) = 1 / 16777216 := by norm_num
  rw [h25] at e1 e2
  rw [h24]
  linarith [e1.2, e2.1]

/-- C16, amended, over the rationals at `a = 1`, `b = 3`, `x1 = 3/2`, `x2 = 2`, and in
binary32 at `a = 0`, `b = 1` and the adjacent floats `14493919 * 2^(-29)`,
`14493920 * 2^(-29)`. -/
theorem C16_smoothstep_monotone_up_to_rounding_witness :
    dsl_cuda.smoothstep (1 : ℚ) 3 (3 / 2) ≤ dsl_cuda.smoothstep (1 : ℚ) 3 2 ∧
    ((dsl_cuda.clamp_t ((Binary32.fin false 14493919 (-29) - 0) / ((1 : Binary32) - 0))
        0 1).toRat ≤
      (dsl_cuda.clamp_t ((Binary32.fin false 14493920 (-29) - 0) / ((1 : Binary32) - 0))
        0 1).toRat ∧
     (dsl_cuda.smoothstep (0 : Binary32) 1 (Binary32.fin false 14493919 (-29))).toRat ≤
      (dsl_cuda.smoothstep (0 : Binary32) 1 (Binary32.fin false 14493920 (-29))).toRat +
        3 * 2 ^ (-24 : ℤ)) :=
  ⟨C16_smoothstep_monotone_up_to_rounding.1 ℚ 1 3 (3 / 2) 2 (by norm_num) (by norm_num),
    C16_smoothstep_monotone_up_to_rounding.2.2 0 1 (Binary32.fin false 14493919 (-29))
      (Binary32.fin false 14493920 (-29)) (by decide!) (by decide!) (by decide!) (by decide!)
      (by decide!) (by decide!)⟩

/-- C17: over a totally ordered type, when the bounds are in the wrong order (`lo > hi`),
`clamp_t(x, lo, hi)` is `hi` whatever `x` is. -/
theorem C17_clamp_t_swapped_bounds {T : Type} [LinearOrder T] (x lo hi : T) (h : lo > hi) :
    dsl_cuda.clamp_t x lo hi = hi := by
  rw [clamp_t_eq_min_max]
  exact min_eq_right (le_trans (le_of_lt h) (le_max_right x lo))

/-- C17 on the integers: `clamp_t(3, 5, 2)`, `clamp_t(0, 5, 2)` and `clamp_t(9, 5, 2)` are
all `2`. -/
theorem C17_clamp_t_swapped_bounds_witness :
    dsl_cuda.clamp_t (3 : Int) 5 2 = 2 ∧ dsl_cuda.clamp_t (0 : Int) 5 2 = 2 ∧
    dsl_cuda.clamp_t (9 : Int) 5 2 = 2 :=
  ⟨C17_clamp_t_swapped_bounds 3 5 2 (by decide), C17_clamp_t_swapped_bounds 0 5 2 (by decide),
    C17_clamp_t_swapped_bounds 9 5 2 (by decide)⟩

/-! ## `fract` -/

/-- Over an ordered field with a floor function, with `floorf` the floor,
`0 <= fract(x) < 1` and `fract(x + n) = fract(x)` for every integer `n`. -/
theorem fract_exact {K : Type} [LinearOrderedField K] [FloorRing K] (x : K) (n : ℤ) :
    dsl_cuda.fract (fun y : K => ((⌊y⌋ : ℤ) : K)) x = x - ((⌊x⌋ : ℤ) : K) ∧
    0 ≤ dsl_cuda.fract (fun y : K => ((⌊y⌋ : ℤ) : K)) x ∧
    dsl_cuda.fract (fun y : K => ((⌊y⌋ : ℤ) : K)) x < 1 ∧
    dsl_cuda.fract (fun y : K => ((⌊y⌋ : ℤ) : K)) (x + (n : K)) =
      dsl_cuda.fract (fun y : K => ((⌊y⌋ : ℤ) : K)) x := by
  unfold dsl_cuda.fract
  refine ⟨rfl, sub_nonneg.mpr (Int.floor_le x), ?_, ?_⟩
  · have := Int.lt_floor_add_one x
    linarith
  · simp only [Int.floor_add_int]
    push_cast
    ring

/-- C19 fails as stated, in IEEE binary32 arithmetic with the IEEE floor. `fract(-2^(-25))` is
exactly `1`: the difference `-2^(-25) - (-1)` rounds to `1`, so `fract(x) < 1` is false. And
for `x = 0.1f` (`13421773 * 2^(-27)`) the float sum `x + 1` is rounded, and `fract(x + 1)` is
`13421776 * 2^(-27)`, which is not `fract(x) = x`. -/
theorem C19_fract_reaches_one :
    Binary32.Finite (Binary32.fin true 8388608 (-48)) ∧
    Binary32.toRat (Binary32.fin true 8388608 (-48)) = -(1 / 33554432) ∧
    dsl_cuda.fract Binary32.floor (Binary32.fin true 8388608 (-48)) = 1 ∧
    Binary32.lt (dsl_cuda.fract Binary32.floor (Binary32.fin true 8388608 (-48))) 1 = false ∧
    Binary32.Finite (Binary32.fin false 13421773 (-27)) ∧
    dsl_cuda.fract Binary32.floor (Binary32.fin false 13421773 (-27)) =
      Binary32.fin false 13421773 (-27) ∧
    dsl_cuda.fract Binary32.floor (Binary32.fin false 13421773 (-27) + 1) =
      Binary32.fin false 13421776 (-27) ∧
    Binary32.eq (dsl_cuda.fract Binary32.floor (Binary32.fin false 13421773 (-27) + 1))
      (dsl_cuda.fract Binary32.floor (Binary32.fin false 13421773 (-27))) = false := by
  decide!

/-- C19, amended: over an ordered field with a floor function (exact arithmetic, the reals or
the rationals), `0 <= fract(x) < 1` and `fract(x + n) = fract(x)` for every integer `n`. In
IEEE binary32 arithmetic, with `floorf` the IEEE floor, for every finite `x` the value
`fract(x)` is finite with `0 <= fract(x) <= 1`, and `fract(x) < 1` unless
`-2^(-25) <= x < 0`; and `fract(y) == fract(x)` whenever the finite `y` has exactly the value
`x + n` for an integer `n` (the sum is not rounded). -/
theorem C19_fract_unit_interval :
    (∀ (K : Type) [LinearOrderedField K] [FloorRing K] (x : K) (n : ℤ),
      0 ≤ dsl_cuda.fract (fun y : K => ((⌊y⌋ : ℤ) : K)) x ∧
      dsl_cuda.fract (fun y : K => ((⌊y⌋ : ℤ) : K)) x < 1 ∧
      dsl_cuda.fract (fun y : K => ((⌊y⌋ : ℤ) : K)) (x + (n : K)) =
        dsl_cuda.fract (fun y : K => ((⌊y⌋ : ℤ) : K)) x) ∧
    (∀ x : Binary32, x.Finite →
      (dsl_cuda.fract Binary32.floor x).Finite ∧
      0 ≤ (dsl_cuda.fract Binary32.floor x).toRat ∧
      (dsl_cuda.fract Binary32.floor x).toRat ≤ 1 ∧
      ((0 ≤ x.toRat ∨ x.toRat < -2 ^ (-25 : ℤ)) →
        (dsl_cuda.fract Binary32.floor x).toRat < 1)) ∧
    (∀ (x y : Binary32) (n : ℤ), x.Finite → y.Finite → y.toRat = x.toRat + (n : ℚ) →
      Binary32.eq (dsl_cuda.fract Binary32.floor y) (dsl_cuda.fract Binary32.floor x) = true) := by
  refine ⟨fun K _ _ x n => (fract_exact x n).2, ?_, ?_⟩
  · intro x hx
    obtain ⟨s, m, e, h, hF, hv, r0, r1⟩ := Binary32.fract_val hx
    rw [h, hv]
    refine ⟨hF, r0, r1, ?_⟩
    intro hcase
    cases x with
    | nan => exact absurd hx (by simp [Binary32.Finite])
    | inf s => exact absurd hx (by simp [Binary32.Finite])
    | fin xs xm xe =>
      have hg := Binary32.frac_grid hx hcase
      have q0 : 0 ≤ Binary32.toRat (Binary32.fin xs xm xe) -
          ((⌊Binary32.toRat (Binary32.fin xs xm xe)⌋ : ℤ) : ℚ) :=
        sub_nonneg.mpr (Int.floor_le _)
      rcases eq_or_lt_of_le q0 with hz | hpos
      · rw [← hz, Binary32.rext_zero]; norm_num
      · rw [Binary32.rext_of_pos hpos]
        have h1 := Binary32.uround_lt_one hpos hg
        have h24 : (2 : ℚ) ^ (-24 : ℤ) = 1 / 16777216 := by norm_num
        rw [h24] at h1
        have := min_le_left (Binary32.uround (Binary32.toRat (Binary32.fin xs xm xe) -
          ((⌊Binary32.toRat (Binary32.fin xs xm xe)⌋ : ℤ) : ℚ))) (2 ^ 128)
        linarith
  · intro x y n hx hy hxy
    obtain ⟨s, m, e, h, -, hv, -, -⟩ := Binary32.fract_val hx
    obtain ⟨s', m', e', h', -, hv', -, -⟩ := Binary32.fract_val hy
    rw [h, h']
    unfold Binary32.eq
    simp only
    apply decide_eq_true
    rw [hv, hv', hxy, Int.floor_add_int]
    push_cast
    congr 1
    ring

/-- C19, amended, over the rationals at `x = 7/4`, `n = 3`, and in binary32 at `x = 1.75`
(`fract` is `0.75`, below `1`) and at `y = 4.75 = x + 3`. -/
theorem C19_fract_unit_interval_witness :
    (0 ≤ dsl_cuda.fract (fun y : ℚ => ((⌊y⌋ : ℤ) : ℚ)) (7 / 4) ∧
      dsl_cuda.fract (fun y : ℚ => ((⌊y⌋ : ℤ) : ℚ)) (7 / 4) < 1 ∧
      dsl_cuda.fract (fun y : ℚ => ((⌊y⌋ : ℤ) : ℚ)) (7 / 4 + ((3 : ℤ) : ℚ)) =
        dsl_cuda.fract (fun y : ℚ => ((⌊y⌋ : ℤ) : ℚ)) (7 / 4)) ∧
    (dsl_cuda.fract Binary32.floor (Binary32.fin false 14680064 (-23))).toRat < 1 ∧
    Binary32.eq (dsl_cuda.fract Binary32.floor (Binary32.fin false 9961472 (-21)))
      (dsl_cuda.fract Binary32.floor (Binary32.fin false 14680064 (-23))) = true :=
  ⟨C19_fract_unit_interval.1 ℚ (7 / 4) 3,
    (C19_fract_unit_interval.2.1 (Binary32.fin false 14680064 (-23)) (by decide!)).2.2.2
      (Or.inl (by decide!)),
    C19_fract_unit_interval.2.2 (Binary32.fin false 14680064 (-23))
      (Binary32.fin false 9961472 (-21)) 3 (by decide!) (by decide!) (by decide!)⟩

/-! ## Access mode of the parameter forms -/

/-- C12, evaluated on the two headers: `min_t`, `max_t`, `clamp_t` and `restrict_ptr` are
defined by `dsl_cuda.h` and under no parameter count by `dsl_metal.h`; `restrict`,
`device_ptr`, `device_cptr` and `constant_ref` are defined by `dsl_metal.h` and not by
`dsl_cuda.h`; the factories, `threadgroup_mem`, `thread_local`, the four parameter forms, the
two thread-identity forms and the barrier are defined by both with the same parameter
counts. -/
theorem C12_vocabulary_differs :
    (∀ n ∈ ["min_t", "max_t", "clamp_t", "restrict_ptr"],
      n ∈ dsl_cuda.symbols.map DefinedName.name ∧
      n ∉ dsl_metal.symbols.map DefinedName.name) ∧
    (∀ n ∈ ["restrict", "device_ptr", "device_cptr", "constant_ref"],
      n ∈ dsl_metal.symbols.map DefinedName.name ∧
      n ∉ dsl_cuda.symbols.map DefinedName.name) ∧
    (∀ d ∈ ([⟨"make_float2", some 2⟩, ⟨"make_float3", some 3⟩, ⟨"make_float4", some 4⟩,
        ⟨"make_uint2", some 2⟩, ⟨"make_uint3", some 3⟩, ⟨"make_uint4", some 4⟩,
        ⟨"threadgroup_mem", none⟩, ⟨"thread_local", none⟩,
        ⟨"param_dev_ro", some 3⟩, ⟨"param_dev_rw", some 3⟩, ⟨"param_dev_wo", some 3⟩,
        ⟨"param_dev_cbuf", some 3⟩, ⟨"thread_pos_param", some 1⟩, ⟨"thread_pos_init", some 1⟩,
        ⟨"threadgroup_barrier_all", some 0⟩] : List DefinedName),
      d ∈ dsl_cuda.symbols ∧ d ∈ dsl_metal.symbols) := by
  decide
